import Mathlib

/-!
Verification development for a structural value codec (structured serialize /
deserialize over a JSON-shaped envelope).

The in-memory value graph is modelled as a heap: a list of heap objects, where
an address is an index into that list.  A value is either a primitive or an
address.  JS numbers, bigints and dates are identified by their canonical
string representations (the string produced by toString respectively
toISOString); on such canonical strings the host conversions Number, BigInt and
new Date are the identity, which is how they are modelled here.  The JSON text
layer (JSON.stringify / JSON.parse) is modelled as the identity on the
envelope data type: the envelope is a plain tree of tagged records, strings and
numbers, on which stringify followed by parse is exact.  An optional field that
is undefined is dropped by JSON.stringify, which the model captures by an
Option field (none meaning the field is absent from the text).
-/

namespace WeegSerializer

/-- A JS value: a primitive, a symbol, or a reference to a heap object.
Numbers and bigints carry their canonical decimal string. -/
inductive JSValue where
  | undef
  | null
  | bool (b : Bool)
  | num (s : String)
  | bigintVal (s : String)
  | str (s : String)
  | sym (id : Nat)
  | addr (a : Nat)
deriving DecidableEq, Repr

/-- A heap object, one per non-primitive JS value.  The view constructor
carries the constructor name observed via value.constructor.name, the address
of its backing ArrayBuffer (value.buffer), and byteOffset / byteLength.  Array
objects carry their length and their own index-valued properties in ascending
index order (other own named properties of arrays are not modelled); the
length own property itself is materialized by the serializer where property
enumeration places it.  Error objects carry the name and, when an own message
data property exists, the String coercion of its value. -/
inductive JSObject where
  | boxedBoolean (b : Bool)
  | boxedNumber (s : String)
  | boxedString (s : String)
  | date (iso : String)
  | regexp (source flags : String)
  | arrayBuffer (bytes : List Nat)
  | view (ctorName : String) (bufferAddr : Nat) (byteOffset byteLength : Nat)
  | map (entries : List (JSValue × JSValue))
  | set (elems : List JSValue)
  | error (name : String) (ownMessage : Option String)
  | array (length : Nat) (props : List (String × JSValue))
  | object (props : List (String × JSValue))
  | weakmap
  | weakset
  | promise
  | weakref
  | finalizationRegistry
  | func
deriving DecidableEq, Repr

/-- The heap: address a denotes the object at index a. -/
abbrev Heap := List JSObject

instance exceptDecEq {e a : Type} [DecidableEq e] [DecidableEq a] :
    DecidableEq (Except e a) := fun x y =>
  match x, y with
  | .ok u, .ok v =>
    if h : u = v then isTrue (by rw [h]) else isFalse (by simp [h])
  | .error u, .error v =>
    if h : u = v then isTrue (by rw [h]) else isFalse (by simp [h])
  | .ok _, .error _ => isFalse (by simp)
  | .error _, .ok _ => isFalse (by simp)

/-- The primitiveType discriminator of a primitive serialization. -/
inductive PrimitiveType where
  | undefined
  | null
  | boolean
  | number
  | string
  | bigint
deriving DecidableEq, Repr

/-- Mirrors the source type PrimitiveSerialization: a primitive tag plus the
string payload. -/
structure PrimitiveSerialization where
  primitiveType : PrimitiveType
  value : String
deriving DecidableEq, Repr

/-- Mirrors the source type ChildSerialization: an inlined primitive or a
reference id into the record array. -/
inductive ChildSerialization where
  | primitive (p : PrimitiveSerialization)
  | reference (referenceId : Nat)
deriving DecidableEq, Repr

/-- Mirrors the source union ComplexSerialization, one constructor per type
tag.  The extra constructor unknownType models a JSON record whose type tag
matches none of the recognized tags (the deserializer receives untyped parsed
JSON, so such records are possible inputs); the serializer never produces it. -/
inductive ComplexSerialization where
  | boolean (booleanData : String)
  | number (numberData : String)
  | string (stringData : String)
  | date (dateData : String)
  | regexp (originalSource originalFlags : String)
  | arrayBuffer (arrayBufferByteLength : Nat) (arrayBufferData : String)
  | arrayBufferView (typedArrayName : String) (typedArrayByteOffset typedArrayByteLength : Nat)
      (arrayBufferSerialized : ChildSerialization)
  | map (mapData : List (ChildSerialization × ChildSerialization))
  | set (setData : List ChildSerialization)
  | error (name : String) (message : Option String)
  | array (length : Nat) (properties : List (String × ChildSerialization))
  | object (properties : List (String × ChildSerialization))
  | unknownType (tag : String)
deriving DecidableEq, Repr

/-- Mirrors the source type TopLevelSerialization: either a record array plus a
top level child, or a bare primitive. -/
inductive TopLevelSerialization where
  | topLevel (objects : List ComplexSerialization) (topLevelValue : ChildSerialization)
  | primitive (p : PrimitiveSerialization)
deriving DecidableEq, Repr

/-- Encode-time memory: insertion-ordered association of already-visited values
with their (possibly still being filled) records.  The reference id of a value
is its key position, matching indexOf over the spread of memory.keys(). -/
abbrev Memory := List (JSValue × ComplexSerialization)

/-- Keys of the encode memory in insertion order. -/
def memKeys (m : Memory) : List JSValue := m.map Prod.fst

/-- Position of a value among the memory keys (first occurrence), mirroring
indexOf over the spread of memory.keys().  Returns the length when absent
(indexOf would return -1; the function is only consulted for present keys). -/
def memIndexOf : Memory → JSValue → Nat
  | [], _ => 0
  | e :: rest, v => if e.1 = v then 0 else memIndexOf rest v + 1

/-- Replace the record stored under an already-present key, modelling the
in-place mutation of the record object held by the memory map. -/
def memUpdate : Memory → JSValue → ComplexSerialization → Memory
  | [], _, _ => []
  | e :: rest, v, r => if e.1 = v then (v, r) :: rest else e :: memUpdate rest v r

/-- Errors thrown by the serializer (TypeError with the thrown message), plus
the two model-level failure modes: fuel exhaustion (stack growth in the host)
and a reference to an address not present in the heap. -/
inductive SerializeError where
  | typeError (msg : String)
  | outOfFuel
  | danglingAddress (a : Nat)
deriving DecidableEq, Repr

/-- String conversion of a boolean, as produced by toString. -/
def boolToString (b : Bool) : String := if b then "true" else "false"

/-- Error name normalization from the serializer: only the seven standard
names survive, anything else becomes Error. -/
def normalizeErrorName (name : String) : String :=
  if ["Error", "EvalError", "RangeError", "ReferenceError", "SyntaxError",
      "TypeError", "URIError"].contains name then name else "Error"

/-- Strings joined with a comma separator, as Array.prototype.join produces. -/
def joinWithComma : List String → String
  | [] => ""
  | [s] => s
  | s :: rest => s ++ "," ++ joinWithComma rest

/-- Byte list joined with commas, as produced by join on the spread of a
Uint8Array over the buffer. -/
def joinBytes (bytes : List Nat) : String :=
  joinWithComma (bytes.map (fun b => Nat.repr b))

/-- Split of a character list at every comma; the result always has one group
more than there are commas, so the empty list yields one empty group, matching
split on the empty string. -/
def splitCharsOnComma : List Char → List (List Char)
  | [] => [[]]
  | c :: cs =>
    let rest := splitCharsOnComma cs
    if c = ',' then [] :: rest
    else
      match rest with
      | [] => [[c]]
      | g :: gs => (c :: g) :: gs

/-- String.prototype.split with a comma separator. -/
def splitOnComma (s : String) : List String :=
  (splitCharsOnComma s.data).map (fun cs => String.mk cs)

/-- Own property names of an array as enumerated by getOwnPropertyNames:
the index properties in ascending order followed by the length property,
whose value is the length as a number. -/
def arrayOwnProperties (length : Nat) (props : List (String × JSValue)) :
    List (String × JSValue) :=
  props ++ [("length", JSValue.num (Nat.repr length))]

/-- Children of a heap object in the order the serializer visits them. -/
def objChildren : JSObject → List JSValue
  | .view _ bufferAddr _ _ => [.addr bufferAddr]
  | .map entries => entries.foldr (fun e acc => e.1 :: e.2 :: acc) []
  | .set elems => elems
  | .array length props => (arrayOwnProperties length props).map Prod.snd
  | .object props => props.map Prod.snd
  | _ => []

/-- Result type of one serializer step: the child node standing for the value,
and the updated memory. -/
abbrev SerResult := Except SerializeError (ChildSerialization × Memory)

/-- Completion of a shallow (childless at insertion time) record: the source
sets memory under the value and returns a Reference whose id is the indexOf of
the value among the keys. -/
def serializeFinishShallow (v : JSValue) (rec : ComplexSerialization) (m : Memory) : SerResult :=
  let m2 := m ++ [(v, rec)]
  .ok (.reference (memIndexOf m2 v), m2)

/-- Completion of a deep record: the shell stored under the value is replaced
by the filled record (mutation of the same record object in the source) and a
Reference to the indexOf of the value is returned. -/
def serializeFinishDeep (v : JSValue) (rec : ComplexSerialization) (m : Memory) : SerResult :=
  let m2 := memUpdate m v rec
  .ok (.reference (memIndexOf m2 v), m2)

/-- Serialization of a list of child values, left to right, threading the
memory; used for set elements. -/
def serializeChildList (recurse : JSValue → Memory → SerResult) :
    List JSValue → Memory → Except SerializeError (List ChildSerialization × Memory)
  | [], m => .ok ([], m)
  | v :: vs, m => do
    let (c, m1) ← recurse v m
    let (cs, m2) ← serializeChildList recurse vs m1
    .ok (c :: cs, m2)

/-- Serialization of map entries: for each entry the key is serialized, then
the value, and the pair is appended. -/
def serializeMapData (recurse : JSValue → Memory → SerResult) :
    List (JSValue × JSValue) → Memory →
    Except SerializeError (List (ChildSerialization × ChildSerialization) × Memory)
  | [], m => .ok ([], m)
  | e :: es, m => do
    let (ck, m1) ← recurse e.1 m
    let (cv, m2) ← recurse e.2 m1
    let (rest, m3) ← serializeMapData recurse es m2
    .ok ((ck, cv) :: rest, m3)

/-- Serialization of own properties of an array or plain object: each value is
serialized and paired with its key. -/
def serializeProperties (recurse : JSValue → Memory → SerResult) :
    List (String × JSValue) → Memory →
    Except SerializeError (List (String × ChildSerialization) × Memory)
  | [], m => .ok ([], m)
  | p :: ps, m => do
    let (c, m1) ← recurse p.2 m
    let (rest, m2) ← serializeProperties recurse ps m1
    .ok ((p.1, c) :: rest, m2)

/-- The recursive serializer.  Fuel bounds the recursion depth (each nested
call runs on fuel minus one); the host has no such bound and instead risks
stack exhaustion on very deep graphs.  The memory check precedes everything
else, then primitives return inline nodes, then the value is classified: a
shallow record is stored after its scalar fields (and, for a view, after its
backing buffer) are computed, while a container stores its empty shell first
and fills it after serializing the children, so that a child referring back to
the container finds it in memory and yields a Reference. -/
def structuredSerializeInternal (h : Heap) : Nat → JSValue → Memory → SerResult
  | 0, _, _ => .error .outOfFuel
  | fuel + 1, value, m =>
    if value ∈ memKeys m then
      .ok (.reference (memIndexOf m value), m)
    else
      match value with
      | .undef => .ok (.primitive ⟨.undefined, "undefined"⟩, m)
      | .null => .ok (.primitive ⟨.null, "null"⟩, m)
      | .bool b => .ok (.primitive ⟨.boolean, boolToString b⟩, m)
      | .num s => .ok (.primitive ⟨.number, s⟩, m)
      | .bigintVal s => .ok (.primitive ⟨.bigint, s⟩, m)
      | .str s => .ok (.primitive ⟨.string, s⟩, m)
      | .sym _ => .error (.typeError "Cannot serialize a Symbol")
      | .addr a =>
        match h.get? a with
        | none => .error (.danglingAddress a)
        | some o =>
          match o with
          | .boxedBoolean b =>
            serializeFinishShallow value (.boolean (boolToString b)) m
          | .boxedNumber s =>
            serializeFinishShallow value (.number s) m
          | .boxedString s =>
            serializeFinishShallow value (.string s) m
          | .date iso =>
            serializeFinishShallow value (.date iso) m
          | .regexp source flags =>
            serializeFinishShallow value (.regexp source flags) m
          | .arrayBuffer bytes =>
            serializeFinishShallow value (.arrayBuffer bytes.length (joinBytes bytes)) m
          | .view ctorName bufferAddr byteOffset byteLength => do
            let (bufferSerialized, m1) ←
              structuredSerializeInternal h fuel (.addr bufferAddr) m
            serializeFinishShallow value
              (.arrayBufferView ctorName byteOffset byteLength bufferSerialized) m1
          | .map entries => do
            let m1 := m ++ [(value, ComplexSerialization.map [])]
            let (mapData, m2) ←
              serializeMapData (structuredSerializeInternal h fuel) entries m1
            serializeFinishDeep value (.map mapData) m2
          | .set elems => do
            let m1 := m ++ [(value, ComplexSerialization.set [])]
            let (setData, m2) ←
              serializeChildList (structuredSerializeInternal h fuel) elems m1
            serializeFinishDeep value (.set setData) m2
          | .error name ownMessage =>
            serializeFinishShallow value (.error (normalizeErrorName name) ownMessage) m
          | .array length props => do
            let m1 := m ++ [(value, ComplexSerialization.array length [])]
            let (properties, m2) ←
              serializeProperties (structuredSerializeInternal h fuel)
                (arrayOwnProperties length props) m1
            serializeFinishDeep value (.array length properties) m2
          | .object props => do
            let m1 := m ++ [(value, ComplexSerialization.object [])]
            let (properties, m2) ←
              serializeProperties (structuredSerializeInternal h fuel) props m1
            serializeFinishDeep value (.object properties) m2
          | .weakmap => .error (.typeError "Cannot serialize a WeakMap or WeakSet")
          | .weakset => .error (.typeError "Cannot serialize a WeakMap or WeakSet")
          | .promise => .error (.typeError "Cannot serialize a Promise")
          | .weakref => .error (.typeError "Cannot serialize a WeakRef")
          | .finalizationRegistry =>
            .error (.typeError "Cannot serialize a FinalizationRegistry")
          | .func => .error (.typeError "Cannot serialize a function")

/-- Fuel sufficient for any value graph living inside the heap: the recursion
depth is bounded by the number of distinct non-primitive values, since every
nesting level first registers a fresh value in memory. -/
def serializeFuel (h : Heap) : Nat := h.length + 2

/-- Top-level serializer: runs the recursive serializer on a fresh memory and
wraps the result, with the bare fast path for a primitive outcome.  The record
array is the list of memory values in key order. -/
def structuredSerialize (h : Heap) (value : JSValue) :
    Except SerializeError TopLevelSerialization := do
  let (serialized, m) ← structuredSerializeInternal h (serializeFuel h) value []
  match serialized with
  | .primitive p => .ok (.primitive p)
  | .reference _ => .ok (.topLevel (m.map Prod.snd) serialized)

/-- Errors raised by the deserializer: TypeError (property access on an
undefined record when a reference id has no record), the plain Error thrown for
an unrecognized typed array name, RangeError from the typed array constructor,
and the model-level fuel exhaustion (host stack growth). -/
inductive DeserializeError where
  | typeError (msg : String)
  | unknownTypedArrayName
  | rangeError (msg : String)
  | outOfFuel
deriving DecidableEq, Repr

/-- Decode of an inlined primitive node.  On the canonical strings produced by
the serializer, the host conversions Number and BigInt are the identity, which
is how they are modelled on the string representation. -/
def decodePrimitive (p : PrimitiveSerialization) : JSValue :=
  match p.primitiveType with
  | .undefined => .undef
  | .null => .null
  | .boolean => .bool (p.value == "true")
  | .number => .num p.value
  | .bigint => .bigintVal p.value
  | .string => .str p.value

/-- Decimal digit value of a character, if it is a digit. -/
def decDigit? (c : Char) : Option Nat :=
  if c.isDigit then some (c.toNat - 48) else none

/-- Parse of a nonempty all-digit string as a natural number. -/
def decStrToNat? (s : String) : Option Nat :=
  if s.data.isEmpty then none
  else
    s.data.foldl
      (fun acc c =>
        match acc, decDigit? c with
        | some n, some d => some (n * 10 + d)
        | _, _ => none)
      (some 0)

/-- Conversion of one comma-separated part to a byte, modelling Number on the
part followed by the uint8 store of a Uint8Array element.  Parts that are
decimal numerals take their value modulo 256; the empty part (Number gives 0)
and non-numeric parts (Number gives NaN, stored as 0) give 0.  Negative or
fractional parts, which the serializer never produces, also map to 0 here. -/
def jsByteOfPart (s : String) : Nat :=
  (decStrToNat? s).getD 0 % 256

/-- Reconstruction of the byte list of an ArrayBuffer record: a zero-filled
buffer of the recorded size whose first entries are overwritten from the
comma-split data string (writes past the size are silently dropped, as stores
past the end of a Uint8Array are). -/
def decodeArrayBufferBytes (size : Nat) (dataStr : String) : List Nat :=
  let parts := splitOnComma dataStr
  (List.range size).map fun i =>
    match parts.get? i with
    | some part => jsByteOfPart part
    | none => 0

/-- Element width selected by the typed array name switch of the deserializer.
The DataView case of the source switch assigns the constructor but is missing
a break statement, so control falls through into the default branch and throws
the unknown-typed-array-name error; DataView therefore behaves like an
unrecognized name here, and none is returned for it. -/
def typedArrayBytesPerElement? : String → Option Nat
  | "Int8Array" => some 1
  | "Uint8Array" => some 1
  | "Uint8ClampedArray" => some 1
  | "Int16Array" => some 2
  | "Uint16Array" => some 2
  | "Int32Array" => some 4
  | "Uint32Array" => some 4
  | "Float32Array" => some 4
  | "Float64Array" => some 8
  | "BigInt64Array" => some 8
  | "BigUint64Array" => some 8
  | _ => none

/-- Decode-time state: the heap under construction and the memory from record
ids to already-reconstructed values. -/
structure DecodeState where
  heap : Heap
  memory : List (Nat × JSValue)
deriving DecidableEq, Repr

/-- The fresh decode state. -/
def DecodeState.initial : DecodeState := ⟨[], []⟩

/-- Lookup in the decode memory. -/
def memLookup : List (Nat × JSValue) → Nat → Option JSValue
  | [], _ => none
  | e :: rest, id => if e.1 = id then some e.2 else memLookup rest id

/-- Map-style set on the decode memory: replace in place if present, else
append. -/
def memSet : List (Nat × JSValue) → Nat → JSValue → List (Nat × JSValue)
  | [], id, v => [(id, v)]
  | e :: rest, id, v => if e.1 = id then (id, v) :: rest else e :: memSet rest id v

/-- Registration of a reconstructed value under its record id. -/
def memRegister (st : DecodeState) (id : Nat) (v : JSValue) : DecodeState :=
  { st with memory := memSet st.memory id v }

/-- Allocation of a fresh heap object; the new address is the old heap length. -/
def alloc (st : DecodeState) (o : JSObject) : Nat × DecodeState :=
  (st.heap.length, { st with heap := st.heap ++ [o] })

/-- Map.prototype.set semantics on an entry list: an existing key (compared by
value identity for references and by value for primitives, the SameValueZero
comparison) is updated in place, a new key is appended. -/
def mapSetEntry (entries : List (JSValue × JSValue)) (k v : JSValue) :
    List (JSValue × JSValue) :=
  if entries.any (fun e => e.1 = k) then
    entries.map fun e => if e.1 = k then (e.1, v) else e
  else entries ++ [(k, v)]

/-- Set.prototype.add semantics on an element list. -/
def setAddElem (elems : List JSValue) (v : JSValue) : List JSValue :=
  if elems.any (fun e => e = v) then elems else elems ++ [v]

/-- Ordinary property set on a key-value list: an existing key keeps its
position and takes the new value, a new key is appended. -/
def propSet (props : List (String × JSValue)) (key : String) (v : JSValue) :
    List (String × JSValue) :=
  if props.any (fun p => p.1 = key) then
    props.map fun p => if p.1 = key then (p.1, v) else p
  else props ++ [(key, v)]

/-- Whether a string is a canonical array index (the decimal numeral of a
natural number without leading zeros). -/
def isCanonicalIndex (key : String) : Bool :=
  match decStrToNat? key with
  | some i => Nat.repr i = key
  | none => false

/-- Reflect.set on a reconstructed array or plain object at the given address.
For an array, a canonical index key at or past the current length grows the
length as the host array setter does; an assignment to the length key is
modelled as leaving the array unchanged, since in every envelope the
serializer produces the assigned value equals the current length (general
length assignment semantics are not modelled). -/
def fillProperty (st : DecodeState) (a : Nat) (key : String) (v : JSValue) :
    DecodeState :=
  match st.heap.get? a with
  | some (.array length props) =>
    if key = "length" then st
    else
      let newLength :=
        match decStrToNat? key with
        | some i => if isCanonicalIndex key ∧ length ≤ i then i + 1 else length
        | none => length
      { st with heap := st.heap.set a (.array newLength (propSet props key v)) }
  | some (.object props) =>
    { st with heap := st.heap.set a (.object (propSet props key v)) }
  | _ => st

/-- Update of a reconstructed map at the given address with a decoded entry. -/
def fillMapEntry (st : DecodeState) (a : Nat) (k v : JSValue) : DecodeState :=
  match st.heap.get? a with
  | some (.map entries) =>
    { st with heap := st.heap.set a (.map (mapSetEntry entries k v)) }
  | _ => st

/-- Update of a reconstructed set at the given address with a decoded element. -/
def fillSetElem (st : DecodeState) (a : Nat) (v : JSValue) : DecodeState :=
  match st.heap.get? a with
  | some (.set elems) =>
    { st with heap := st.heap.set a (.set (setAddElem elems v)) }
  | _ => st

/-- Result type of one deserializer step. -/
abbrev DesResult := Except DeserializeError (JSValue × DecodeState)

/-- Population of a reconstructed map from its record entries: key then value
are decoded, then set on the map. -/
def deserializeMapData (recurse : ChildSerialization → DecodeState → DesResult) (a : Nat) :
    List (ChildSerialization × ChildSerialization) → DecodeState →
    Except DeserializeError DecodeState
  | [], st => .ok st
  | e :: es, st => do
    let (k, st1) ← recurse e.1 st
    let (v, st2) ← recurse e.2 st1
    deserializeMapData recurse a es (fillMapEntry st2 a k v)

/-- Population of a reconstructed set from its record elements. -/
def deserializeSetData (recurse : ChildSerialization → DecodeState → DesResult) (a : Nat) :
    List ChildSerialization → DecodeState → Except DeserializeError DecodeState
  | [], st => .ok st
  | c :: cs, st => do
    let (v, st1) ← recurse c st
    deserializeSetData recurse a cs (fillSetElem st1 a v)

/-- Population of a reconstructed array or plain object from its record
properties. -/
def deserializeProperties (recurse : ChildSerialization → DecodeState → DesResult) (a : Nat) :
    List (String × ChildSerialization) → DecodeState →
    Except DeserializeError DecodeState
  | [], st => .ok st
  | p :: ps, st => do
    let (v, st1) ← recurse p.2 st
    deserializeProperties recurse a ps (fillProperty st1 a p.1 v)

/-- The recursive deserializer.  A reference already in memory resolves at
once; a primitive node is decoded inline; otherwise the record for the id is
fetched (a missing record means the property access on undefined throws a
TypeError).  Non-container records are built whole; container records allocate
their empty shell.  The value is then registered in memory under the record id
(for containers this happens before any child is decoded, so children
referring back to the id resolve to the shell; for a view the backing buffer
is decoded before the view itself is registered).  A record whose type tag
matches no branch of the source if-chain leaves the value undefined, registers
undefined in memory, and returns it without raising anything. -/
def structuredDeserializeInternal (objects : List ComplexSerialization) :
    Nat → ChildSerialization → DecodeState → DesResult
  | 0, _, _ => .error .outOfFuel
  | fuel + 1, serialized, st =>
    match serialized with
    | .primitive p => .ok (decodePrimitive p, st)
    | .reference referenceId =>
      match memLookup st.memory referenceId with
      | some v => .ok (v, st)
      | none =>
        match objects.get? referenceId with
        | none => .error (.typeError "Cannot read properties of undefined")
        | some complexSerialized =>
          match complexSerialized with
          | .boolean booleanData =>
            let (a, st1) := alloc st (.boxedBoolean (booleanData == "true"))
            .ok (.addr a, memRegister st1 referenceId (.addr a))
          | .number numberData =>
            let (a, st1) := alloc st (.boxedNumber numberData)
            .ok (.addr a, memRegister st1 referenceId (.addr a))
          | .string stringData =>
            let (a, st1) := alloc st (.boxedString stringData)
            .ok (.addr a, memRegister st1 referenceId (.addr a))
          | .date dateData =>
            let (a, st1) := alloc st (.date dateData)
            .ok (.addr a, memRegister st1 referenceId (.addr a))
          | .regexp originalSource originalFlags =>
            let (a, st1) := alloc st (.regexp originalSource originalFlags)
            .ok (.addr a, memRegister st1 referenceId (.addr a))
          | .arrayBuffer arrayBufferByteLength arrayBufferData =>
            let (a, st1) :=
              alloc st (.arrayBuffer (decodeArrayBufferBytes arrayBufferByteLength arrayBufferData))
            .ok (.addr a, memRegister st1 referenceId (.addr a))
          | .arrayBufferView typedArrayName typedArrayByteOffset typedArrayByteLength
              arrayBufferSerialized =>
            match typedArrayBytesPerElement? typedArrayName with
            | none => .error .unknownTypedArrayName
            | some bpe => do
              let (bufferValue, st1) ←
                structuredDeserializeInternal objects fuel arrayBufferSerialized st
              match bufferValue with
              | .addr ba =>
                match st1.heap.get? ba with
                | some (.arrayBuffer bytes) =>
                  if typedArrayByteOffset % bpe ≠ 0 then
                    .error (.rangeError "start offset is not a multiple of the element size")
                  else if bytes.length < typedArrayByteOffset + typedArrayByteLength * bpe then
                    .error (.rangeError "Invalid typed array length")
                  else
                    let (a, st2) :=
                      alloc st1 (.view typedArrayName ba typedArrayByteOffset
                        (typedArrayByteLength * bpe))
                    .ok (.addr a, memRegister st2 referenceId (.addr a))
                | _ => .error (.typeError "first argument is not an ArrayBuffer")
              | _ => .error (.typeError "first argument is not an ArrayBuffer")
          | .map mapData => do
            let (a, st1) := alloc st (.map [])
            let st2 := memRegister st1 referenceId (.addr a)
            let st3 ←
              deserializeMapData (structuredDeserializeInternal objects fuel) a mapData st2
            .ok (.addr a, st3)
          | .set setData => do
            let (a, st1) := alloc st (.set [])
            let st2 := memRegister st1 referenceId (.addr a)
            let st3 ←
              deserializeSetData (structuredDeserializeInternal objects fuel) a setData st2
            .ok (.addr a, st3)
          | .error name message =>
            let (a, st1) := alloc st (.error name message)
            .ok (.addr a, memRegister st1 referenceId (.addr a))
          | .array length properties => do
            let (a, st1) := alloc st (.array length [])
            let st2 := memRegister st1 referenceId (.addr a)
            let st3 ←
              deserializeProperties (structuredDeserializeInternal objects fuel) a properties st2
            .ok (.addr a, st3)
          | .object properties => do
            let (a, st1) := alloc st (.object [])
            let st2 := memRegister st1 referenceId (.addr a)
            let st3 ←
              deserializeProperties (structuredDeserializeInternal objects fuel) a properties st2
            .ok (.addr a, st3)
          | .unknownType _ =>
            .ok (.undef, memRegister st referenceId .undef)

/-- Fuel sufficient for any envelope the serializer produces: every nesting
level past the first either registers a fresh record id or is an inline
primitive leaf, so the depth is bounded in the number of records. -/
def deserializeFuel (objects : List ComplexSerialization) : Nat :=
  2 * objects.length + 8

/-- Top-level deserializer: a bare primitive decodes directly; otherwise the
record array drives the reconstruction from a fresh state.  Returns the
decoded value together with the heap built for it. -/
def structuredDeserialize (serializedJson : TopLevelSerialization) :
    Except DeserializeError (JSValue × Heap) :=
  match serializedJson with
  | .primitive p => do
    let (v, st) ←
      structuredDeserializeInternal [] (deserializeFuel []) (.primitive p) DecodeState.initial
    .ok (v, st.heap)
  | .topLevel objects topLevelValue => do
    let (v, st) ←
      structuredDeserializeInternal objects (deserializeFuel objects) topLevelValue
        DecodeState.initial
    .ok (v, st.heap)

/-- Composition decode after encode, with failures of either stage collapsed
to none. -/
def roundTrip (h : Heap) (v : JSValue) : Option (JSValue × Heap) :=
  match structuredSerialize h v with
  | .error _ => none
  | .ok t =>
    match structuredDeserialize t with
    | .error _ => none
    | .ok r => some r

/-! Relabelling of record ids.  In the envelope format a record id is its
position in the objects array, so a reordering of the array in which every
record keeps its assigned id is a permutation of positions together with the
same renaming applied to every Reference id occurring in the envelope. -/

/-- Renaming of the reference id inside a child (primitives carry no id). -/
def relabelChild (p : Nat → Nat) : ChildSerialization → ChildSerialization
  | .primitive pr => .primitive pr
  | .reference referenceId => .reference (p referenceId)

/-- Renaming of every reference id occurring inside a record. -/
def relabelRec (p : Nat → Nat) : ComplexSerialization → ComplexSerialization
  | .boolean d => .boolean d
  | .number d => .number d
  | .string d => .string d
  | .date d => .date d
  | .regexp s f => .regexp s f
  | .arrayBuffer n d => .arrayBuffer n d
  | .arrayBufferView nm off len buf => .arrayBufferView nm off len (relabelChild p buf)
  | .map mapData => .map (mapData.map fun e => (relabelChild p e.1, relabelChild p e.2))
  | .set setData => .set (setData.map (relabelChild p))
  | .error nm msg => .error nm msg
  | .array len props => .array len (props.map fun q => (q.1, relabelChild p q.2))
  | .object props => .object (props.map fun q => (q.1, relabelChild p q.2))
  | .unknownType t => .unknownType t

/-- The decode state reached when decoding a relabelled envelope: the heap is
unchanged and the memory is keyed by the renamed ids. -/
def relabelState (p : Nat → Nat) (st : DecodeState) : DecodeState :=
  ⟨st.heap, st.memory.map fun e => (p e.1, e.2)⟩

/-- Whether an object is a buffer view. -/
def isViewObj : JSObject → Bool
  | .view _ _ _ _ => true
  | _ => false

/-- The name field of the error object stored at an address, when there is
one. -/
def heapErrorName (h : Heap) (a : Nat) : Option String :=
  match h.get? a with
  | some (.error nm _) => some nm
  | _ => none

/-- The observable message of an error built from an optional own message: the
own message when present, else the empty prototype default. -/
def jsErrorMessage (own : Option String) : String := own.getD ""

/-- The inline node the serializer produces for a primitive value (unused
filler for non-primitives). -/
def primitiveChild : JSValue → ChildSerialization
  | .undef => .primitive ⟨.undefined, "undefined"⟩
  | .null => .primitive ⟨.null, "null"⟩
  | .bool b => .primitive ⟨.boolean, boolToString b⟩
  | .num s => .primitive ⟨.number, s⟩
  | .bigintVal s => .primitive ⟨.bigint, s⟩
  | .str s => .primitive ⟨.string, s⟩
  | .sym _ => .reference 0
  | .addr _ => .reference 0

/-- Whether a value is a primitive other than a symbol. -/
def isPrimitiveNonSymbol : JSValue → Bool
  | .undef | .null | .bool _ | .num _ | .bigintVal _ | .str _ => true
  | _ => false

/-- The value decoded from a child node, for inline primitives (unused filler
for references). -/
def decodeChildPrim : ChildSerialization → JSValue
  | .reference _ => .undef
  | .primitive p => decodePrimitive p

/-- Whether a child node is an inline primitive. -/
def isPrimitiveChild : ChildSerialization → Bool
  | .primitive _ => true
  | .reference _ => false

/-- Whether a key is a canonical index strictly below the given length. -/
def isIndexKeyBelow (len : Nat) (key : String) : Bool :=
  match decStrToNat? key with
  | some i => isCanonicalIndex key && decide (i < len)
  | none => false

/-- Whether every reference in a child node lies below the bound. -/
def childRefsBounded (n : Nat) : ChildSerialization → Bool
  | .primitive _ => true
  | .reference id => decide (id < n)

/-- Whether every reference in a record lies below the bound. -/
def recRefsBounded (n : Nat) : ComplexSerialization → Bool
  | .arrayBufferView _ _ _ child => childRefsBounded n child
  | .map mapData => mapData.all (fun e => childRefsBounded n e.1 && childRefsBounded n e.2)
  | .set setData => setData.all (fun c => childRefsBounded n c)
  | .array _ properties => properties.all (fun p => childRefsBounded n p.2)
  | .object properties => properties.all (fun p => childRefsBounded n p.2)
  | _ => true

/-- Whether an envelope is internally well formed: a bare primitive, or a
record array whose top-level value and records reference only ids below the
record count. -/
def envelopeRefsBounded : TopLevelSerialization → Bool
  | .primitive _ => true
  | .topLevel objects topLevelValue =>
    childRefsBounded objects.length topLevelValue &&
      objects.all (fun rec => recRefsBounded objects.length rec)

/-- All records held in a memory reference only ids below the key count. -/
def MemBounded (m : Memory) : Prop :=
  ∀ e ∈ m, recRefsBounded m.length e.2 = true

/-- Whether an object is of an unsupported kind (rejected by the serializer). -/
def isUnsupportedObj : JSObject → Bool
  | .weakmap | .weakset | .promise | .weakref | .finalizationRegistry | .func => true
  | _ => false

/-- A value the serializer rejects: a symbol, or an address holding an
unsupported object. -/
def IsUnsupportedValue (h : Heap) (v : JSValue) : Prop :=
  (∃ i, v = .sym i) ∨ ∃ a o, v = .addr a ∧ h.get? a = some o ∧ isUnsupportedObj o = true

/-- Reachability along the children the serializer visits. -/
inductive Reaches (h : Heap) : JSValue → JSValue → Prop where
  | refl (v : JSValue) : Reaches h v v
  | tail {v x : JSValue} {a : Nat} {o : JSObject} :
      Reaches h v (.addr a) → h.get? a = some o → x ∈ objChildren o → Reaches h v x

/-- Executable heap well-formedness: children of every object point into the
heap, and the backing buffer of every view is an ArrayBuffer object. -/
def heapWFb (h : Heap) : Bool :=
  h.all fun o =>
    ((objChildren o).all fun w =>
      match w with
      | .addr b => decide (b < h.length)
      | _ => true) &&
    (match o with
     | .view _ ba _ _ =>
       match h.get? ba with
       | some (.arrayBuffer _) => true
       | _ => false
     | _ => true)

/-- Executable value well-formedness: an address value points into the heap. -/
def valueWFb (h : Heap) (v : JSValue) : Bool :=
  match v with
  | .addr a => decide (a < h.length)
  | _ => true

/-- All keys of the memory are supported values. -/
def KeysSupported (h : Heap) (m : Memory) : Prop :=
  ∀ k ∈ memKeys m, ¬ IsUnsupportedValue h k

/-- A value accounted for by the memory: supported, and present among the
keys if it is an address. -/
def ValueCovered (h : Heap) (m : Memory) (v : JSValue) : Prop :=
  ¬ IsUnsupportedValue h v ∧ ∀ a, v = JSValue.addr a → v ∈ memKeys m

/-- Every key of the larger memory that is not a key of the smaller one has
all its children covered by the larger memory. -/
def NewEntriesClosed (h : Heap) (m0 m : Memory) : Prop :=
  ∀ k ∈ memKeys m, k ∉ memKeys m0 → ∀ a, k = JSValue.addr a → ∀ o, h.get? a = some o →
    ∀ w ∈ objChildren o, ValueCovered h m w

/-- Number of heap addresses not yet visited. -/
def missingCount (h : Heap) (m : Memory) : Nat :=
  (List.range h.length).countP (fun x => decide (JSValue.addr x ∉ memKeys m))

/-- A serializer outcome that is a success or a thrown TypeError. -/
def SerOk {α : Type} (r : Except SerializeError α) : Prop :=
  (∃ x, r = .ok x) ∨ ∃ msg, r = .error (.typeError msg)

/-! Basic lemmas about the encode memory. -/

theorem memKeys_append (m1 m2 : Memory) : memKeys (m1 ++ m2) = memKeys m1 ++ memKeys m2 := by
  simp [memKeys]

theorem memKeys_memUpdate (m : Memory) (v : JSValue) (r : ComplexSerialization) :
    memKeys (memUpdate m v r) = memKeys m := by
  induction m with
  | nil => rfl
  | cons e rest ih =>
    simp only [memUpdate]
    by_cases hev : e.1 = v
    · simp [memKeys, hev]
    · simp [memKeys, hev] at ih ⊢
      exact ih

theorem memUpdate_append_of_not_mem (m l : Memory) (v : JSValue) (r : ComplexSerialization)
    (hv : v ∉ memKeys m) : memUpdate (m ++ l) v r = m ++ memUpdate l v r := by
  induction m with
  | nil => rfl
  | cons e rest ih =>
    simp only [memKeys, List.map_cons, List.mem_cons] at hv
    push_neg at hv
    have he : ¬ e.1 = v := fun hh => hv.1 hh.symm
    simp only [List.cons_append, memUpdate, he, if_false, List.append_eq]
    rw [ih hv.2]

theorem memIndexOf_append_of_not_mem (m l : Memory) (v : JSValue) (r : ComplexSerialization)
    (hv : v ∉ memKeys m) : memIndexOf (m ++ (v, r) :: l) v = m.length := by
  induction m with
  | nil => simp [memIndexOf]
  | cons e rest ih =>
    simp only [memKeys, List.map_cons, List.mem_cons] at hv
    push_neg at hv
    have he : ¬ e.1 = v := fun hh => hv.1 hh.symm
    simp only [List.cons_append, memIndexOf, he, if_false, List.length_cons, List.append_eq]
    rw [ih hv.2]

theorem memIndexOf_memUpdate (m : Memory) (w v : JSValue) (r : ComplexSerialization) :
    memIndexOf (memUpdate m w r) v = memIndexOf m v := by
  induction m with
  | nil => rfl
  | cons e rest ih =>
    simp only [memUpdate]
    by_cases hew : e.1 = w
    · subst hew
      simp [memIndexOf]
    · simp only [hew, if_false, memIndexOf, ih]

/-! Reduction lemmas for the Except bind used by the do blocks. -/

theorem exBind_ok {α β ε : Type} (a : α) (f : α → Except ε β) : (Except.ok a >>= f) = f a := rfl

theorem exBind_err {α β ε : Type} (e : ε) (f : α → Except ε β) :
    ((Except.error e : Except ε α) >>= f) = .error e := rfl

/-! Monotonicity: a successful serializer step only appends new entries after
the entries it was given (in-place record mutation never touches the keys nor
the entries present at call time, since the updated key is always fresh
relative to them). -/

theorem serializeChildList_mono (recurse : JSValue → Memory → SerResult)
    (hrec : ∀ v m r, recurse v m = .ok r → ∃ t, r.2 = m ++ t) :
    ∀ vs m r, serializeChildList recurse vs m = .ok r → ∃ t, r.2 = m ++ t := by
  intro vs
  induction vs with
  | nil =>
    intro m r hr
    simp only [serializeChildList] at hr
    cases hr
    exact ⟨[], by simp⟩
  | cons v rest ih =>
    intro m r hr
    simp only [serializeChildList] at hr
    cases h1 : recurse v m with
    | error e => rw [h1, exBind_err] at hr; exact absurd hr (by simp)
    | ok p1 =>
      rw [h1, exBind_ok] at hr
      obtain ⟨c, m1⟩ := p1
      cases h2 : serializeChildList recurse rest m1 with
      | error e => rw [h2, exBind_err] at hr; exact absurd hr (by simp)
      | ok p2 =>
        rw [h2, exBind_ok] at hr
        obtain ⟨cs, m2⟩ := p2
        cases hr
        obtain ⟨t1, ht1⟩ := hrec v m (c, m1) h1
        obtain ⟨t2, ht2⟩ := ih m1 (cs, m2) h2
        exact ⟨t1 ++ t2, by simp at ht1 ht2; simp [ht2, ht1]⟩

theorem serializeMapData_mono (recurse : JSValue → Memory → SerResult)
    (hrec : ∀ v m r, recurse v m = .ok r → ∃ t, r.2 = m ++ t) :
    ∀ es m r, serializeMapData recurse es m = .ok r → ∃ t, r.2 = m ++ t := by
  intro es
  induction es with
  | nil =>
    intro m r hr
    simp only [serializeMapData] at hr
    cases hr
    exact ⟨[], by simp⟩
  | cons e rest ih =>
    intro m r hr
    simp only [serializeMapData] at hr
    cases h1 : recurse e.1 m with
    | error er => rw [h1, exBind_err] at hr; exact absurd hr (by simp)
    | ok p1 =>
      rw [h1, exBind_ok] at hr
      obtain ⟨ck, m1⟩ := p1
      cases h2 : recurse e.2 m1 with
      | error er => rw [h2, exBind_err] at hr; exact absurd hr (by simp)
      | ok p2 =>
        rw [h2, exBind_ok] at hr
        obtain ⟨cv, m2⟩ := p2
        cases h3 : serializeMapData recurse rest m2 with
        | error er => rw [h3, exBind_err] at hr; exact absurd hr (by simp)
        | ok p3 =>
          rw [h3, exBind_ok] at hr
          obtain ⟨cs, m3⟩ := p3
          cases hr
          obtain ⟨t1, ht1⟩ := hrec e.1 m (ck, m1) h1
          obtain ⟨t2, ht2⟩ := hrec e.2 m1 (cv, m2) h2
          obtain ⟨t3, ht3⟩ := ih m2 (cs, m3) h3
          exact ⟨t1 ++ t2 ++ t3, by simp at ht1 ht2 ht3; simp [ht3, ht2, ht1]⟩

theorem serializeProperties_mono (recurse : JSValue → Memory → SerResult)
    (hrec : ∀ v m r, recurse v m = .ok r → ∃ t, r.2 = m ++ t) :
    ∀ ps m r, serializeProperties recurse ps m = .ok r → ∃ t, r.2 = m ++ t := by
  intro ps
  induction ps with
  | nil =>
    intro m r hr
    simp only [serializeProperties] at hr
    cases hr
    exact ⟨[], by simp⟩
  | cons p rest ih =>
    intro m r hr
    simp only [serializeProperties] at hr
    cases h1 : recurse p.2 m with
    | error er => rw [h1, exBind_err] at hr; exact absurd hr (by simp)
    | ok p1 =>
      rw [h1, exBind_ok] at hr
      obtain ⟨c, m1⟩ := p1
      cases h2 : serializeProperties recurse rest m1 with
      | error er => rw [h2, exBind_err] at hr; exact absurd hr (by simp)
      | ok p2 =>
        rw [h2, exBind_ok] at hr
        obtain ⟨cs, m2⟩ := p2
        cases hr
        obtain ⟨t1, ht1⟩ := hrec p.2 m (c, m1) h1
        obtain ⟨t2, ht2⟩ := ih m1 (cs, m2) h2
        exact ⟨t1 ++ t2, by simp at ht1 ht2; simp [ht2, ht1]⟩

theorem structuredSerializeInternal_mono (h : Heap) :
    ∀ fuel v m r, structuredSerializeInternal h fuel v m = .ok r → ∃ t, r.2 = m ++ t := by
  intro fuel
  induction fuel with
  | zero =>
    intro v m r hr
    exact Except.noConfusion hr
  | succ fuel ih =>
    intro v m r hr
    simp only [structuredSerializeInternal] at hr
    by_cases hmem : v ∈ memKeys m
    · rw [if_pos hmem] at hr
      cases hr
      exact ⟨[], by simp⟩
    · rw [if_neg hmem] at hr
      cases v with
      | undef => cases hr; exact ⟨[], by simp⟩
      | null => cases hr; exact ⟨[], by simp⟩
      | bool b => cases hr; exact ⟨[], by simp⟩
      | num s => cases hr; exact ⟨[], by simp⟩
      | bigintVal s => cases hr; exact ⟨[], by simp⟩
      | str s => cases hr; exact ⟨[], by simp⟩
      | sym i => exact Except.noConfusion hr
      | addr a =>
        dsimp only at hr
        cases hget : h.get? a with
        | none => rw [hget] at hr; exact Except.noConfusion hr
        | some o =>
          rw [hget] at hr
          cases o with
          | boxedBoolean b =>
            simp only [serializeFinishShallow] at hr
            cases hr
            exact ⟨_, rfl⟩
          | boxedNumber s =>
            simp only [serializeFinishShallow] at hr
            cases hr
            exact ⟨_, rfl⟩
          | boxedString s =>
            simp only [serializeFinishShallow] at hr
            cases hr
            exact ⟨_, rfl⟩
          | date iso =>
            simp only [serializeFinishShallow] at hr
            cases hr
            exact ⟨_, rfl⟩
          | regexp src flags =>
            simp only [serializeFinishShallow] at hr
            cases hr
            exact ⟨_, rfl⟩
          | arrayBuffer bytes =>
            simp only [serializeFinishShallow] at hr
            cases hr
            exact ⟨_, rfl⟩
          | view name ba off len =>
            dsimp only at hr
            cases h1 : structuredSerializeInternal h fuel (.addr ba) m with
            | error e => rw [h1, exBind_err] at hr; exact Except.noConfusion hr
            | ok p1 =>
              rw [h1, exBind_ok] at hr
              obtain ⟨bufSer, m1⟩ := p1
              simp only [serializeFinishShallow] at hr
              cases hr
              obtain ⟨t1, ht1⟩ := ih (.addr ba) m (bufSer, m1) h1
              simp only at ht1
              exact ⟨t1 ++ [(JSValue.addr a,
                ComplexSerialization.arrayBufferView name off len bufSer)], by simp [ht1]⟩
          | map entries =>
            dsimp only at hr
            cases h2 : serializeMapData (structuredSerializeInternal h fuel) entries
                (m ++ [(JSValue.addr a, ComplexSerialization.map [])]) with
            | error e => rw [h2, exBind_err] at hr; exact Except.noConfusion hr
            | ok p2 =>
              rw [h2, exBind_ok] at hr
              obtain ⟨mapData, m2⟩ := p2
              simp only [serializeFinishDeep] at hr
              cases hr
              obtain ⟨t2, ht2⟩ :=
                serializeMapData_mono _ (fun v m r hh => ih v m r hh) _ _ _ h2
              simp only at ht2
              refine ⟨memUpdate ((JSValue.addr a, ComplexSerialization.map []) :: t2)
                (JSValue.addr a) (ComplexSerialization.map mapData), ?_⟩
              rw [ht2, List.append_assoc]
              exact memUpdate_append_of_not_mem m _ _ _ hmem
          | set elems =>
            dsimp only at hr
            cases h2 : serializeChildList (structuredSerializeInternal h fuel) elems
                (m ++ [(JSValue.addr a, ComplexSerialization.set [])]) with
            | error e => rw [h2, exBind_err] at hr; exact Except.noConfusion hr
            | ok p2 =>
              rw [h2, exBind_ok] at hr
              obtain ⟨setData, m2⟩ := p2
              simp only [serializeFinishDeep] at hr
              cases hr
              obtain ⟨t2, ht2⟩ :=
                serializeChildList_mono _ (fun v m r hh => ih v m r hh) _ _ _ h2
              simp only at ht2
              refine ⟨memUpdate ((JSValue.addr a, ComplexSerialization.set []) :: t2)
                (JSValue.addr a) (ComplexSerialization.set setData), ?_⟩
              rw [ht2, List.append_assoc]
              exact memUpdate_append_of_not_mem m _ _ _ hmem
          | error name msg =>
            simp only [serializeFinishShallow] at hr
            cases hr
            exact ⟨_, rfl⟩
          | array len props =>
            dsimp only at hr
            cases h2 : serializeProperties (structuredSerializeInternal h fuel)
                (arrayOwnProperties len props)
                (m ++ [(JSValue.addr a, ComplexSerialization.array len [])]) with
            | error e => rw [h2, exBind_err] at hr; exact Except.noConfusion hr
            | ok p2 =>
              rw [h2, exBind_ok] at hr
              obtain ⟨properties, m2⟩ := p2
              simp only [serializeFinishDeep] at hr
              cases hr
              obtain ⟨t2, ht2⟩ :=
                serializeProperties_mono _ (fun v m r hh => ih v m r hh) _ _ _ h2
              simp only at ht2
              refine ⟨memUpdate ((JSValue.addr a, ComplexSerialization.array len []) :: t2)
                (JSValue.addr a) (ComplexSerialization.array len properties), ?_⟩
              rw [ht2, List.append_assoc]
              exact memUpdate_append_of_not_mem m _ _ _ hmem
          | object props =>
            dsimp only at hr
            cases h2 : serializeProperties (structuredSerializeInternal h fuel) props
                (m ++ [(JSValue.addr a, ComplexSerialization.object [])]) with
            | error e => rw [h2, exBind_err] at hr; exact Except.noConfusion hr
            | ok p2 =>
              rw [h2, exBind_ok] at hr
              obtain ⟨properties, m2⟩ := p2
              simp only [serializeFinishDeep] at hr
              cases hr
              obtain ⟨t2, ht2⟩ :=
                serializeProperties_mono _ (fun v m r hh => ih v m r hh) _ _ _ h2
              simp only at ht2
              refine ⟨memUpdate ((JSValue.addr a, ComplexSerialization.object []) :: t2)
                (JSValue.addr a) (ComplexSerialization.object properties), ?_⟩
              rw [ht2, List.append_assoc]
              exact memUpdate_append_of_not_mem m _ _ _ hmem
          | weakmap => exact Except.noConfusion hr
          | weakset => exact Except.noConfusion hr
          | promise => exact Except.noConfusion hr
          | weakref => exact Except.noConfusion hr
          | finalizationRegistry => exact Except.noConfusion hr
          | func => exact Except.noConfusion hr

theorem memIndexOf_append_of_mem (m t : Memory) (v : JSValue) (hv : v ∈ memKeys m) :
    memIndexOf (m ++ t) v = memIndexOf m v := by
  induction m with
  | nil => exact absurd hv (by simp [memKeys])
  | cons e rest ih =>
    by_cases hev : e.1 = v
    · simp [memIndexOf, hev]
    · simp only [memKeys, List.map_cons, List.mem_cons] at hv
      rcases hv with hv | hv
      · exact absurd hv.symm hev
      · simp only [List.cons_append, memIndexOf, hev, if_false, List.append_eq]
        rw [ih hv]

/-- Fast path of the serializer: a value already in memory yields a Reference
to its position among the keys and leaves the memory unchanged. -/
theorem structuredSerializeInternal_mem (h : Heap) (fuel : Nat) (v : JSValue) (m : Memory)
    (hv : v ∈ memKeys m) :
    structuredSerializeInternal h (fuel + 1) v m = .ok (.reference (memIndexOf m v), m) := by
  simp only [structuredSerializeInternal, if_pos hv]

/-- A successful serialization of a non-primitive value always returns a
Reference node. -/
theorem structuredSerializeInternal_addr_isReference (h : Heap) (fuel : Nat) (a : Nat)
    (m : Memory) (r : ChildSerialization × Memory)
    (hr : structuredSerializeInternal h (fuel + 1) (.addr a) m = .ok r) :
    ∃ id, r.1 = .reference id := by
  simp only [structuredSerializeInternal] at hr
  by_cases hmem : JSValue.addr a ∈ memKeys m
  · rw [if_pos hmem] at hr
    cases hr
    exact ⟨_, rfl⟩
  · rw [if_neg hmem] at hr
    cases hget : h.get? a with
    | none => rw [hget] at hr; exact Except.noConfusion hr
    | some o =>
      rw [hget] at hr
      cases o with
      | boxedBoolean b =>
        simp only [serializeFinishShallow] at hr; cases hr; exact ⟨_, rfl⟩
      | boxedNumber s =>
        simp only [serializeFinishShallow] at hr; cases hr; exact ⟨_, rfl⟩
      | boxedString s =>
        simp only [serializeFinishShallow] at hr; cases hr; exact ⟨_, rfl⟩
      | date iso =>
        simp only [serializeFinishShallow] at hr; cases hr; exact ⟨_, rfl⟩
      | regexp src flags =>
        simp only [serializeFinishShallow] at hr; cases hr; exact ⟨_, rfl⟩
      | arrayBuffer bytes =>
        simp only [serializeFinishShallow] at hr; cases hr; exact ⟨_, rfl⟩
      | error name msg =>
        simp only [serializeFinishShallow] at hr; cases hr; exact ⟨_, rfl⟩
      | view name ba off len =>
        dsimp only at hr
        cases h1 : structuredSerializeInternal h fuel (.addr ba) m with
        | error e => rw [h1, exBind_err] at hr; exact Except.noConfusion hr
        | ok p1 =>
          rw [h1, exBind_ok] at hr
          obtain ⟨bufSer, m1⟩ := p1
          simp only [serializeFinishShallow] at hr
          cases hr
          exact ⟨_, rfl⟩
      | map entries =>
        dsimp only at hr
        cases h2 : serializeMapData (structuredSerializeInternal h fuel) entries
            (m ++ [(JSValue.addr a, ComplexSerialization.map [])]) with
        | error e => rw [h2, exBind_err] at hr; exact Except.noConfusion hr
        | ok p2 =>
          rw [h2, exBind_ok] at hr
          obtain ⟨mapData, m2⟩ := p2
          simp only [serializeFinishDeep] at hr
          cases hr
          exact ⟨_, rfl⟩
      | set elems =>
        dsimp only at hr
        cases h2 : serializeChildList (structuredSerializeInternal h fuel) elems
            (m ++ [(JSValue.addr a, ComplexSerialization.set [])]) with
        | error e => rw [h2, exBind_err] at hr; exact Except.noConfusion hr
        | ok p2 =>
          rw [h2, exBind_ok] at hr
          obtain ⟨setData, m2⟩ := p2
          simp only [serializeFinishDeep] at hr
          cases hr
          exact ⟨_, rfl⟩
      | array len props =>
        dsimp only at hr
        cases h2 : serializeProperties (structuredSerializeInternal h fuel)
            (arrayOwnProperties len props)
            (m ++ [(JSValue.addr a, ComplexSerialization.array len [])]) with
        | error e => rw [h2, exBind_err] at hr; exact Except.noConfusion hr
        | ok p2 =>
          rw [h2, exBind_ok] at hr
          obtain ⟨properties, m2⟩ := p2
          simp only [serializeFinishDeep] at hr
          cases hr
          exact ⟨_, rfl⟩
      | object props =>
        dsimp only at hr
        cases h2 : serializeProperties (structuredSerializeInternal h fuel) props
            (m ++ [(JSValue.addr a, ComplexSerialization.object [])]) with
        | error e => rw [h2, exBind_err] at hr; exact Except.noConfusion hr
        | ok p2 =>
          rw [h2, exBind_ok] at hr
          obtain ⟨properties, m2⟩ := p2
          simp only [serializeFinishDeep] at hr
          cases hr
          exact ⟨_, rfl⟩
      | weakmap => exact Except.noConfusion hr
      | weakset => exact Except.noConfusion hr
      | promise => exact Except.noConfusion hr
      | weakref => exact Except.noConfusion hr
      | finalizationRegistry => exact Except.noConfusion hr
      | func => exact Except.noConfusion hr

/-- First visit of a non-view object: the value is appended to the memory at
position equal to the incoming key count, and the returned Reference carries
exactly that position as its id. -/
theorem structuredSerializeInternal_fresh_nonview (h : Heap) (fuel : Nat) (a : Nat)
    (m : Memory) (r : ChildSerialization × Memory) (o : JSObject)
    (hr : structuredSerializeInternal h (fuel + 1) (.addr a) m = .ok r)
    (hmem : JSValue.addr a ∉ memKeys m)
    (hget : h.get? a = some o) (hview : isViewObj o = false) :
    r.1 = .reference m.length ∧ (memKeys r.2).get? m.length = some (.addr a) := by
  simp only [structuredSerializeInternal, if_neg hmem] at hr
  rw [hget] at hr
  cases o with
  | view name ba off len => exact absurd hview (by simp [isViewObj])
  | weakmap => exact Except.noConfusion hr
  | weakset => exact Except.noConfusion hr
  | promise => exact Except.noConfusion hr
  | weakref => exact Except.noConfusion hr
  | finalizationRegistry => exact Except.noConfusion hr
  | func => exact Except.noConfusion hr
  | boxedBoolean b =>
    simp only [serializeFinishShallow] at hr
    cases hr
    refine ⟨by simp [memIndexOf_append_of_not_mem m [] _ _ hmem], ?_⟩
    rw [memKeys_append]
    rw [List.get?_append_right (by simp [memKeys])]
    simp [memKeys]
  | boxedNumber s =>
    simp only [serializeFinishShallow] at hr
    cases hr
    refine ⟨by simp [memIndexOf_append_of_not_mem m [] _ _ hmem], ?_⟩
    rw [memKeys_append]
    rw [List.get?_append_right (by simp [memKeys])]
    simp [memKeys]
  | boxedString s =>
    simp only [serializeFinishShallow] at hr
    cases hr
    refine ⟨by simp [memIndexOf_append_of_not_mem m [] _ _ hmem], ?_⟩
    rw [memKeys_append]
    rw [List.get?_append_right (by simp [memKeys])]
    simp [memKeys]
  | date iso =>
    simp only [serializeFinishShallow] at hr
    cases hr
    refine ⟨by simp [memIndexOf_append_of_not_mem m [] _ _ hmem], ?_⟩
    rw [memKeys_append]
    rw [List.get?_append_right (by simp [memKeys])]
    simp [memKeys]
  | regexp src flags =>
    simp only [serializeFinishShallow] at hr
    cases hr
    refine ⟨by simp [memIndexOf_append_of_not_mem m [] _ _ hmem], ?_⟩
    rw [memKeys_append]
    rw [List.get?_append_right (by simp [memKeys])]
    simp [memKeys]
  | arrayBuffer bytes =>
    simp only [serializeFinishShallow] at hr
    cases hr
    refine ⟨by simp [memIndexOf_append_of_not_mem m [] _ _ hmem], ?_⟩
    rw [memKeys_append]
    rw [List.get?_append_right (by simp [memKeys])]
    simp [memKeys]
  | error name msg =>
    simp only [serializeFinishShallow] at hr
    cases hr
    refine ⟨by simp [memIndexOf_append_of_not_mem m [] _ _ hmem], ?_⟩
    rw [memKeys_append]
    rw [List.get?_append_right (by simp [memKeys])]
    simp [memKeys]
  | map entries =>
    dsimp only at hr
    cases h2 : serializeMapData (structuredSerializeInternal h fuel) entries
        (m ++ [(JSValue.addr a, ComplexSerialization.map [])]) with
    | error e => rw [h2, exBind_err] at hr; exact Except.noConfusion hr
    | ok p2 =>
      rw [h2, exBind_ok] at hr
      obtain ⟨mapData, m2⟩ := p2
      simp only [serializeFinishDeep] at hr
      cases hr
      obtain ⟨t2, ht2⟩ :=
        serializeMapData_mono _ (fun v m r hh => structuredSerializeInternal_mono h fuel v m r hh)
          _ _ _ h2
      simp only at ht2
      subst ht2
      rw [List.append_assoc]
      constructor
      · rw [memIndexOf_memUpdate, List.cons_append, memIndexOf_append_of_not_mem m _ _ _ hmem]
      · rw [memKeys_memUpdate, memKeys_append]
        rw [List.get?_append_right (by simp [memKeys])]
        simp [memKeys]
  | set elems =>
    dsimp only at hr
    cases h2 : serializeChildList (structuredSerializeInternal h fuel) elems
        (m ++ [(JSValue.addr a, ComplexSerialization.set [])]) with
    | error e => rw [h2, exBind_err] at hr; exact Except.noConfusion hr
    | ok p2 =>
      rw [h2, exBind_ok] at hr
      obtain ⟨setData, m2⟩ := p2
      simp only [serializeFinishDeep] at hr
      cases hr
      obtain ⟨t2, ht2⟩ :=
        serializeChildList_mono _ (fun v m r hh => structuredSerializeInternal_mono h fuel v m r hh)
          _ _ _ h2
      simp only at ht2
      subst ht2
      rw [List.append_assoc]
      constructor
      · rw [memIndexOf_memUpdate, List.cons_append, memIndexOf_append_of_not_mem m _ _ _ hmem]
      · rw [memKeys_memUpdate, memKeys_append]
        rw [List.get?_append_right (by simp [memKeys])]
        simp [memKeys]
  | array len props =>
    dsimp only at hr
    cases h2 : serializeProperties (structuredSerializeInternal h fuel)
        (arrayOwnProperties len props)
        (m ++ [(JSValue.addr a, ComplexSerialization.array len [])]) with
    | error e => rw [h2, exBind_err] at hr; exact Except.noConfusion hr
    | ok p2 =>
      rw [h2, exBind_ok] at hr
      obtain ⟨properties, m2⟩ := p2
      simp only [serializeFinishDeep] at hr
      cases hr
      obtain ⟨t2, ht2⟩ :=
        serializeProperties_mono _
          (fun v m r hh => structuredSerializeInternal_mono h fuel v m r hh) _ _ _ h2
      simp only at ht2
      subst ht2
      rw [List.append_assoc]
      constructor
      · rw [memIndexOf_memUpdate, List.cons_append, memIndexOf_append_of_not_mem m _ _ _ hmem]
      · rw [memKeys_memUpdate, memKeys_append]
        rw [List.get?_append_right (by simp [memKeys])]
        simp [memKeys]
  | object props =>
    dsimp only at hr
    cases h2 : serializeProperties (structuredSerializeInternal h fuel) props
        (m ++ [(JSValue.addr a, ComplexSerialization.object [])]) with
    | error e => rw [h2, exBind_err] at hr; exact Except.noConfusion hr
    | ok p2 =>
      rw [h2, exBind_ok] at hr
      obtain ⟨properties, m2⟩ := p2
      simp only [serializeFinishDeep] at hr
      cases hr
      obtain ⟨t2, ht2⟩ :=
        serializeProperties_mono _
          (fun v m r hh => structuredSerializeInternal_mono h fuel v m r hh) _ _ _ h2
      simp only at ht2
      subst ht2
      rw [List.append_assoc]
      constructor
      · rw [memIndexOf_memUpdate, List.cons_append, memIndexOf_append_of_not_mem m _ _ _ hmem]
      · rw [memKeys_memUpdate, memKeys_append]
        rw [List.get?_append_right (by simp [memKeys])]
        simp [memKeys]

/-! Step lemmas for the deserializer. -/

/-- Already-registered reference: resolves to the registered instance at once,
with no allocation and no state change. -/
theorem structuredDeserializeInternal_memo (objects : List ComplexSerialization) (fuel id : Nat)
    (st : DecodeState) (v : JSValue) (hv : memLookup st.memory id = some v) :
    structuredDeserializeInternal objects (fuel + 1) (.reference id) st = .ok (v, st) := by
  simp only [structuredDeserializeInternal, hv]

/-- Unregistered reference with no record: the property access on the
undefined record throws a TypeError. -/
theorem structuredDeserializeInternal_missing (objects : List ComplexSerialization) (fuel id : Nat)
    (st : DecodeState) (hmem : memLookup st.memory id = none)
    (hget : objects.get? id = none) :
    structuredDeserializeInternal objects (fuel + 1) (.reference id) st =
      .error (.typeError "Cannot read properties of undefined") := by
  simp only [structuredDeserializeInternal, hmem, hget]

/-- View record whose typed array name falls through the constructor switch
(including DataView, whose case is missing its break): the deserializer throws
before looking at the buffer child. -/
theorem structuredDeserializeInternal_unknownViewKind (objects : List ComplexSerialization)
    (fuel id : Nat) (st : DecodeState) (name : String) (off len : Nat)
    (child : ChildSerialization) (hmem : memLookup st.memory id = none)
    (hget : objects.get? id = some (.arrayBufferView name off len child))
    (hname : typedArrayBytesPerElement? name = none) :
    structuredDeserializeInternal objects (fuel + 1) (.reference id) st =
      .error .unknownTypedArrayName := by
  simp only [structuredDeserializeInternal, hmem, hget, hname]

/-- Record with an unrecognized type tag: no branch of the if-chain fires, the
value stays undefined, undefined is registered under the id, and undefined is
returned without any error. -/
theorem structuredDeserializeInternal_unknownTag (objects : List ComplexSerialization)
    (fuel id : Nat) (st : DecodeState) (tag : String)
    (hmem : memLookup st.memory id = none)
    (hget : objects.get? id = some (.unknownType tag)) :
    structuredDeserializeInternal objects (fuel + 1) (.reference id) st =
      .ok (.undef, memRegister st id .undef) := by
  simp only [structuredDeserializeInternal, hmem, hget]

/-- Error record: the reconstructed error carries the recorded name and, as its
own message, exactly the recorded optional message (absent message gives an
error with no own message property). -/
theorem structuredDeserializeInternal_errorRecord (objects : List ComplexSerialization)
    (fuel id : Nat) (st : DecodeState) (nm : String) (msg : Option String)
    (hmem : memLookup st.memory id = none)
    (hget : objects.get? id = some (.error nm msg)) :
    structuredDeserializeInternal objects (fuel + 1) (.reference id) st =
      .ok (.addr st.heap.length,
        memRegister { st with heap := st.heap ++ [.error nm msg] } id
          (.addr st.heap.length)) := by
  simp only [structuredDeserializeInternal, hmem, hget, alloc]

/-- Fuel of the top-level deserializer in successor form. -/
theorem deserializeFuel_succ (objects : List ComplexSerialization) :
    deserializeFuel objects = (2 * objects.length + 7) + 1 := by
  unfold deserializeFuel
  omega

/-- The top-level deserializer on an envelope is the internal run from the
fresh state, keeping only the value and the constructed heap. -/
theorem structuredDeserialize_topLevel_eq (objects : List ComplexSerialization)
    (c : ChildSerialization) :
    structuredDeserialize (.topLevel objects c) =
      (structuredDeserializeInternal objects (deserializeFuel objects) c
        DecodeState.initial).map (fun r => (r.1, r.2.heap)) := by
  simp only [structuredDeserialize]
  cases hx : structuredDeserializeInternal objects (deserializeFuel objects) c
      DecodeState.initial with
  | error e => rfl
  | ok p => rfl

/-! Observation helpers used by claim statements. -/

/-- C1 counterexample.  The round trip is not structurally faithful on every
graph of supported variants: a custom-named error comes back renamed to Error
(so its name field differs from the original), a DataView view fails to decode
altogether (the constructor switch falls through for DataView), and an
Int16Array view fails to decode because the recorded byte length is passed to
the constructor where an element count is expected, overrunning the buffer. -/
theorem structuredRoundTrip_not_universal :
    roundTrip [.error "MyError" (some "m")] (.addr 0) =
      some (.addr 0, [.error "Error" (some "m")]) ∧
    (roundTrip [.error "MyError" (some "m")] (.addr 0)).map
        (fun r => heapErrorName r.2 0) = some (some "Error") ∧
    some "Error" ≠ some "MyError" ∧
    roundTrip [.view "DataView" 1 0 2, .arrayBuffer [1, 2]] (.addr 0) = none ∧
    roundTrip [.view "Int16Array" 1 0 6, .arrayBuffer [0, 0, 0, 0, 0, 0]] (.addr 0) = none :=
  by decide

set_option maxHeartbeats 2000000 in
/-- C1 (amended).  Decode after encode reproduces an identical value and heap
for a representative of every supported variant of the round-trip list:
undefined, null, true, a negative integer, a large integer text value, a
string, a boxed string, a date, a regular expression with flags, an empty
buffer, a non-empty buffer, single-byte typed views over a shared buffer, an
empty map, a map with a self-referential value, a set, a sparse array with a
hole, a plain record with a cyclic self property, and a standard error; a
custom-named error round-trips with its name normalized to Error (message
preserved), and views of DataView kind or of a multi-byte element kind fail to
decode. -/
theorem structuredRoundTrip_representatives :
    roundTrip [] .undef = some (.undef, []) ∧
    roundTrip [] .null = some (.null, []) ∧
    roundTrip [] (.bool true) = some (.bool true, []) ∧
    roundTrip [] (.num "-5") = some (.num "-5", []) ∧
    roundTrip [] (.bigintVal "123456789012345678901234567890") =
      some (.bigintVal "123456789012345678901234567890", []) ∧
    roundTrip [] (.str "hi") = some (.str "hi", []) ∧
    roundTrip [.boxedString "hi"] (.addr 0) = some (.addr 0, [.boxedString "hi"]) ∧
    roundTrip [.date "2023-01-02T03:04:05.000Z"] (.addr 0) =
      some (.addr 0, [.date "2023-01-02T03:04:05.000Z"]) ∧
    roundTrip [.regexp "a+b" "gi"] (.addr 0) = some (.addr 0, [.regexp "a+b" "gi"]) ∧
    roundTrip [.arrayBuffer []] (.addr 0) = some (.addr 0, [.arrayBuffer []]) ∧
    roundTrip [.arrayBuffer [1, 255, 0]] (.addr 0) = some (.addr 0, [.arrayBuffer [1, 255, 0]]) ∧
    roundTrip [.object [("x", .addr 2), ("y", .addr 3)], .arrayBuffer [5, 6],
        .view "Uint8Array" 1 0 2, .view "Uint8Array" 1 0 2] (.addr 0) =
      some (.addr 0, [.object [("x", .addr 2), ("y", .addr 3)], .arrayBuffer [5, 6],
        .view "Uint8Array" 1 0 2, .view "Uint8Array" 1 0 2]) ∧
    roundTrip [.map []] (.addr 0) = some (.addr 0, [.map []]) ∧
    roundTrip [.map [(.str "k", .addr 0)]] (.addr 0) =
      some (.addr 0, [.map [(.str "k", .addr 0)]]) ∧
    roundTrip [.set [.num "1", .str "a"]] (.addr 0) =
      some (.addr 0, [.set [.num "1", .str "a"]]) ∧
    roundTrip [.array 3 [("0", .num "1"), ("2", .num "3")]] (.addr 0) =
      some (.addr 0, [.array 3 [("0", .num "1"), ("2", .num "3")]]) ∧
    roundTrip [.object [("self", .addr 0)]] (.addr 0) =
      some (.addr 0, [.object [("self", .addr 0)]]) ∧
    roundTrip [.error "RangeError" (some "oops")] (.addr 0) =
      some (.addr 0, [.error "RangeError" (some "oops")]) ∧
    roundTrip [.error "MyCustomError" (some "kept")] (.addr 0) =
      some (.addr 0, [.error "Error" (some "kept")]) ∧
    roundTrip [.view "DataView" 1 0 2, .arrayBuffer [3, 4]] (.addr 0) = none ∧
    roundTrip [.view "Float64Array" 1 0 8, .arrayBuffer [0, 0, 0, 0, 0, 0, 0, 0]] (.addr 0) =
      none := by
  refine ⟨?_, ?_, ?_, ?_, ?_, ?_, ?_, ?_, ?_, ?_, ?_,
    ?_, ?_, ?_, ?_, ?_, ?_, ?_, ?_, ?_, ?_⟩ <;> decide

/-- C2 counterexample.  A well-formed envelope containing a record whose type
tag matches no recognized variant does not make the deserializer fail: the
record decodes silently to undefined and the call succeeds. -/
theorem structuredDeserialize_unknownVariant_silent :
    structuredDeserialize (.topLevel [.unknownType "Foo"] (.reference 0)) =
      .ok (.undef, []) := by decide

/-- C2 (amended).  Resolving a reference whose id has no record (out of the
record array range) raises a TypeError, and a view record whose view-kind
discriminator is not recognized by the constructor switch (including DataView,
whose switch case falls through) raises the unknown-typed-array-name error;
but a record with an unrecognized variant discriminator is not an error: it
decodes silently to undefined. -/
theorem structuredDeserialize_decode_failures :
    (∀ (objects : List ComplexSerialization) (id : Nat), objects.length ≤ id →
      structuredDeserialize (.topLevel objects (.reference id)) =
        .error (.typeError "Cannot read properties of undefined")) ∧
    (∀ (objects : List ComplexSerialization) (id : Nat) (name : String) (off len : Nat)
       (child : ChildSerialization),
      objects.get? id = some (.arrayBufferView name off len child) →
      typedArrayBytesPerElement? name = none →
      structuredDeserialize (.topLevel objects (.reference id)) =
        .error .unknownTypedArrayName) ∧
    (∀ (objects : List ComplexSerialization) (id : Nat) (tag : String),
      objects.get? id = some (.unknownType tag) →
      structuredDeserialize (.topLevel objects (.reference id)) = .ok (.undef, [])) := by
  refine ⟨?_, ?_, ?_⟩
  · intro objects id hid
    rw [structuredDeserialize_topLevel_eq, deserializeFuel_succ,
      structuredDeserializeInternal_missing objects _ id DecodeState.initial rfl
        (List.get?_eq_none.mpr hid)]
    rfl
  · intro objects id name off len child hget hname
    rw [structuredDeserialize_topLevel_eq, deserializeFuel_succ,
      structuredDeserializeInternal_unknownViewKind objects _ id DecodeState.initial name off len
        child rfl hget hname]
    rfl
  · intro objects id tag hget
    rw [structuredDeserialize_topLevel_eq, deserializeFuel_succ,
      structuredDeserializeInternal_unknownTag objects _ id DecodeState.initial tag rfl hget]
    rfl

/-- C2 (amended) witness at concrete envelopes: an out-of-range root
reference, a DataView view record, and an unrecognized record tag. -/
theorem structuredDeserialize_decode_failures_witness :
    structuredDeserialize (.topLevel [] (.reference 0)) =
      .error (.typeError "Cannot read properties of undefined") ∧
    structuredDeserialize (.topLevel [.arrayBufferView "DataView" 0 0 (.reference 5)]
        (.reference 0)) = .error .unknownTypedArrayName ∧
    structuredDeserialize (.topLevel [.unknownType "Bar"] (.reference 0)) = .ok (.undef, []) :=
  ⟨structuredDeserialize_decode_failures.1 [] 0 (by decide),
   structuredDeserialize_decode_failures.2.1 [.arrayBufferView "DataView" 0 0 (.reference 5)]
     0 "DataView" 0 0 (.reference 5) (by decide) (by decide),
   structuredDeserialize_decode_failures.2.2 [.unknownType "Bar"] 0 "Bar" (by decide)⟩

/-- C3 counterexample.  A graph in which two positions hold the identity-same
object but which also contains a DataView view: decode of the encoding fails
(the view-kind switch falls through for DataView), so the decoded positions do
not exist at all, let alone hold reference-identical instances. -/
theorem structuredRoundTrip_identity_not_universal :
    roundTrip [.object [("a", .addr 1), ("b", .addr 1), ("d", .addr 2)], .object [],
      .view "DataView" 3 0 2, .arrayBuffer [1, 2]] (.addr 0) = none := by decide

/-- C3 (amended).  Identity is preserved through the reference mechanism
whenever decode succeeds: a value already in the serializer memory encodes as
a Reference to its assigned id with the memory unchanged (so both positions
carry the same id), and a reference whose id is already registered decodes to
the registered instance itself with no allocation; in particular the cyclic
record with a self property decodes with its self property holding its own
address, and two properties sharing one object decode holding one address. -/
theorem structuredRoundTrip_identity_preserved :
    (∀ (h : Heap) (fuel : Nat) (v : JSValue) (m : Memory), v ∈ memKeys m →
      structuredSerializeInternal h (fuel + 1) v m = .ok (.reference (memIndexOf m v), m)) ∧
    (∀ (objects : List ComplexSerialization) (fuel id : Nat) (st : DecodeState) (v : JSValue),
      memLookup st.memory id = some v →
      structuredDeserializeInternal objects (fuel + 1) (.reference id) st = .ok (v, st)) ∧
    roundTrip [.object [("self", .addr 0)]] (.addr 0) =
      some (.addr 0, [.object [("self", .addr 0)]]) ∧
    roundTrip [.object [("a", .addr 1), ("b", .addr 1)], .object []] (.addr 0) =
      some (.addr 0, [.object [("a", .addr 1), ("b", .addr 1)], .object []]) :=
  ⟨fun h fuel v m hv => structuredSerializeInternal_mem h fuel v m hv,
   fun objects fuel id st v hv => structuredDeserializeInternal_memo objects fuel id st v hv,
   by decide, by decide⟩

/-- C3 (amended) witness: the general conjuncts applied at concrete states. -/
theorem structuredRoundTrip_identity_preserved_witness :
    structuredSerializeInternal [] (0 + 1) (.addr 5) [(.addr 5, .object [])] =
      .ok (.reference (memIndexOf [(.addr 5, .object [])] (.addr 5)),
        [(.addr 5, .object [])]) ∧
    structuredDeserializeInternal [] (0 + 1) (.reference 3) ⟨[], [(3, .null)]⟩ =
      .ok (.null, ⟨[], [(3, .null)]⟩) :=
  ⟨structuredRoundTrip_identity_preserved.1 [] 0 (.addr 5) [(.addr 5, .object [])] (by decide),
   structuredRoundTrip_identity_preserved.2.1 [] 0 3 ⟨[], [(3, .null)]⟩ .null (by decide)⟩

/-- C4.  Evaluation at the failing input: a record holding a DataView and a
typed array over one shared buffer serializes fine, with both view records
referencing the same buffer record id, but deserializing that very envelope
throws the unknown-typed-array-name error because the DataView case of the
constructor switch is missing its break and falls through to the default
throw.  For single-byte typed arrays alone the shared buffer does decode to
one instance, as the last conjunct shows (both decoded views carry the same
buffer address). -/
theorem structuredDeserialize_dataview_throws :
    structuredSerialize [.object [("dv", .addr 1), ("ta", .addr 2)], .view "DataView" 3 0 2,
        .view "Uint8Array" 3 0 2, .arrayBuffer [9, 9]] (.addr 0) =
      .ok (.topLevel [.object [("dv", .reference 2), ("ta", .reference 3)],
        .arrayBuffer 2 "9,9", .arrayBufferView "DataView" 0 2 (.reference 1),
        .arrayBufferView "Uint8Array" 0 2 (.reference 1)] (.reference 0)) ∧
    structuredDeserialize (.topLevel [.object [("dv", .reference 2), ("ta", .reference 3)],
        .arrayBuffer 2 "9,9", .arrayBufferView "DataView" 0 2 (.reference 1),
        .arrayBufferView "Uint8Array" 0 2 (.reference 1)] (.reference 0)) =
      .error .unknownTypedArrayName ∧
    roundTrip [.object [("x", .addr 2), ("y", .addr 3)], .arrayBuffer [5, 6],
        .view "Uint8Array" 1 0 2, .view "Uint8Array" 1 0 2] (.addr 0) =
      some (.addr 0, [.object [("x", .addr 2), ("y", .addr 3)], .arrayBuffer [5, 6],
        .view "Uint8Array" 1 0 2, .view "Uint8Array" 1 0 2]) :=
  by decide

/-- C5 counterexample.  Serializing a typed array view: the first-visited
value is the view at address 0, yet the envelope root references id 1, because
the serializer recursed into the backing buffer (which received id 0) before
inserting the view into the identity table; so the id of a first-visited value
is neither allocated nor inserted before recursing into its child. -/
theorem structuredSerialize_view_id_after_child :
    structuredSerialize [.view "Uint8Array" 1 0 2, .arrayBuffer [7, 8]] (.addr 0) =
      .ok (.topLevel [.arrayBuffer 2 "7,8", .arrayBufferView "Uint8Array" 0 2 (.reference 0)]
        (.reference 1)) ∧
    ChildSerialization.reference 1 ≠ ChildSerialization.reference 0 :=
  by decide

/-- C5 (amended).  An already-visited value always encodes as a Reference to
its assigned id, with the memory unchanged; on the first visit of any
non-view object the value is inserted at the next sequential position (its
Reference id equals the number of keys present at entry, and it sits at that
key position afterwards), and this insertion happens before the children are
serialized, so a child referring back yields a Reference to that id, as the
cyclic record conjunct shows; for a buffer view the backing buffer is
serialized first and the view receives its id only afterwards. -/
theorem structuredSerialize_id_assignment :
    (∀ (h : Heap) (fuel : Nat) (v : JSValue) (m : Memory), v ∈ memKeys m →
      structuredSerializeInternal h (fuel + 1) v m = .ok (.reference (memIndexOf m v), m)) ∧
    (∀ (h : Heap) (fuel a : Nat) (m : Memory) (r : ChildSerialization × Memory) (o : JSObject),
      structuredSerializeInternal h (fuel + 1) (.addr a) m = .ok r →
      JSValue.addr a ∉ memKeys m → h.get? a = some o → isViewObj o = false →
      r.1 = .reference m.length ∧ (memKeys r.2).get? m.length = some (.addr a)) ∧
    structuredSerialize [.object [("self", .addr 0)]] (.addr 0) =
      .ok (.topLevel [.object [("self", .reference 0)]] (.reference 0)) :=
  ⟨fun h fuel v m hv => structuredSerializeInternal_mem h fuel v m hv,
   fun h fuel a m r o hr hmem hget hview =>
     structuredSerializeInternal_fresh_nonview h fuel a m r o hr hmem hget hview,
   by decide⟩

/-- C5 (amended) witness: the general conjuncts applied at concrete inputs. -/
theorem structuredSerialize_id_assignment_witness :
    structuredSerializeInternal [] (0 + 1) (.str "x") [(.str "x", .object [])] =
      .ok (.reference (memIndexOf [(.str "x", .object [])] (.str "x")),
        [(.str "x", .object [])]) ∧
    ((ChildSerialization.reference 0, ([(JSValue.addr 0, ComplexSerialization.object [])] :
        Memory)).1 = .reference (List.length ([] : Memory)) ∧
      (memKeys ((ChildSerialization.reference 0,
        ([(JSValue.addr 0, ComplexSerialization.object [])] : Memory)) :
          ChildSerialization × Memory).2).get? (List.length ([] : Memory)) =
        some (.addr 0)) :=
  ⟨structuredSerialize_id_assignment.1 [] 0 (.str "x") [(.str "x", .object [])] (by decide),
   structuredSerialize_id_assignment.2.1 [.object []] 0 0 []
     (ChildSerialization.reference 0, [(JSValue.addr 0, ComplexSerialization.object [])])
     (.object []) (by decide) (by decide) (by decide) (by decide)⟩

/-- Serialization step of an error object: the stored record carries the
normalized name and exactly the optional own message, in particular no message
field at all when the error has no own message property. -/
theorem structuredSerializeInternal_errorObj (h : Heap) (fuel a : Nat) (m : Memory)
    (nm : String) (own : Option String)
    (hget : h.get? a = some (.error nm own)) (hmem : JSValue.addr a ∉ memKeys m) :
    structuredSerializeInternal h (fuel + 1) (.addr a) m =
      .ok (.reference m.length, m ++ [(.addr a, .error (normalizeErrorName nm) own)]) := by
  simp only [structuredSerializeInternal, if_neg hmem]
  rw [hget]
  simp only [serializeFinishShallow]
  rw [memIndexOf_append_of_not_mem m [] _ _ hmem]

/-- C8.  An error with no own message property serializes to a record whose
message field is omitted (none, dropped from the JSON text), and decoding such
a record yields an error object with no own message, whose observable message
is the empty prototype default rather than the string undefined. -/
theorem structuredSerialize_error_no_message :
    (∀ (h : Heap) (fuel a : Nat) (m : Memory) (nm : String),
      h.get? a = some (.error nm none) → JSValue.addr a ∉ memKeys m →
      structuredSerializeInternal h (fuel + 1) (.addr a) m =
        .ok (.reference m.length, m ++ [(.addr a, .error (normalizeErrorName nm) none)])) ∧
    (∀ (objects : List ComplexSerialization) (id : Nat) (nm : String),
      objects.get? id = some (.error nm none) →
      structuredDeserialize (.topLevel objects (.reference id)) =
        .ok (.addr 0, [.error nm none])) ∧
    jsErrorMessage none = "" ∧ jsErrorMessage none ≠ "undefined" := by
  refine ⟨?_, ?_, rfl, by decide⟩
  · intro h fuel a m nm hget hmem
    exact structuredSerializeInternal_errorObj h fuel a m nm none hget hmem
  · intro objects id nm hget
    rw [structuredDeserialize_topLevel_eq, deserializeFuel_succ,
      structuredDeserializeInternal_errorRecord objects _ id DecodeState.initial nm none rfl hget]
    rfl

/-- C8 witness: a TypeError-named error with no own message, serialized from a
singleton heap and decoded from a singleton record array. -/
theorem structuredSerialize_error_no_message_witness :
    structuredSerializeInternal [JSObject.error "TypeError" none] (0 + 1) (.addr 0) [] =
      .ok (.reference 0, [(.addr 0, .error (normalizeErrorName "TypeError") none)]) ∧
    structuredDeserialize (.topLevel [.error "SomeName" none] (.reference 0)) =
      .ok (.addr 0, [.error "SomeName" none]) :=
  ⟨by have := structuredSerialize_error_no_message.1 [JSObject.error "TypeError" none] 0 0 []
        "TypeError" (by decide) (by decide)
      simpa using this,
   structuredSerialize_error_no_message.2.1 [.error "SomeName" none] 0 "SomeName" (by decide)⟩

/-! Serialization and deserialization of sparse arrays with primitive
elements. -/

theorem structuredSerializeInternal_prim (h : Heap) (fuel : Nat) (v : JSValue) (m : Memory)
    (hp : isPrimitiveNonSymbol v = true) (hv : v ∉ memKeys m) :
    structuredSerializeInternal h (fuel + 1) v m = .ok (primitiveChild v, m) := by
  cases v with
  | undef => simp [structuredSerializeInternal, if_neg hv, primitiveChild]
  | null => simp [structuredSerializeInternal, if_neg hv, primitiveChild]
  | bool b => simp [structuredSerializeInternal, if_neg hv, primitiveChild]
  | num sv => simp [structuredSerializeInternal, if_neg hv, primitiveChild]
  | bigintVal sv => simp [structuredSerializeInternal, if_neg hv, primitiveChild]
  | str sv => simp [structuredSerializeInternal, if_neg hv, primitiveChild]
  | sym i => simp [isPrimitiveNonSymbol] at hp
  | addr b => simp [isPrimitiveNonSymbol] at hp

theorem serializeProperties_prim (h : Heap) (fuel : Nat) :
    ∀ (ps : List (String × JSValue)) (m : Memory),
      (∀ p ∈ ps, isPrimitiveNonSymbol p.2 = true) →
      (∀ p ∈ ps, p.2 ∉ memKeys m) →
      serializeProperties (structuredSerializeInternal h (fuel + 1)) ps m =
        .ok (ps.map (fun p => (p.1, primitiveChild p.2)), m) := by
  intro ps
  induction ps with
  | nil => intro m _ _; rfl
  | cons p rest ih =>
    intro m hprim hmem
    simp only [serializeProperties]
    rw [structuredSerializeInternal_prim h fuel p.2 m (hprim p (by simp)) (hmem p (by simp)),
      exBind_ok]
    rw [ih m (fun q hq => hprim q (by simp [hq])) (fun q hq => hmem q (by simp [hq])),
      exBind_ok]
    simp

/-- One-step unfolding of the serializer at successor fuel, keeping the
recursive occurrences folded. -/
theorem structuredSerializeInternal_succ (h : Heap) (fuel : Nat) (v : JSValue) (m : Memory) :
    structuredSerializeInternal h (fuel + 1) v m =
    (if v ∈ memKeys m then
      .ok (.reference (memIndexOf m v), m)
    else
      match v with
      | .undef => .ok (.primitive ⟨.undefined, "undefined"⟩, m)
      | .null => .ok (.primitive ⟨.null, "null"⟩, m)
      | .bool b => .ok (.primitive ⟨.boolean, boolToString b⟩, m)
      | .num s => .ok (.primitive ⟨.number, s⟩, m)
      | .bigintVal s => .ok (.primitive ⟨.bigint, s⟩, m)
      | .str s => .ok (.primitive ⟨.string, s⟩, m)
      | .sym _ => .error (.typeError "Cannot serialize a Symbol")
      | .addr a =>
        match h.get? a with
        | none => .error (.danglingAddress a)
        | some o =>
          match o with
          | .boxedBoolean b =>
            serializeFinishShallow v (.boolean (boolToString b)) m
          | .boxedNumber s =>
            serializeFinishShallow v (.number s) m
          | .boxedString s =>
            serializeFinishShallow v (.string s) m
          | .date iso =>
            serializeFinishShallow v (.date iso) m
          | .regexp source flags =>
            serializeFinishShallow v (.regexp source flags) m
          | .arrayBuffer bytes =>
            serializeFinishShallow v (.arrayBuffer bytes.length (joinBytes bytes)) m
          | .view ctorName bufferAddr byteOffset byteLength => do
            let (bufferSerialized, m1) ←
              structuredSerializeInternal h fuel (.addr bufferAddr) m
            serializeFinishShallow v
              (.arrayBufferView ctorName byteOffset byteLength bufferSerialized) m1
          | .map entries => do
            let m1 := m ++ [(v, ComplexSerialization.map [])]
            let (mapData, m2) ←
              serializeMapData (structuredSerializeInternal h fuel) entries m1
            serializeFinishDeep v (.map mapData) m2
          | .set elems => do
            let m1 := m ++ [(v, ComplexSerialization.set [])]
            let (setData, m2) ←
              serializeChildList (structuredSerializeInternal h fuel) elems m1
            serializeFinishDeep v (.set setData) m2
          | .error name ownMessage =>
            serializeFinishShallow v (.error (normalizeErrorName name) ownMessage) m
          | .array length props => do
            let m1 := m ++ [(v, ComplexSerialization.array length [])]
            let (properties, m2) ←
              serializeProperties (structuredSerializeInternal h fuel)
                (arrayOwnProperties length props) m1
            serializeFinishDeep v (.array length properties) m2
          | .object props => do
            let m1 := m ++ [(v, ComplexSerialization.object [])]
            let (properties, m2) ←
              serializeProperties (structuredSerializeInternal h fuel) props m1
            serializeFinishDeep v (.object properties) m2
          | .weakmap => .error (.typeError "Cannot serialize a WeakMap or WeakSet")
          | .weakset => .error (.typeError "Cannot serialize a WeakMap or WeakSet")
          | .promise => .error (.typeError "Cannot serialize a Promise")
          | .weakref => .error (.typeError "Cannot serialize a WeakRef")
          | .finalizationRegistry =>
            .error (.typeError "Cannot serialize a FinalizationRegistry")
          | .func => .error (.typeError "Cannot serialize a function")) := rfl

/-- Serialization step of an array with primitive-valued own index properties:
the record lists exactly the present keys (in order) followed by the length
property, with the declared length stored in the record head. -/
theorem structuredSerializeInternal_array_prim (h : Heap) (fuel a : Nat) (m : Memory)
    (len : Nat) (props : List (String × JSValue))
    (hget : h.get? a = some (.array len props))
    (hmem : JSValue.addr a ∉ memKeys m)
    (hkeys : ∀ k ∈ memKeys m, ∃ b, k = JSValue.addr b)
    (hprim : ∀ p ∈ props, isPrimitiveNonSymbol p.2 = true) :
    structuredSerializeInternal h (fuel + 2) (.addr a) m =
      .ok (.reference m.length, m ++ [(.addr a, .array len
        (props.map (fun p => (p.1, primitiveChild p.2)) ++
          [("length", .primitive ⟨.number, Nat.repr len⟩)]))]) := by
  show structuredSerializeInternal h ((fuel + 1) + 1) (.addr a) m = _
  rw [structuredSerializeInternal_succ, if_neg hmem]
  dsimp only
  rw [hget]
  dsimp only
  have hprops : ∀ p ∈ arrayOwnProperties len props, isPrimitiveNonSymbol p.2 = true := by
    intro p hp
    simp only [arrayOwnProperties, List.mem_append, List.mem_singleton] at hp
    rcases hp with hp | hp
    · exact hprim p hp
    · subst hp; rfl
  have hnotin : ∀ p ∈ arrayOwnProperties len props,
      p.2 ∉ memKeys (m ++ [(JSValue.addr a, ComplexSerialization.array len [])]) := by
    intro p hp hin
    rw [memKeys_append] at hin
    have hprimp := hprops p hp
    rcases List.mem_append.mp hin with hin | hin
    · obtain ⟨b, hb⟩ := hkeys p.2 hin
      rw [hb] at hprimp
      simp [isPrimitiveNonSymbol] at hprimp
    · simp only [memKeys, List.map_cons, List.map_nil, List.mem_singleton] at hin
      rw [hin] at hprimp
      simp [isPrimitiveNonSymbol] at hprimp
  rw [serializeProperties_prim h fuel (arrayOwnProperties len props)
    (m ++ [(JSValue.addr a, ComplexSerialization.array len [])]) hprops hnotin, exBind_ok]
  simp only [serializeFinishDeep]
  rw [memUpdate_append_of_not_mem m _ _ _ hmem]
  have hsingle : memUpdate [(JSValue.addr a, ComplexSerialization.array len [])]
      (JSValue.addr a) (ComplexSerialization.array len
        (List.map (fun p => (p.1, primitiveChild p.2)) (arrayOwnProperties len props))) =
      [(JSValue.addr a, ComplexSerialization.array len
        (List.map (fun p => (p.1, primitiveChild p.2)) (arrayOwnProperties len props)))] := by
    simp [memUpdate]
  rw [hsingle, memIndexOf_append_of_not_mem m [] _ _ hmem]
  simp [arrayOwnProperties, primitiveChild]

/-- Unfolding of the deserializer on an inline primitive node. -/
theorem structuredDeserializeInternal_prim (objects : List ComplexSerialization) (fuel : Nat)
    (p : PrimitiveSerialization) (st : DecodeState) :
    structuredDeserializeInternal objects (fuel + 1) (.primitive p) st =
      .ok (decodePrimitive p, st) := by
  simp only [structuredDeserializeInternal]

/-- Unfolding of the deserializer on an array record: the pre-sized empty
shell is allocated and registered, then the properties populate it. -/
theorem structuredDeserializeInternal_arrayRecord (objects : List ComplexSerialization)
    (fuel id : Nat) (st : DecodeState) (len : Nat)
    (sprops : List (String × ChildSerialization))
    (hmem : memLookup st.memory id = none)
    (hget : objects.get? id = some (.array len sprops)) :
    structuredDeserializeInternal objects (fuel + 1) (.reference id) st =
      (deserializeProperties (structuredDeserializeInternal objects fuel) st.heap.length sprops
        (memRegister { st with heap := st.heap ++ [.array len []] } id
          (.addr st.heap.length))) >>= (fun st3 => .ok (.addr st.heap.length, st3)) := by
  simp only [structuredDeserializeInternal, hmem, hget, alloc]

/-- A list whose slot n holds x is unchanged by setting slot n to x. -/
theorem list_set_self {α : Type} : ∀ (l : List α) (n : Nat) (x : α),
    l.get? n = some x → l.set n x = l := by
  intro l
  induction l with
  | nil => intro n x hx; cases n <;> exact Option.noConfusion hx
  | cons y rest ih =>
    intro n x hx
    cases n with
    | zero =>
      simp only [List.get?] at hx
      cases hx
      rfl
    | succ k =>
      simp only [List.get?] at hx
      simp [List.set, ih k x hx]

/-- Population of a reconstructed array from primitive-valued record
properties: every entry either is the length property (skipped without change)
or a fresh canonical index below the length, appended in order; holes are the
keys that never appear. -/
theorem deserializeProperties_prim_fill (objects : List ComplexSerialization) (a : Nat) :
    ∀ (sprops : List (String × ChildSerialization)) (fuel : Nat) (st : DecodeState) (len : Nat)
      (acc : List (String × JSValue)),
      st.heap.get? a = some (.array len acc) →
      (∀ sp ∈ sprops, isPrimitiveChild sp.2 = true) →
      (∀ sp ∈ sprops, sp.1 = "length" ∨ isIndexKeyBelow len sp.1 = true) →
      (∀ sp ∈ sprops, sp.1 ∉ acc.map Prod.fst) →
      (sprops.map Prod.fst).Nodup →
      deserializeProperties (structuredDeserializeInternal objects (fuel + 1)) a sprops st =
        .ok { st with heap := st.heap.set a (.array len (acc ++
          (sprops.filter (fun sp => sp.1 ≠ "length")).map
            (fun sp => (sp.1, decodeChildPrim sp.2)))) } := by
  intro sprops
  induction sprops with
  | nil =>
    intro fuel st len acc hget _ _ _ _
    simp only [deserializeProperties, List.filter_nil, List.map_nil, List.append_nil]
    rw [list_set_self st.heap a _ hget]
  | cons sp rest ih =>
    intro fuel st len acc hget hprim hkey hfresh hnodup
    obtain ⟨key, c⟩ := sp
    have hpc : isPrimitiveChild c = true := hprim (key, c) (by simp)
    cases c with
    | reference rid => exact Bool.noConfusion hpc
    | primitive p =>
      simp only [deserializeProperties]
      rw [structuredDeserializeInternal_prim, exBind_ok]
      by_cases hlen : key = "length"
      · subst hlen
        have hfill : fillProperty st a "length" (decodePrimitive p) = st := by
          simp only [fillProperty]
          rw [hget]
          simp
        rw [hfill]
        rw [ih fuel st len acc hget
          (fun q hq => hprim q (by simp [hq]))
          (fun q hq => hkey q (by simp [hq]))
          (fun q hq => hfresh q (by simp [hq]))
          (by simpa using hnodup.of_cons)]
        have : (("length", ChildSerialization.primitive p) ::
            rest).filter (fun sp => sp.1 ≠ "length") =
            rest.filter (fun sp => sp.1 ≠ "length") := by
          simp [List.filter]
        rw [this]
      · have hkey1 := hkey (key, .primitive p) (by simp)
        rcases hkey1 with hk | hk
        · exact absurd hk hlen
        · simp only [isIndexKeyBelow] at hk
          cases hdec : decStrToNat? key with
          | none => rw [hdec] at hk; exact Bool.noConfusion hk
          | some i =>
            rw [hdec] at hk
            have hcanon : isCanonicalIndex key = true := by
              cases hc : isCanonicalIndex key
              · rw [hc] at hk; exact Bool.noConfusion hk
              · rfl
            have hibelow : i < len := by
              rw [hcanon] at hk
              simpa using hk
            have hfreshk : key ∉ acc.map Prod.fst := hfresh (key, .primitive p) (by simp)
            have hfill : fillProperty st a key (decodePrimitive p) =
                { st with heap :=
                  (st.heap.set a (.array len (acc ++ [(key, decodePrimitive p)]))) } := by
              simp only [fillProperty]
              rw [hget]
              dsimp only
              rw [if_neg hlen, hdec]
              dsimp only
              rw [if_neg (fun hc => absurd hc.2 (by omega))]
              have hany : acc.any (fun q => q.1 = key) = false := by
                rw [List.any_eq_false]
                intro q hq
                simp only [decide_eq_true_eq]
                intro hqk
                exact hfreshk (by rw [← hqk]; exact List.mem_map_of_mem Prod.fst hq)
              simp only [propSet, hany, Bool.false_eq_true, if_false]
            rw [hfill]
            have halt : a < st.heap.length := by
              rcases List.get?_eq_some.mp hget with ⟨hlt, _⟩
              exact hlt
            have hget2 : (st.heap.set a (.array len (acc ++ [(key, decodePrimitive p)]))).get? a =
                some (.array len (acc ++ [(key, decodePrimitive p)])) :=
              List.get?_set_eq_of_lt _ halt
            have hfresh2 : ∀ q ∈ rest, q.1 ∉ (acc ++ [(key, decodePrimitive p)]).map Prod.fst := by
              intro q hq
              rw [List.map_append, List.mem_append]
              intro hcontra
              rcases hcontra with hc | hc
              · exact hfresh q (by simp [hq]) hc
              · simp only [List.map_cons, List.map_nil, List.mem_singleton] at hc
                have hnd := hnodup
                rw [List.map_cons, List.nodup_cons] at hnd
                have hmem3 : q.1 ∈ rest.map Prod.fst := List.mem_map_of_mem Prod.fst hq
                rw [hc] at hmem3
                exact hnd.1 hmem3
            rw [ih fuel _ len (acc ++ [(key, decodePrimitive p)]) hget2
              (fun q hq => hprim q (by simp [hq]))
              (fun q hq => hkey q (by simp [hq]))
              hfresh2
              (by simpa using hnodup.of_cons)]
            have hfilter : ((key, ChildSerialization.primitive p) ::
                rest).filter (fun sp => sp.1 ≠ "length") =
                (key, ChildSerialization.primitive p) ::
                  rest.filter (fun sp => sp.1 ≠ "length") := by
              simp [List.filter, hlen]
            rw [hfilter]
            simp only [List.map_cons, List.set_set, decodeChildPrim]
            rw [List.append_assoc]
            rfl

/-- C9.  Sparse arrays keep their holes: serializing an array with
primitive-valued own index properties emits exactly the present keys plus the
length property and the declared length; decoding an array record rebuilds an
array of the declared length whose property list holds exactly the non-length
recorded keys (missing indices are absent, not undefined-valued entries); and
the concrete array with elements at indices 0 and 2 and a hole at index 1
round-trips with the hole intact. -/
theorem structuredSparseArray_holes :
    (∀ (h : Heap) (fuel a : Nat) (m : Memory) (len : Nat) (props : List (String × JSValue)),
      h.get? a = some (.array len props) →
      JSValue.addr a ∉ memKeys m →
      (∀ k ∈ memKeys m, ∃ b, k = JSValue.addr b) →
      (∀ p ∈ props, isPrimitiveNonSymbol p.2 = true) →
      structuredSerializeInternal h (fuel + 2) (.addr a) m =
        .ok (.reference m.length, m ++ [(.addr a, .array len
          (props.map (fun p => (p.1, primitiveChild p.2)) ++
            [("length", .primitive ⟨.number, Nat.repr len⟩)]))])) ∧
    (∀ (objects : List ComplexSerialization) (id len : Nat)
       (sprops : List (String × ChildSerialization)),
      objects.get? id = some (.array len sprops) →
      (∀ sp ∈ sprops, isPrimitiveChild sp.2 = true) →
      (∀ sp ∈ sprops, sp.1 = "length" ∨ isIndexKeyBelow len sp.1 = true) →
      (sprops.map Prod.fst).Nodup →
      structuredDeserialize (.topLevel objects (.reference id)) =
        .ok (.addr 0, [.array len ((sprops.filter (fun sp => sp.1 ≠ "length")).map
          (fun sp => (sp.1, decodeChildPrim sp.2)))])) ∧
    roundTrip [.array 3 [("0", .num "1"), ("2", .num "3")]] (.addr 0) =
      some (.addr 0, [.array 3 [("0", .num "1"), ("2", .num "3")]]) := by
  refine ⟨?_, ?_, by decide⟩
  · intro h fuel a m len props hget hmem hkeys hprim
    exact structuredSerializeInternal_array_prim h fuel a m len props hget hmem hkeys hprim
  · intro objects id len sprops hget hprim hkey hnodup
    rw [structuredDeserialize_topLevel_eq, deserializeFuel_succ,
      structuredDeserializeInternal_arrayRecord objects _ id DecodeState.initial len sprops rfl
        hget]
    have hf : 2 * objects.length + 7 = (2 * objects.length + 6) + 1 := by omega
    rw [hf]
    rw [deserializeProperties_prim_fill objects
      (DecodeState.initial.heap.length) sprops (2 * objects.length + 6)
      (memRegister { DecodeState.initial with
        heap := DecodeState.initial.heap ++ [JSObject.array len []] } id
        (.addr DecodeState.initial.heap.length))
      len [] rfl hprim hkey (by simp) hnodup]
    rw [exBind_ok]
    rfl

/-- C9 witness: the two general conjuncts instantiated at the concrete sparse
array with a hole at index 1. -/
theorem structuredSparseArray_holes_witness :
    structuredSerializeInternal [JSObject.array 3 [("0", .num "1"), ("2", .num "3")]] (0 + 2)
        (.addr 0) [] =
      .ok (.reference (List.length ([] : Memory)), [] ++ [(JSValue.addr 0,
        ComplexSerialization.array 3
          (([("0", JSValue.num "1"), ("2", JSValue.num "3")] :
              List (String × JSValue)).map (fun p => (p.1, primitiveChild p.2)) ++
            [("length", .primitive ⟨.number, Nat.repr 3⟩)]))]) ∧
    structuredDeserialize (.topLevel [.array 3 [("0", .primitive ⟨.number, "1"⟩),
        ("2", .primitive ⟨.number, "3"⟩), ("length", .primitive ⟨.number, "3"⟩)]]
        (.reference 0)) =
      .ok (.addr 0, [.array 3 ((([("0", ChildSerialization.primitive ⟨.number, "1"⟩),
        ("2", ChildSerialization.primitive ⟨.number, "3"⟩),
        ("length", ChildSerialization.primitive ⟨.number, "3"⟩)] :
          List (String × ChildSerialization)).filter
          (fun sp => sp.1 ≠ "length")).map (fun sp => (sp.1, decodeChildPrim sp.2)))]) :=
  ⟨structuredSparseArray_holes.1 [JSObject.array 3 [("0", .num "1"), ("2", .num "3")]] 0 0 []
     3 [("0", .num "1"), ("2", .num "3")] (by decide) (by simp [memKeys])
     (by simp [memKeys]) (by decide),
   structuredSparseArray_holes.2.1 [.array 3 [("0", .primitive ⟨.number, "1"⟩),
     ("2", .primitive ⟨.number, "3"⟩), ("length", .primitive ⟨.number, "3"⟩)]] 0 3
     [("0", .primitive ⟨.number, "1"⟩), ("2", .primitive ⟨.number, "3"⟩),
      ("length", .primitive ⟨.number, "3"⟩)] (by decide) (by decide) (by decide) (by decide)⟩

/-! Well-formedness of produced envelopes: every reference id points into the
record array. -/

theorem childRefsBounded_mono {n n2 : Nat} (hle : n ≤ n2) (c : ChildSerialization)
    (hc : childRefsBounded n c = true) : childRefsBounded n2 c = true := by
  cases c with
  | primitive p => rfl
  | reference id =>
    simp only [childRefsBounded, decide_eq_true_eq] at hc ⊢
    omega

theorem recRefsBounded_mono {n n2 : Nat} (hle : n ≤ n2) (rec : ComplexSerialization)
    (hc : recRefsBounded n rec = true) : recRefsBounded n2 rec = true := by
  cases rec with
  | arrayBufferView name off len child =>
    exact childRefsBounded_mono hle child hc
  | map mapData =>
    simp only [recRefsBounded, List.all_eq_true] at hc ⊢
    intro e he
    have hce := hc e he
    rw [Bool.and_eq_true] at hce
    rw [Bool.and_eq_true]
    exact ⟨childRefsBounded_mono hle e.1 hce.1, childRefsBounded_mono hle e.2 hce.2⟩
  | set setData =>
    simp only [recRefsBounded, List.all_eq_true] at hc ⊢
    intro c hcmem
    exact childRefsBounded_mono hle c (hc c hcmem)
  | array len properties =>
    simp only [recRefsBounded, List.all_eq_true] at hc ⊢
    intro p hp
    exact childRefsBounded_mono hle p.2 (hc p hp)
  | object properties =>
    simp only [recRefsBounded, List.all_eq_true] at hc ⊢
    intro p hp
    exact childRefsBounded_mono hle p.2 (hc p hp)
  | boolean d => rfl
  | number d => rfl
  | string d => rfl
  | date d => rfl
  | regexp s f => rfl
  | arrayBuffer l d => rfl
  | error nm msg => rfl
  | unknownType t => rfl

theorem memIndexOf_lt_length (m : Memory) (v : JSValue) (hv : v ∈ memKeys m) :
    memIndexOf m v < m.length := by
  induction m with
  | nil => exact absurd hv (by simp [memKeys])
  | cons e rest ih =>
    by_cases hev : e.1 = v
    · simp [memIndexOf, hev]
    · simp only [memKeys, List.map_cons, List.mem_cons] at hv
      rcases hv with hv | hv
      · exact absurd hv.symm hev
      · simp only [memIndexOf, hev, if_false, List.length_cons]
        exact Nat.succ_lt_succ (ih hv)

theorem memUpdate_length (m : Memory) (v : JSValue) (r : ComplexSerialization) :
    (memUpdate m v r).length = m.length := by
  induction m with
  | nil => rfl
  | cons e rest ih =>
    simp only [memUpdate]
    by_cases hev : e.1 = v
    · simp [hev]
    · simp [hev, ih]

theorem mem_of_memUpdate (m : Memory) (v : JSValue) (r : ComplexSerialization) :
    ∀ e ∈ memUpdate m v r, e ∈ m ∨ e = (v, r) := by
  induction m with
  | nil => intro e he; exact absurd he (by simp [memUpdate])
  | cons q rest ih =>
    intro e he
    simp only [memUpdate] at he
    by_cases hqv : q.1 = v
    · rw [if_pos hqv] at he
      rcases List.mem_cons.mp he with he | he
      · right; exact he
      · left; exact List.mem_cons_of_mem q he
    · rw [if_neg hqv] at he
      rcases List.mem_cons.mp he with he | he
      · left; rw [he]; exact List.mem_cons_self q rest
      · rcases ih e he with h | h
        · left; exact List.mem_cons_of_mem q h
        · right; exact h

theorem MemBounded_append_shallow (m : Memory) (v : JSValue) (rec : ComplexSerialization)
    (hm : MemBounded m) (hrec : recRefsBounded (m.length + 1) rec = true) :
    MemBounded (m ++ [(v, rec)]) := by
  intro e he
  rw [List.length_append, List.length_singleton]
  rcases List.mem_append.mp he with he | he
  · exact recRefsBounded_mono (by omega) e.2 (hm e he)
  · rw [List.mem_singleton] at he
    rw [he]
    exact hrec

theorem serializeChildList_bounded (recurse : JSValue → Memory → SerResult)
    (hrecb : ∀ v m r, recurse v m = .ok r → MemBounded m →
      MemBounded r.2 ∧ childRefsBounded r.2.length r.1 = true)
    (hrecm : ∀ v m r, recurse v m = .ok r → ∃ t, r.2 = m ++ t) :
    ∀ vs m r, serializeChildList recurse vs m = .ok r → MemBounded m →
      MemBounded r.2 ∧ ∀ c ∈ r.1, childRefsBounded r.2.length c = true := by
  intro vs
  induction vs with
  | nil =>
    intro m r hr hm
    simp only [serializeChildList] at hr
    cases hr
    exact ⟨hm, by intro c hc; exact absurd hc (by simp)⟩
  | cons v rest ih =>
    intro m r hr hm
    simp only [serializeChildList] at hr
    cases h1 : recurse v m with
    | error e => rw [h1, exBind_err] at hr; exact Except.noConfusion hr
    | ok p1 =>
      rw [h1, exBind_ok] at hr
      obtain ⟨c, m1⟩ := p1
      cases h2 : serializeChildList recurse rest m1 with
      | error e => rw [h2, exBind_err] at hr; exact Except.noConfusion hr
      | ok p2 =>
        rw [h2, exBind_ok] at hr
        obtain ⟨cs, m2⟩ := p2
        cases hr
        obtain ⟨hb1, hc1⟩ := hrecb v m (c, m1) h1 hm
        obtain ⟨hb2, hc2⟩ := ih m1 (cs, m2) h2 hb1
        obtain ⟨t2, ht2⟩ := serializeChildList_mono recurse hrecm rest m1 (cs, m2) h2
        simp only at ht2 hc1 hb1 ⊢
        refine ⟨hb2, ?_⟩
        intro c2 hc2mem
        rcases List.mem_cons.mp hc2mem with he | he
        · rw [he]
          refine childRefsBounded_mono ?_ c hc1
          rw [ht2, List.length_append]
          omega
        · exact hc2 c2 he

theorem serializeMapData_bounded (recurse : JSValue → Memory → SerResult)
    (hrecb : ∀ v m r, recurse v m = .ok r → MemBounded m →
      MemBounded r.2 ∧ childRefsBounded r.2.length r.1 = true)
    (hrecm : ∀ v m r, recurse v m = .ok r → ∃ t, r.2 = m ++ t) :
    ∀ es m r, serializeMapData recurse es m = .ok r → MemBounded m →
      MemBounded r.2 ∧ ∀ e ∈ r.1,
        childRefsBounded r.2.length e.1 = true ∧ childRefsBounded r.2.length e.2 = true := by
  intro es
  induction es with
  | nil =>
    intro m r hr hm
    simp only [serializeMapData] at hr
    cases hr
    exact ⟨hm, by intro e he; exact absurd he (by simp)⟩
  | cons q rest ih =>
    intro m r hr hm
    simp only [serializeMapData] at hr
    cases h1 : recurse q.1 m with
    | error e => rw [h1, exBind_err] at hr; exact Except.noConfusion hr
    | ok p1 =>
      rw [h1, exBind_ok] at hr
      obtain ⟨ck, m1⟩ := p1
      cases h2 : recurse q.2 m1 with
      | error e => rw [h2, exBind_err] at hr; exact Except.noConfusion hr
      | ok p2 =>
        rw [h2, exBind_ok] at hr
        obtain ⟨cv, m2⟩ := p2
        cases h3 : serializeMapData recurse rest m2 with
        | error e => rw [h3, exBind_err] at hr; exact Except.noConfusion hr
        | ok p3 =>
          rw [h3, exBind_ok] at hr
          obtain ⟨pairs, m3⟩ := p3
          cases hr
          obtain ⟨hb1, hc1⟩ := hrecb q.1 m (ck, m1) h1 hm
          obtain ⟨hb2, hc2⟩ := hrecb q.2 m1 (cv, m2) h2 hb1
          obtain ⟨hb3, hc3⟩ := ih m2 (pairs, m3) h3 hb2
          obtain ⟨t2, ht2⟩ := hrecm q.2 m1 (cv, m2) h2
          obtain ⟨t3, ht3⟩ := serializeMapData_mono recurse hrecm rest m2 (pairs, m3) h3
          simp only at ht2 ht3 hc1 hc2 ⊢
          refine ⟨hb3, ?_⟩
          intro e he
          rcases List.mem_cons.mp he with he | he
          · rw [he]
            constructor
            · refine childRefsBounded_mono ?_ ck hc1
              rw [ht3, ht2]
              simp only [List.length_append]
              omega
            · refine childRefsBounded_mono ?_ cv hc2
              rw [ht3, List.length_append]
              omega
          · exact hc3 e he

theorem serializeProperties_bounded (recurse : JSValue → Memory → SerResult)
    (hrecb : ∀ v m r, recurse v m = .ok r → MemBounded m →
      MemBounded r.2 ∧ childRefsBounded r.2.length r.1 = true)
    (hrecm : ∀ v m r, recurse v m = .ok r → ∃ t, r.2 = m ++ t) :
    ∀ ps m r, serializeProperties recurse ps m = .ok r → MemBounded m →
      MemBounded r.2 ∧ ∀ p ∈ r.1, childRefsBounded r.2.length p.2 = true := by
  intro ps
  induction ps with
  | nil =>
    intro m r hr hm
    simp only [serializeProperties] at hr
    cases hr
    exact ⟨hm, by intro p hp; exact absurd hp (by simp)⟩
  | cons q rest ih =>
    intro m r hr hm
    simp only [serializeProperties] at hr
    cases h1 : recurse q.2 m with
    | error e => rw [h1, exBind_err] at hr; exact Except.noConfusion hr
    | ok p1 =>
      rw [h1, exBind_ok] at hr
      obtain ⟨c, m1⟩ := p1
      cases h2 : serializeProperties recurse rest m1 with
      | error e => rw [h2, exBind_err] at hr; exact Except.noConfusion hr
      | ok p2 =>
        rw [h2, exBind_ok] at hr
        obtain ⟨cs, m2⟩ := p2
        cases hr
        obtain ⟨hb1, hc1⟩ := hrecb q.2 m (c, m1) h1 hm
        obtain ⟨hb2, hc2⟩ := ih m1 (cs, m2) h2 hb1
        obtain ⟨t2, ht2⟩ := serializeProperties_mono recurse hrecm rest m1 (cs, m2) h2
        simp only at ht2 hc1 ⊢
        refine ⟨hb2, ?_⟩
        intro p hp
        rcases List.mem_cons.mp hp with he | he
        · rw [he]
          refine childRefsBounded_mono ?_ c hc1
          rw [ht2, List.length_append]
          omega
        · exact hc2 p he

theorem childRefsBounded_ref_of_mem (m : Memory) (v : JSValue) (hv : v ∈ memKeys m) :
    childRefsBounded m.length (.reference (memIndexOf m v)) = true := by
  simp only [childRefsBounded, decide_eq_true_eq]
  exact memIndexOf_lt_length m v hv

theorem MemBounded_memUpdate (m : Memory) (v : JSValue) (rec : ComplexSerialization)
    (hm : MemBounded m) (hrec : recRefsBounded m.length rec = true) :
    MemBounded (memUpdate m v rec) := by
  intro e he
  rw [memUpdate_length]
  rcases mem_of_memUpdate m v rec e he with hcase | hcase
  · exact hm e hcase
  · rw [hcase]
    exact hrec

theorem structuredSerializeInternal_bounded (h : Heap) :
    ∀ fuel v m r, structuredSerializeInternal h fuel v m = .ok r → MemBounded m →
      MemBounded r.2 ∧ childRefsBounded r.2.length r.1 = true := by
  intro fuel
  induction fuel with
  | zero =>
    intro v m r hr hm
    exact Except.noConfusion hr
  | succ fuel ih =>
    intro v m r hr hm
    simp only [structuredSerializeInternal] at hr
    by_cases hmem : v ∈ memKeys m
    · rw [if_pos hmem] at hr
      cases hr
      exact ⟨hm, childRefsBounded_ref_of_mem m v hmem⟩
    · rw [if_neg hmem] at hr
      cases v with
      | undef => cases hr; exact ⟨hm, rfl⟩
      | null => cases hr; exact ⟨hm, rfl⟩
      | bool b => cases hr; exact ⟨hm, rfl⟩
      | num s => cases hr; exact ⟨hm, rfl⟩
      | bigintVal s => cases hr; exact ⟨hm, rfl⟩
      | str s => cases hr; exact ⟨hm, rfl⟩
      | sym i => exact Except.noConfusion hr
      | addr a =>
        dsimp only at hr
        cases hget : h.get? a with
        | none => rw [hget] at hr; exact Except.noConfusion hr
        | some o =>
          rw [hget] at hr
          cases o with
          | boxedBoolean b =>
            simp only [serializeFinishShallow] at hr
            cases hr
            exact ⟨MemBounded_append_shallow m _ _ hm rfl,
              childRefsBounded_ref_of_mem _ _ (by simp [memKeys])⟩
          | boxedNumber s =>
            simp only [serializeFinishShallow] at hr
            cases hr
            exact ⟨MemBounded_append_shallow m _ _ hm rfl,
              childRefsBounded_ref_of_mem _ _ (by simp [memKeys])⟩
          | boxedString s =>
            simp only [serializeFinishShallow] at hr
            cases hr
            exact ⟨MemBounded_append_shallow m _ _ hm rfl,
              childRefsBounded_ref_of_mem _ _ (by simp [memKeys])⟩
          | date iso =>
            simp only [serializeFinishShallow] at hr
            cases hr
            exact ⟨MemBounded_append_shallow m _ _ hm rfl,
              childRefsBounded_ref_of_mem _ _ (by simp [memKeys])⟩
          | regexp src flags =>
            simp only [serializeFinishShallow] at hr
            cases hr
            exact ⟨MemBounded_append_shallow m _ _ hm rfl,
              childRefsBounded_ref_of_mem _ _ (by simp [memKeys])⟩
          | arrayBuffer bytes =>
            simp only [serializeFinishShallow] at hr
            cases hr
            exact ⟨MemBounded_append_shallow m _ _ hm rfl,
              childRefsBounded_ref_of_mem _ _ (by simp [memKeys])⟩
          | error name msg =>
            simp only [serializeFinishShallow] at hr
            cases hr
            exact ⟨MemBounded_append_shallow m _ _ hm rfl,
              childRefsBounded_ref_of_mem _ _ (by simp [memKeys])⟩
          | view name ba off len =>
            dsimp only at hr
            cases h1 : structuredSerializeInternal h fuel (.addr ba) m with
            | error e => rw [h1, exBind_err] at hr; exact Except.noConfusion hr
            | ok p1 =>
              rw [h1, exBind_ok] at hr
              obtain ⟨bufSer, m1⟩ := p1
              simp only [serializeFinishShallow] at hr
              cases hr
              obtain ⟨hb1, hc1⟩ := ih (.addr ba) m (bufSer, m1) h1 hm
              simp only at hb1 hc1
              refine ⟨MemBounded_append_shallow m1 _ _ hb1 ?_,
                childRefsBounded_ref_of_mem _ _ (by simp [memKeys])⟩
              exact childRefsBounded_mono (by omega) bufSer hc1
          | map entries =>
            dsimp only at hr
            cases h2 : serializeMapData (structuredSerializeInternal h fuel) entries
                (m ++ [(JSValue.addr a, ComplexSerialization.map [])]) with
            | error e => rw [h2, exBind_err] at hr; exact Except.noConfusion hr
            | ok p2 =>
              rw [h2, exBind_ok] at hr
              obtain ⟨mapData, m2⟩ := p2
              simp only [serializeFinishDeep] at hr
              cases hr
              have hm1 : MemBounded (m ++ [(JSValue.addr a, ComplexSerialization.map [])]) :=
                MemBounded_append_shallow m _ _ hm rfl
              obtain ⟨hb2, hc2⟩ := serializeMapData_bounded _
                (fun v m r hh hb => ih v m r hh hb)
                (fun v m r hh => structuredSerializeInternal_mono h fuel v m r hh)
                entries _ (mapData, m2) h2 hm1
              simp only at hb2 hc2
              obtain ⟨t2, ht2⟩ := serializeMapData_mono _
                (fun v m r hh => structuredSerializeInternal_mono h fuel v m r hh)
                entries _ (mapData, m2) h2
              simp only at ht2
              refine ⟨MemBounded_memUpdate m2 _ _ hb2 ?_, ?_⟩
              · simp only [recRefsBounded, List.all_eq_true]
                intro e he
                rw [Bool.and_eq_true]
                exact hc2 e he
              · refine childRefsBounded_ref_of_mem _ _ ?_
                rw [memKeys_memUpdate, ht2, memKeys_append]
                simp [memKeys]
          | set elems =>
            dsimp only at hr
            cases h2 : serializeChildList (structuredSerializeInternal h fuel) elems
                (m ++ [(JSValue.addr a, ComplexSerialization.set [])]) with
            | error e => rw [h2, exBind_err] at hr; exact Except.noConfusion hr
            | ok p2 =>
              rw [h2, exBind_ok] at hr
              obtain ⟨setData, m2⟩ := p2
              simp only [serializeFinishDeep] at hr
              cases hr
              have hm1 : MemBounded (m ++ [(JSValue.addr a, ComplexSerialization.set [])]) :=
                MemBounded_append_shallow m _ _ hm rfl
              obtain ⟨hb2, hc2⟩ := serializeChildList_bounded _
                (fun v m r hh hb => ih v m r hh hb)
                (fun v m r hh => structuredSerializeInternal_mono h fuel v m r hh)
                elems _ (setData, m2) h2 hm1
              simp only at hb2 hc2
              obtain ⟨t2, ht2⟩ := serializeChildList_mono _
                (fun v m r hh => structuredSerializeInternal_mono h fuel v m r hh)
                elems _ (setData, m2) h2
              simp only at ht2
              refine ⟨MemBounded_memUpdate m2 _ _ hb2 ?_, ?_⟩
              · simp only [recRefsBounded, List.all_eq_true]
                intro c hc
                exact hc2 c hc
              · refine childRefsBounded_ref_of_mem _ _ ?_
                rw [memKeys_memUpdate, ht2, memKeys_append]
                simp [memKeys]
          | array len props =>
            dsimp only at hr
            cases h2 : serializeProperties (structuredSerializeInternal h fuel)
                (arrayOwnProperties len props)
                (m ++ [(JSValue.addr a, ComplexSerialization.array len [])]) with
            | error e => rw [h2, exBind_err] at hr; exact Except.noConfusion hr
            | ok p2 =>
              rw [h2, exBind_ok] at hr
              obtain ⟨properties, m2⟩ := p2
              simp only [serializeFinishDeep] at hr
              cases hr
              have hm1 : MemBounded (m ++ [(JSValue.addr a, ComplexSerialization.array len [])]) :=
                MemBounded_append_shallow m _ _ hm rfl
              obtain ⟨hb2, hc2⟩ := serializeProperties_bounded _
                (fun v m r hh hb => ih v m r hh hb)
                (fun v m r hh => structuredSerializeInternal_mono h fuel v m r hh)
                (arrayOwnProperties len props) _ (properties, m2) h2 hm1
              simp only at hb2 hc2
              obtain ⟨t2, ht2⟩ := serializeProperties_mono _
                (fun v m r hh => structuredSerializeInternal_mono h fuel v m r hh)
                (arrayOwnProperties len props) _ (properties, m2) h2
              simp only at ht2
              refine ⟨MemBounded_memUpdate m2 _ _ hb2 ?_, ?_⟩
              · simp only [recRefsBounded, List.all_eq_true]
                intro p hp
                exact hc2 p hp
              · refine childRefsBounded_ref_of_mem _ _ ?_
                rw [memKeys_memUpdate, ht2, memKeys_append]
                simp [memKeys]
          | object props =>
            dsimp only at hr
            cases h2 : serializeProperties (structuredSerializeInternal h fuel) props
                (m ++ [(JSValue.addr a, ComplexSerialization.object [])]) with
            | error e => rw [h2, exBind_err] at hr; exact Except.noConfusion hr
            | ok p2 =>
              rw [h2, exBind_ok] at hr
              obtain ⟨properties, m2⟩ := p2
              simp only [serializeFinishDeep] at hr
              cases hr
              have hm1 : MemBounded (m ++ [(JSValue.addr a, ComplexSerialization.object [])]) :=
                MemBounded_append_shallow m _ _ hm rfl
              obtain ⟨hb2, hc2⟩ := serializeProperties_bounded _
                (fun v m r hh hb => ih v m r hh hb)
                (fun v m r hh => structuredSerializeInternal_mono h fuel v m r hh)
                props _ (properties, m2) h2 hm1
              simp only at hb2 hc2
              obtain ⟨t2, ht2⟩ := serializeProperties_mono _
                (fun v m r hh => structuredSerializeInternal_mono h fuel v m r hh)
                props _ (properties, m2) h2
              simp only at ht2
              refine ⟨MemBounded_memUpdate m2 _ _ hb2 ?_, ?_⟩
              · simp only [recRefsBounded, List.all_eq_true]
                intro p hp
                exact hc2 p hp
              · refine childRefsBounded_ref_of_mem _ _ ?_
                rw [memKeys_memUpdate, ht2, memKeys_append]
                simp [memKeys]
          | weakmap => exact Except.noConfusion hr
          | weakset => exact Except.noConfusion hr
          | promise => exact Except.noConfusion hr
          | weakref => exact Except.noConfusion hr
          | finalizationRegistry => exact Except.noConfusion hr
          | func => exact Except.noConfusion hr

/-- C10.  Every envelope produced by a successful serialization of a
non-primitive value is internally well formed: its top-level value is a
Reference node whose id lies below the record count, and every reference id
appearing in any record (map keys and values, set elements, array and record
property values, view buffer references) lies below the record count, so
decoding the produced envelope never indexes the record array out of range. -/
theorem structuredSerialize_envelope_wellFormed :
    ∀ (h : Heap) (a : Nat) (t : TopLevelSerialization),
      structuredSerialize h (.addr a) = .ok t →
      ∃ objects rootId, t = .topLevel objects (.reference rootId) ∧
        rootId < objects.length ∧ envelopeRefsBounded t = true := by
  intro h a t hr
  simp only [structuredSerialize] at hr
  have hf : serializeFuel h = (h.length + 1) + 1 := by unfold serializeFuel; omega
  rw [hf] at hr
  cases hx : structuredSerializeInternal h ((h.length + 1) + 1) (.addr a) [] with
  | error e => rw [hx, exBind_err] at hr; exact Except.noConfusion hr
  | ok p =>
    rw [hx, exBind_ok] at hr
    obtain ⟨c, m⟩ := p
    obtain ⟨id, hid⟩ := structuredSerializeInternal_addr_isReference h _ a [] (c, m) hx
    simp only at hid
    subst hid
    cases hr
    obtain ⟨hbm, hbc⟩ := structuredSerializeInternal_bounded h _ _ _ _ hx
      (by intro e he; exact absurd he (by simp))
    simp only at hbm hbc
    refine ⟨m.map Prod.snd, id, rfl, ?_, ?_⟩
    · simp only [childRefsBounded, decide_eq_true_eq] at hbc
      simpa using hbc
    · simp only [envelopeRefsBounded, Bool.and_eq_true]
      constructor
      · rw [List.length_map]
        exact hbc
      · rw [List.all_eq_true]
        intro rec hrec
        obtain ⟨e, he, heq⟩ := List.mem_map.mp hrec
        rw [← heq]
        rw [List.length_map]
        exact hbm e he

/-- C10 witness: a record containing a shared nested object, serialized from a
concrete heap, produces a well-formed two-record envelope. -/
theorem structuredSerialize_envelope_wellFormed_witness :
    ∃ objects rootId,
      (TopLevelSerialization.topLevel
        [ComplexSerialization.object [("a", .reference 1), ("b", .reference 1)],
         ComplexSerialization.object []] (.reference 0)) =
        .topLevel objects (.reference rootId) ∧
      rootId < objects.length ∧
      envelopeRefsBounded (.topLevel
        [ComplexSerialization.object [("a", .reference 1), ("b", .reference 1)],
         ComplexSerialization.object []] (.reference 0)) = true :=
  structuredSerialize_envelope_wellFormed
    [.object [("a", .addr 1), ("b", .addr 1)], .object []] 0 _ (by decide)

/-! Unsupported values and reachability. -/

theorem heapWFb_children {h : Heap} (hwf : heapWFb h = true) {a : Nat} {o : JSObject}
    (hget : h.get? a = some o) : ∀ w ∈ objChildren o, valueWFb h w = true := by
  intro w hw
  have hmem : o ∈ h := by
    rcases List.get?_eq_some.mp hget with ⟨hlt, hval⟩
    rw [← hval]
    exact List.get_mem h a hlt
  rw [heapWFb, List.all_eq_true] at hwf
  have ho := hwf o hmem
  rw [Bool.and_eq_true] at ho
  have hch := ho.1
  rw [List.all_eq_true] at hch
  have := hch w hw
  cases w <;> simpa [valueWFb] using this

theorem heapWFb_viewBuffer {h : Heap} (hwf : heapWFb h = true) {a : Nat}
    {nm : String} {ba off len : Nat}
    (hget : h.get? a = some (.view nm ba off len)) :
    ∃ bytes, h.get? ba = some (.arrayBuffer bytes) := by
  have hmem : JSObject.view nm ba off len ∈ h := by
    rcases List.get?_eq_some.mp hget with ⟨hlt, hval⟩
    rw [← hval]
    exact List.get_mem h a hlt
  rw [heapWFb, List.all_eq_true] at hwf
  have ho := hwf _ hmem
  rw [Bool.and_eq_true] at ho
  have hv := ho.2
  dsimp only at hv
  cases hba : h.get? ba with
  | none => rw [hba] at hv; exact Bool.noConfusion hv
  | some o2 =>
    rw [hba] at hv
    cases o2 <;> first
      | exact Bool.noConfusion hv
      | exact ⟨_, rfl⟩

/-! Closure of the serializer memory: after a successful run, every key is a
supported value and the children of every newly inserted key are either
supported primitives or keys themselves. -/

theorem ValueCovered_mono (h : Heap) {m m2 : Memory}
    (hsub : ∀ k ∈ memKeys m, k ∈ memKeys m2) (v : JSValue) :
    ValueCovered h m v → ValueCovered h m2 v := by
  intro ⟨h1, h2⟩
  exact ⟨h1, fun a ha => hsub v (h2 a ha)⟩

theorem memKeys_sub_append (m : Memory) (t : Memory) :
    ∀ k ∈ memKeys m, k ∈ memKeys (m ++ t) := by
  intro k hk
  rw [memKeys_append]
  exact List.mem_append_left _ hk

theorem NewEntriesClosed_trans (h : Heap) {m0 m1 m2 : Memory}
    (h01 : NewEntriesClosed h m0 m1) (h12 : NewEntriesClosed h m1 m2)
    (hsub : ∀ k ∈ memKeys m1, k ∈ memKeys m2) : NewEntriesClosed h m0 m2 := by
  intro k hk hnot a ha o hget w hw
  by_cases hk1 : k ∈ memKeys m1
  · exact ValueCovered_mono h hsub w (h01 k hk1 hnot a ha o hget w hw)
  · exact h12 k hk hk1 a ha o hget w hw

theorem not_unsupported_of_get (h : Heap) {a : Nat} {o : JSObject}
    (hget : h.get? a = some o) (ho : isUnsupportedObj o = false) :
    ¬ IsUnsupportedValue h (.addr a) := by
  rintro (⟨i, hi⟩ | ⟨a2, o2, heq, hget2, hunsup⟩)
  · exact JSValue.noConfusion hi
  · cases heq
    rw [hget] at hget2
    cases hget2
    rw [ho] at hunsup
    exact Bool.noConfusion hunsup

theorem not_unsupported_prim (h : Heap) (v : JSValue)
    (h1 : ∀ i, v ≠ .sym i) (h2 : ∀ a, v ≠ .addr a) : ¬ IsUnsupportedValue h v := by
  rintro (⟨i, hi⟩ | ⟨a, o, heq, _, _⟩)
  · exact h1 i hi
  · exact h2 a heq

theorem NewEntriesClosed_refl (h : Heap) (m : Memory) : NewEntriesClosed h m m :=
  fun k hk hnk => absurd hk hnk

theorem KeysSupported_append (h : Heap) (m : Memory) (v : JSValue)
    (rec : ComplexSerialization) (hm : KeysSupported h m)
    (hv : ¬ IsUnsupportedValue h v) : KeysSupported h (m ++ [(v, rec)]) := by
  intro k hk
  rw [memKeys_append] at hk
  rcases List.mem_append.mp hk with hk | hk
  · exact hm k hk
  · simp only [memKeys, List.map_cons, List.map_nil, List.mem_singleton] at hk
    rw [hk]
    exact hv

theorem KeysSupported_memUpdate (h : Heap) (m : Memory) (v : JSValue)
    (rec : ComplexSerialization) (hm : KeysSupported h m) :
    KeysSupported h (memUpdate m v rec) := by
  intro k hk
  rw [memKeys_memUpdate] at hk
  exact hm k hk

theorem ValueCovered_memUpdate (h : Heap) (m : Memory) (v w : JSValue)
    (rec : ComplexSerialization) (hc : ValueCovered h m w) :
    ValueCovered h (memUpdate m v rec) w := by
  refine ValueCovered_mono h ?_ w hc
  intro k hk
  rw [memKeys_memUpdate]
  exact hk

theorem serializeChildList_closure (h : Heap) (recurse : JSValue → Memory → SerResult)
    (hrec : ∀ v m r, recurse v m = .ok r → KeysSupported h m →
      KeysSupported h r.2 ∧ NewEntriesClosed h m r.2 ∧ ValueCovered h r.2 v)
    (hrecm : ∀ v m r, recurse v m = .ok r → ∃ t, r.2 = m ++ t) :
    ∀ vs m r, serializeChildList recurse vs m = .ok r → KeysSupported h m →
      KeysSupported h r.2 ∧ NewEntriesClosed h m r.2 ∧
        ∀ x ∈ vs, ValueCovered h r.2 x := by
  intro vs
  induction vs with
  | nil =>
    intro m r hr hm
    simp only [serializeChildList] at hr
    cases hr
    exact ⟨hm, NewEntriesClosed_refl h m, by intro x hx; exact absurd hx (by simp)⟩
  | cons v rest ih =>
    intro m r hr hm
    simp only [serializeChildList] at hr
    cases h1 : recurse v m with
    | error e => rw [h1, exBind_err] at hr; exact Except.noConfusion hr
    | ok p1 =>
      rw [h1, exBind_ok] at hr
      obtain ⟨c, m1⟩ := p1
      cases h2 : serializeChildList recurse rest m1 with
      | error e => rw [h2, exBind_err] at hr; exact Except.noConfusion hr
      | ok p2 =>
        rw [h2, exBind_ok] at hr
        obtain ⟨cs, m2⟩ := p2
        cases hr
        obtain ⟨hk1, hn1, hc1⟩ := hrec v m (c, m1) h1 hm
        obtain ⟨hk2, hn2, hc2⟩ := ih m1 (cs, m2) h2 hk1
        obtain ⟨t2, ht2⟩ := serializeChildList_mono recurse hrecm rest m1 (cs, m2) h2
        simp only at hk1 hn1 hc1 ht2 ⊢
        have hsub : ∀ k ∈ memKeys m1, k ∈ memKeys m2 := by
          rw [ht2]; exact memKeys_sub_append m1 t2
        refine ⟨hk2, NewEntriesClosed_trans h hn1 hn2 hsub, ?_⟩
        intro x hx
        rcases List.mem_cons.mp hx with hx | hx
        · rw [hx]; exact ValueCovered_mono h hsub v hc1
        · exact hc2 x hx

theorem serializeMapData_closure (h : Heap) (recurse : JSValue → Memory → SerResult)
    (hrec : ∀ v m r, recurse v m = .ok r → KeysSupported h m →
      KeysSupported h r.2 ∧ NewEntriesClosed h m r.2 ∧ ValueCovered h r.2 v)
    (hrecm : ∀ v m r, recurse v m = .ok r → ∃ t, r.2 = m ++ t) :
    ∀ es m r, serializeMapData recurse es m = .ok r → KeysSupported h m →
      KeysSupported h r.2 ∧ NewEntriesClosed h m r.2 ∧
        ∀ e ∈ es, ValueCovered h r.2 e.1 ∧ ValueCovered h r.2 e.2 := by
  intro es
  induction es with
  | nil =>
    intro m r hr hm
    simp only [serializeMapData] at hr
    cases hr
    exact ⟨hm, NewEntriesClosed_refl h m, by intro e he; exact absurd he (by simp)⟩
  | cons q rest ih =>
    intro m r hr hm
    simp only [serializeMapData] at hr
    cases h1 : recurse q.1 m with
    | error e => rw [h1, exBind_err] at hr; exact Except.noConfusion hr
    | ok p1 =>
      rw [h1, exBind_ok] at hr
      obtain ⟨ck, m1⟩ := p1
      cases h2 : recurse q.2 m1 with
      | error e => rw [h2, exBind_err] at hr; exact Except.noConfusion hr
      | ok p2 =>
        rw [h2, exBind_ok] at hr
        obtain ⟨cv, m2⟩ := p2
        cases h3 : serializeMapData recurse rest m2 with
        | error e => rw [h3, exBind_err] at hr; exact Except.noConfusion hr
        | ok p3 =>
          rw [h3, exBind_ok] at hr
          obtain ⟨pairs, m3⟩ := p3
          cases hr
          obtain ⟨hk1, hn1, hc1⟩ := hrec q.1 m (ck, m1) h1 hm
          obtain ⟨hk2, hn2, hc2⟩ := hrec q.2 m1 (cv, m2) h2 hk1
          obtain ⟨hk3, hn3, hc3⟩ := ih m2 (pairs, m3) h3 hk2
          obtain ⟨t2, ht2⟩ := hrecm q.2 m1 (cv, m2) h2
          obtain ⟨t3, ht3⟩ := serializeMapData_mono recurse hrecm rest m2 (pairs, m3) h3
          simp only at hk1 hn1 hc1 hk2 hn2 hc2 ht2 ht3 ⊢
          have hsub12 : ∀ k ∈ memKeys m1, k ∈ memKeys m2 := by
            rw [ht2]; exact memKeys_sub_append m1 t2
          have hsub23 : ∀ k ∈ memKeys m2, k ∈ memKeys m3 := by
            rw [ht3]; exact memKeys_sub_append m2 t3
          have hsub13 : ∀ k ∈ memKeys m1, k ∈ memKeys m3 :=
            fun k hk => hsub23 k (hsub12 k hk)
          refine ⟨hk3,
            NewEntriesClosed_trans h (NewEntriesClosed_trans h hn1 hn2 hsub12) hn3 hsub23, ?_⟩
          intro e he
          rcases List.mem_cons.mp he with he | he
          · rw [he]
            exact ⟨ValueCovered_mono h hsub13 q.1 hc1, ValueCovered_mono h hsub23 q.2 hc2⟩
          · exact hc3 e he

theorem serializeProperties_closure (h : Heap) (recurse : JSValue → Memory → SerResult)
    (hrec : ∀ v m r, recurse v m = .ok r → KeysSupported h m →
      KeysSupported h r.2 ∧ NewEntriesClosed h m r.2 ∧ ValueCovered h r.2 v)
    (hrecm : ∀ v m r, recurse v m = .ok r → ∃ t, r.2 = m ++ t) :
    ∀ ps m r, serializeProperties recurse ps m = .ok r → KeysSupported h m →
      KeysSupported h r.2 ∧ NewEntriesClosed h m r.2 ∧
        ∀ p ∈ ps, ValueCovered h r.2 p.2 := by
  intro ps
  induction ps with
  | nil =>
    intro m r hr hm
    simp only [serializeProperties] at hr
    cases hr
    exact ⟨hm, NewEntriesClosed_refl h m, by intro p hp; exact absurd hp (by simp)⟩
  | cons q rest ih =>
    intro m r hr hm
    simp only [serializeProperties] at hr
    cases h1 : recurse q.2 m with
    | error e => rw [h1, exBind_err] at hr; exact Except.noConfusion hr
    | ok p1 =>
      rw [h1, exBind_ok] at hr
      obtain ⟨c, m1⟩ := p1
      cases h2 : serializeProperties recurse rest m1 with
      | error e => rw [h2, exBind_err] at hr; exact Except.noConfusion hr
      | ok p2 =>
        rw [h2, exBind_ok] at hr
        obtain ⟨cs, m2⟩ := p2
        cases hr
        obtain ⟨hk1, hn1, hc1⟩ := hrec q.2 m (c, m1) h1 hm
        obtain ⟨hk2, hn2, hc2⟩ := ih m1 (cs, m2) h2 hk1
        obtain ⟨t2, ht2⟩ := serializeProperties_mono recurse hrecm rest m1 (cs, m2) h2
        simp only at hk1 hn1 hc1 ht2 ⊢
        have hsub : ∀ k ∈ memKeys m1, k ∈ memKeys m2 := by
          rw [ht2]; exact memKeys_sub_append m1 t2
        refine ⟨hk2, NewEntriesClosed_trans h hn1 hn2 hsub, ?_⟩
        intro p hp
        rcases List.mem_cons.mp hp with hp | hp
        · rw [hp]; exact ValueCovered_mono h hsub q.2 hc1
        · exact hc2 p hp

theorem mem_objChildren_map {entries : List (JSValue × JSValue)} {w : JSValue}
    (hw : w ∈ objChildren (.map entries)) : ∃ e ∈ entries, w = e.1 ∨ w = e.2 := by
  induction entries with
  | nil => exact absurd hw (by simp [objChildren])
  | cons e rest ih =>
    simp only [objChildren, List.foldr_cons] at hw
    rcases List.mem_cons.mp hw with hw | hw
    · exact ⟨e, by simp, Or.inl hw⟩
    · rcases List.mem_cons.mp hw with hw | hw
      · exact ⟨e, by simp, Or.inr hw⟩
      · obtain ⟨e2, he2, hor⟩ := ih hw
        exact ⟨e2, by simp [he2], hor⟩

theorem structuredSerializeInternal_closure (h : Heap) :
    ∀ fuel v m r, structuredSerializeInternal h fuel v m = .ok r → KeysSupported h m →
      KeysSupported h r.2 ∧ NewEntriesClosed h m r.2 ∧ ValueCovered h r.2 v := by
  intro fuel
  induction fuel with
  | zero =>
    intro v m r hr hm
    exact Except.noConfusion hr
  | succ fuel ih =>
    intro v m r hr hm
    simp only [structuredSerializeInternal] at hr
    by_cases hmem : v ∈ memKeys m
    · rw [if_pos hmem] at hr
      cases hr
      exact ⟨hm, NewEntriesClosed_refl h m, hm v hmem, fun a ha => hmem⟩
    · rw [if_neg hmem] at hr
      cases v with
      | undef =>
        cases hr
        exact ⟨hm, NewEntriesClosed_refl h m,
          not_unsupported_prim h _ (fun i hi => JSValue.noConfusion hi)
            (fun a ha => JSValue.noConfusion ha),
          fun a ha => JSValue.noConfusion ha⟩
      | null =>
        cases hr
        exact ⟨hm, NewEntriesClosed_refl h m,
          not_unsupported_prim h _ (fun i hi => JSValue.noConfusion hi)
            (fun a ha => JSValue.noConfusion ha),
          fun a ha => JSValue.noConfusion ha⟩
      | bool b =>
        cases hr
        exact ⟨hm, NewEntriesClosed_refl h m,
          not_unsupported_prim h _ (fun i hi => JSValue.noConfusion hi)
            (fun a ha => JSValue.noConfusion ha),
          fun a ha => JSValue.noConfusion ha⟩
      | num s =>
        cases hr
        exact ⟨hm, NewEntriesClosed_refl h m,
          not_unsupported_prim h _ (fun i hi => JSValue.noConfusion hi)
            (fun a ha => JSValue.noConfusion ha),
          fun a ha => JSValue.noConfusion ha⟩
      | bigintVal s =>
        cases hr
        exact ⟨hm, NewEntriesClosed_refl h m,
          not_unsupported_prim h _ (fun i hi => JSValue.noConfusion hi)
            (fun a ha => JSValue.noConfusion ha),
          fun a ha => JSValue.noConfusion ha⟩
      | str s =>
        cases hr
        exact ⟨hm, NewEntriesClosed_refl h m,
          not_unsupported_prim h _ (fun i hi => JSValue.noConfusion hi)
            (fun a ha => JSValue.noConfusion ha),
          fun a ha => JSValue.noConfusion ha⟩
      | sym i => exact Except.noConfusion hr
      | addr a =>
        dsimp only at hr
        cases hget : h.get? a with
        | none => rw [hget] at hr; exact Except.noConfusion hr
        | some o =>
          rw [hget] at hr
          cases o with
          | boxedBoolean b =>
            simp only [serializeFinishShallow] at hr
            cases hr
            refine ⟨KeysSupported_append h m _ _ hm (not_unsupported_of_get h hget rfl), ?_,
              not_unsupported_of_get h hget rfl, fun a2 ha2 => by simp [memKeys]⟩
            intro k hk hnk a2 hka o2 hget2 w hw
            rw [memKeys_append] at hk
            rcases List.mem_append.mp hk with hk | hk
            · exact absurd hk hnk
            · simp only [memKeys, List.map_cons, List.map_nil, List.mem_singleton] at hk
              subst hk
              cases hka
              rw [hget] at hget2
              cases hget2
              exact absurd hw (by simp [objChildren])
          | boxedNumber s =>
            simp only [serializeFinishShallow] at hr
            cases hr
            refine ⟨KeysSupported_append h m _ _ hm (not_unsupported_of_get h hget rfl), ?_,
              not_unsupported_of_get h hget rfl, fun a2 ha2 => by simp [memKeys]⟩
            intro k hk hnk a2 hka o2 hget2 w hw
            rw [memKeys_append] at hk
            rcases List.mem_append.mp hk with hk | hk
            · exact absurd hk hnk
            · simp only [memKeys, List.map_cons, List.map_nil, List.mem_singleton] at hk
              subst hk
              cases hka
              rw [hget] at hget2
              cases hget2
              exact absurd hw (by simp [objChildren])
          | boxedString s =>
            simp only [serializeFinishShallow] at hr
            cases hr
            refine ⟨KeysSupported_append h m _ _ hm (not_unsupported_of_get h hget rfl), ?_,
              not_unsupported_of_get h hget rfl, fun a2 ha2 => by simp [memKeys]⟩
            intro k hk hnk a2 hka o2 hget2 w hw
            rw [memKeys_append] at hk
            rcases List.mem_append.mp hk with hk | hk
            · exact absurd hk hnk
            · simp only [memKeys, List.map_cons, List.map_nil, List.mem_singleton] at hk
              subst hk
              cases hka
              rw [hget] at hget2
              cases hget2
              exact absurd hw (by simp [objChildren])
          | date iso =>
            simp only [serializeFinishShallow] at hr
            cases hr
            refine ⟨KeysSupported_append h m _ _ hm (not_unsupported_of_get h hget rfl), ?_,
              not_unsupported_of_get h hget rfl, fun a2 ha2 => by simp [memKeys]⟩
            intro k hk hnk a2 hka o2 hget2 w hw
            rw [memKeys_append] at hk
            rcases List.mem_append.mp hk with hk | hk
            · exact absurd hk hnk
            · simp only [memKeys, List.map_cons, List.map_nil, List.mem_singleton] at hk
              subst hk
              cases hka
              rw [hget] at hget2
              cases hget2
              exact absurd hw (by simp [objChildren])
          | regexp src flags =>
            simp only [serializeFinishShallow] at hr
            cases hr
            refine ⟨KeysSupported_append h m _ _ hm (not_unsupported_of_get h hget rfl), ?_,
              not_unsupported_of_get h hget rfl, fun a2 ha2 => by simp [memKeys]⟩
            intro k hk hnk a2 hka o2 hget2 w hw
            rw [memKeys_append] at hk
            rcases List.mem_append.mp hk with hk | hk
            · exact absurd hk hnk
            · simp only [memKeys, List.map_cons, List.map_nil, List.mem_singleton] at hk
              subst hk
              cases hka
              rw [hget] at hget2
              cases hget2
              exact absurd hw (by simp [objChildren])
          | arrayBuffer bytes =>
            simp only [serializeFinishShallow] at hr
            cases hr
            refine ⟨KeysSupported_append h m _ _ hm (not_unsupported_of_get h hget rfl), ?_,
              not_unsupported_of_get h hget rfl, fun a2 ha2 => by simp [memKeys]⟩
            intro k hk hnk a2 hka o2 hget2 w hw
            rw [memKeys_append] at hk
            rcases List.mem_append.mp hk with hk | hk
            · exact absurd hk hnk
            · simp only [memKeys, List.map_cons, List.map_nil, List.mem_singleton] at hk
              subst hk
              cases hka
              rw [hget] at hget2
              cases hget2
              exact absurd hw (by simp [objChildren])
          | error name msg =>
            simp only [serializeFinishShallow] at hr
            cases hr
            refine ⟨KeysSupported_append h m _ _ hm (not_unsupported_of_get h hget rfl), ?_,
              not_unsupported_of_get h hget rfl, fun a2 ha2 => by simp [memKeys]⟩
            intro k hk hnk a2 hka o2 hget2 w hw
            rw [memKeys_append] at hk
            rcases List.mem_append.mp hk with hk | hk
            · exact absurd hk hnk
            · simp only [memKeys, List.map_cons, List.map_nil, List.mem_singleton] at hk
              subst hk
              cases hka
              rw [hget] at hget2
              cases hget2
              exact absurd hw (by simp [objChildren])
          | view name ba off len =>
            dsimp only at hr
            cases h1 : structuredSerializeInternal h fuel (.addr ba) m with
            | error e => rw [h1, exBind_err] at hr; exact Except.noConfusion hr
            | ok p1 =>
              rw [h1, exBind_ok] at hr
              obtain ⟨bufSer, m1⟩ := p1
              simp only [serializeFinishShallow] at hr
              cases hr
              obtain ⟨hk1, hn1, hc1⟩ := ih (.addr ba) m (bufSer, m1) h1 hm
              simp only at hk1 hn1 hc1
              have hsub : ∀ k ∈ memKeys m1,
                  k ∈ memKeys (m1 ++ [(JSValue.addr a,
                    ComplexSerialization.arrayBufferView name off len bufSer)]) :=
                memKeys_sub_append m1 _
              refine ⟨KeysSupported_append h m1 _ _ hk1 (not_unsupported_of_get h hget rfl), ?_,
                not_unsupported_of_get h hget rfl, fun a2 ha2 => by simp [memKeys]⟩
              intro k hk hnk a2 hka o2 hget2 w hw
              rw [memKeys_append] at hk
              rcases List.mem_append.mp hk with hk | hk
              · exact ValueCovered_mono h hsub w (hn1 k hk hnk a2 hka o2 hget2 w hw)
              · simp only [memKeys, List.map_cons, List.map_nil, List.mem_singleton] at hk
                subst hk
                cases hka
                rw [hget] at hget2
                cases hget2
                simp only [objChildren, List.mem_singleton] at hw
                rw [hw]
                exact ValueCovered_mono h hsub _ hc1
          | map entries =>
            dsimp only at hr
            cases h2 : serializeMapData (structuredSerializeInternal h fuel) entries
                (m ++ [(JSValue.addr a, ComplexSerialization.map [])]) with
            | error e => rw [h2, exBind_err] at hr; exact Except.noConfusion hr
            | ok p2 =>
              rw [h2, exBind_ok] at hr
              obtain ⟨mapData, m2⟩ := p2
              simp only [serializeFinishDeep] at hr
              cases hr
              have hk1 : KeysSupported h (m ++ [(JSValue.addr a, ComplexSerialization.map [])]) :=
                KeysSupported_append h m _ _ hm (not_unsupported_of_get h hget rfl)
              obtain ⟨hk2, hn2, hcov⟩ := serializeMapData_closure h _
                (fun v m r hh hb => ih v m r hh hb)
                (fun v m r hh => structuredSerializeInternal_mono h fuel v m r hh)
                entries _ (mapData, m2) h2 hk1
              simp only at hk2 hn2 hcov
              obtain ⟨t2, ht2⟩ := serializeMapData_mono _
                (fun v m r hh => structuredSerializeInternal_mono h fuel v m r hh)
                entries _ (mapData, m2) h2
              simp only at ht2
              have hvmem : JSValue.addr a ∈ memKeys m2 := by
                rw [ht2, memKeys_append]
                refine List.mem_append_left _ ?_
                simp [memKeys]
              refine ⟨KeysSupported_memUpdate h m2 _ _ hk2, ?_,
                not_unsupported_of_get h hget rfl, ?_⟩
              · intro k hk hnk a2 hka o2 hget2 w hw
                rw [memKeys_memUpdate] at hk
                by_cases hk1m : k ∈ memKeys (m ++ [(JSValue.addr a, ComplexSerialization.map [])])
                · rw [memKeys_append] at hk1m
                  rcases List.mem_append.mp hk1m with hkm | hkm
                  · exact absurd hkm hnk
                  · simp only [memKeys, List.map_cons, List.map_nil,
                      List.mem_singleton] at hkm
                    subst hkm
                    cases hka
                    rw [hget] at hget2
                    cases hget2
                    obtain ⟨e, he, hor⟩ := mem_objChildren_map hw
                    have hcove := hcov e he
                    rcases hor with hor | hor
                    · rw [hor]
                      exact ValueCovered_memUpdate h m2 _ _ _ hcove.1
                    · rw [hor]
                      exact ValueCovered_memUpdate h m2 _ _ _ hcove.2
                · have := hn2 k hk hk1m a2 hka o2 hget2 w hw
                  exact ValueCovered_memUpdate h m2 _ _ _ this
              · intro a2 ha2
                rw [memKeys_memUpdate]
                exact hvmem
          | set elems =>
            dsimp only at hr
            cases h2 : serializeChildList (structuredSerializeInternal h fuel) elems
                (m ++ [(JSValue.addr a, ComplexSerialization.set [])]) with
            | error e => rw [h2, exBind_err] at hr; exact Except.noConfusion hr
            | ok p2 =>
              rw [h2, exBind_ok] at hr
              obtain ⟨setData, m2⟩ := p2
              simp only [serializeFinishDeep] at hr
              cases hr
              have hk1 : KeysSupported h (m ++ [(JSValue.addr a, ComplexSerialization.set [])]) :=
                KeysSupported_append h m _ _ hm (not_unsupported_of_get h hget rfl)
              obtain ⟨hk2, hn2, hcov⟩ := serializeChildList_closure h _
                (fun v m r hh hb => ih v m r hh hb)
                (fun v m r hh => structuredSerializeInternal_mono h fuel v m r hh)
                elems _ (setData, m2) h2 hk1
              simp only at hk2 hn2 hcov
              obtain ⟨t2, ht2⟩ := serializeChildList_mono _
                (fun v m r hh => structuredSerializeInternal_mono h fuel v m r hh)
                elems _ (setData, m2) h2
              simp only at ht2
              have hvmem : JSValue.addr a ∈ memKeys m2 := by
                rw [ht2, memKeys_append]
                refine List.mem_append_left _ ?_
                simp [memKeys]
              refine ⟨KeysSupported_memUpdate h m2 _ _ hk2, ?_,
                not_unsupported_of_get h hget rfl, ?_⟩
              · intro k hk hnk a2 hka o2 hget2 w hw
                rw [memKeys_memUpdate] at hk
                by_cases hk1m : k ∈ memKeys (m ++ [(JSValue.addr a, ComplexSerialization.set [])])
                · rw [memKeys_append] at hk1m
                  rcases List.mem_append.mp hk1m with hkm | hkm
                  · exact absurd hkm hnk
                  · simp only [memKeys, List.map_cons, List.map_nil,
                      List.mem_singleton] at hkm
                    subst hkm
                    cases hka
                    rw [hget] at hget2
                    cases hget2
                    have hwmem : w ∈ elems := by simpa [objChildren] using hw
                    exact ValueCovered_memUpdate h m2 _ _ _ (hcov w hwmem)
                · have := hn2 k hk hk1m a2 hka o2 hget2 w hw
                  exact ValueCovered_memUpdate h m2 _ _ _ this
              · intro a2 ha2
                rw [memKeys_memUpdate]
                exact hvmem
          | array len props =>
            dsimp only at hr
            cases h2 : serializeProperties (structuredSerializeInternal h fuel)
                (arrayOwnProperties len props)
                (m ++ [(JSValue.addr a, ComplexSerialization.array len [])]) with
            | error e => rw [h2, exBind_err] at hr; exact Except.noConfusion hr
            | ok p2 =>
              rw [h2, exBind_ok] at hr
              obtain ⟨properties, m2⟩ := p2
              simp only [serializeFinishDeep] at hr
              cases hr
              have hk1 : KeysSupported h
                  (m ++ [(JSValue.addr a, ComplexSerialization.array len [])]) :=
                KeysSupported_append h m _ _ hm (not_unsupported_of_get h hget rfl)
              obtain ⟨hk2, hn2, hcov⟩ := serializeProperties_closure h _
                (fun v m r hh hb => ih v m r hh hb)
                (fun v m r hh => structuredSerializeInternal_mono h fuel v m r hh)
                (arrayOwnProperties len props) _ (properties, m2) h2 hk1
              simp only at hk2 hn2 hcov
              obtain ⟨t2, ht2⟩ := serializeProperties_mono _
                (fun v m r hh => structuredSerializeInternal_mono h fuel v m r hh)
                (arrayOwnProperties len props) _ (properties, m2) h2
              simp only at ht2
              have hvmem : JSValue.addr a ∈ memKeys m2 := by
                rw [ht2, memKeys_append]
                refine List.mem_append_left _ ?_
                simp [memKeys]
              refine ⟨KeysSupported_memUpdate h m2 _ _ hk2, ?_,
                not_unsupported_of_get h hget rfl, ?_⟩
              · intro k hk hnk a2 hka o2 hget2 w hw
                rw [memKeys_memUpdate] at hk
                by_cases hk1m : k ∈ memKeys
                    (m ++ [(JSValue.addr a, ComplexSerialization.array len [])])
                · rw [memKeys_append] at hk1m
                  rcases List.mem_append.mp hk1m with hkm | hkm
                  · exact absurd hkm hnk
                  · simp only [memKeys, List.map_cons, List.map_nil,
                      List.mem_singleton] at hkm
                    subst hkm
                    cases hka
                    rw [hget] at hget2
                    cases hget2
                    simp only [objChildren] at hw
                    obtain ⟨p, hp, hpw⟩ := List.mem_map.mp hw
                    rw [← hpw]
                    exact ValueCovered_memUpdate h m2 _ _ _ (hcov p hp)
                · have := hn2 k hk hk1m a2 hka o2 hget2 w hw
                  exact ValueCovered_memUpdate h m2 _ _ _ this
              · intro a2 ha2
                rw [memKeys_memUpdate]
                exact hvmem
          | object props =>
            dsimp only at hr
            cases h2 : serializeProperties (structuredSerializeInternal h fuel) props
                (m ++ [(JSValue.addr a, ComplexSerialization.object [])]) with
            | error e => rw [h2, exBind_err] at hr; exact Except.noConfusion hr
            | ok p2 =>
              rw [h2, exBind_ok] at hr
              obtain ⟨properties, m2⟩ := p2
              simp only [serializeFinishDeep] at hr
              cases hr
              have hk1 : KeysSupported h
                  (m ++ [(JSValue.addr a, ComplexSerialization.object [])]) :=
                KeysSupported_append h m _ _ hm (not_unsupported_of_get h hget rfl)
              obtain ⟨hk2, hn2, hcov⟩ := serializeProperties_closure h _
                (fun v m r hh hb => ih v m r hh hb)
                (fun v m r hh => structuredSerializeInternal_mono h fuel v m r hh)
                props _ (properties, m2) h2 hk1
              simp only at hk2 hn2 hcov
              obtain ⟨t2, ht2⟩ := serializeProperties_mono _
                (fun v m r hh => structuredSerializeInternal_mono h fuel v m r hh)
                props _ (properties, m2) h2
              simp only at ht2
              have hvmem : JSValue.addr a ∈ memKeys m2 := by
                rw [ht2, memKeys_append]
                refine List.mem_append_left _ ?_
                simp [memKeys]
              refine ⟨KeysSupported_memUpdate h m2 _ _ hk2, ?_,
                not_unsupported_of_get h hget rfl, ?_⟩
              · intro k hk hnk a2 hka o2 hget2 w hw
                rw [memKeys_memUpdate] at hk
                by_cases hk1m : k ∈ memKeys
                    (m ++ [(JSValue.addr a, ComplexSerialization.object [])])
                · rw [memKeys_append] at hk1m
                  rcases List.mem_append.mp hk1m with hkm | hkm
                  · exact absurd hkm hnk
                  · simp only [memKeys, List.map_cons, List.map_nil,
                      List.mem_singleton] at hkm
                    subst hkm
                    cases hka
                    rw [hget] at hget2
                    cases hget2
                    simp only [objChildren] at hw
                    obtain ⟨p, hp, hpw⟩ := List.mem_map.mp hw
                    rw [← hpw]
                    exact ValueCovered_memUpdate h m2 _ _ _ (hcov p hp)
                · have := hn2 k hk hk1m a2 hka o2 hget2 w hw
                  exact ValueCovered_memUpdate h m2 _ _ _ this
              · intro a2 ha2
                rw [memKeys_memUpdate]
                exact hvmem
          | weakmap => exact Except.noConfusion hr
          | weakset => exact Except.noConfusion hr
          | promise => exact Except.noConfusion hr
          | weakref => exact Except.noConfusion hr
          | finalizationRegistry => exact Except.noConfusion hr
          | func => exact Except.noConfusion hr

/-- Reachability corollary of closure: after a successful top-level run every
reachable value is supported. -/
theorem structuredSerializeInternal_reachable_supported (h : Heap) (fuel : Nat) (v : JSValue)
    (r : ChildSerialization × Memory)
    (hr : structuredSerializeInternal h fuel v [] = .ok r) :
    ∀ w, Reaches h v w → ¬ IsUnsupportedValue h w := by
  obtain ⟨hks, hnec, hcov⟩ := structuredSerializeInternal_closure h fuel v [] r hr
    (by intro k hk; exact absurd hk (by simp [memKeys]))
  have hcover : ∀ w, Reaches h v w → ValueCovered h r.2 w := by
    intro w hw
    induction hw with
    | refl => exact hcov
    | tail hreach hget hchild ihw =>
      have hmem := ihw.2 _ rfl
      exact hnec _ hmem (by simp [memKeys]) _ rfl _ hget _ hchild
  intro w hw
  exact (hcover w hw).1

/-! Totality: with well-formed inputs and the canonical fuel, the serializer
never runs out of fuel and never meets a dangling address, so any failure is
one of the thrown TypeErrors. -/

theorem countP_le_of_imp {α : Type} (p q : α → Bool) :
    ∀ l : List α, (∀ x ∈ l, p x = true → q x = true) → l.countP p ≤ l.countP q := by
  intro l
  induction l with
  | nil => intro _; simp
  | cons x rest ih =>
    intro himp
    simp only [List.countP_cons]
    have h1 := ih (fun y hy hp => himp y (List.mem_cons_of_mem x hy) hp)
    by_cases hp : p x = true
    · simp only [hp, himp x (List.mem_cons_self x rest) hp, if_true]
      omega
    · have hp2 : p x = false := by
        cases hpp : p x
        · rfl
        · exact absurd hpp hp
      simp only [hp2, Bool.false_eq_true, if_false]
      by_cases hq : q x = true
      · simp only [hq, if_true]
        omega
      · have hq2 : q x = false := by
          cases hqq : q x
          · rfl
          · exact absurd hqq hq
        simp only [hq2, Bool.false_eq_true, if_false]
        omega

theorem countP_lt_of_witness {α : Type} (p q : α → Bool) :
    ∀ (l : List α) (a : α), a ∈ l → q a = true → p a = false →
      (∀ x ∈ l, p x = true → q x = true) → l.countP p < l.countP q := by
  intro l
  induction l with
  | nil => intro a ha _ _ _; exact absurd ha (by simp)
  | cons x rest ih =>
    intro a ha hq hp himp
    simp only [List.countP_cons]
    rcases List.mem_cons.mp ha with ha | ha
    · subst ha
      simp only [hp, hq, Bool.false_eq_true, if_false, if_true]
      have := countP_le_of_imp p q rest (fun y hy hpy => himp y (by simp [hy]) hpy)
      omega
    · have h1 := ih a ha hq hp (fun y hy hpy => himp y (by simp [hy]) hpy)
      by_cases hpx : p x = true
      · simp only [hpx, himp x (by simp) hpx, if_true]
        omega
      · have hpx2 : p x = false := by
          cases hxx : p x
          · rfl
          · exact absurd hxx hpx
        simp only [hpx2, Bool.false_eq_true, if_false]
        by_cases hqx : q x = true
        · simp only [hqx, if_true]
          omega
        · have hqx2 : q x = false := by
            cases hxx : q x
            · rfl
            · exact absurd hxx hqx
          simp only [hqx2, Bool.false_eq_true, if_false]
          omega

theorem missingCount_le_of_sub (h : Heap) {m m2 : Memory}
    (hsub : ∀ k ∈ memKeys m, k ∈ memKeys m2) :
    missingCount h m2 ≤ missingCount h m := by
  refine countP_le_of_imp _ _ _ ?_
  intro x _ hp
  simp only [decide_eq_true_eq] at hp ⊢
  intro hmem
  exact hp (hsub _ hmem)

theorem missingCount_lt_insert (h : Heap) (m m2 : Memory) (a : Nat)
    (ha : a < h.length) (hmem : JSValue.addr a ∉ memKeys m)
    (hsub : ∀ k ∈ memKeys m, k ∈ memKeys m2)
    (hamem : JSValue.addr a ∈ memKeys m2) :
    missingCount h m2 < missingCount h m := by
  refine countP_lt_of_witness _ _ _ a (List.mem_range.mpr ha) ?_ ?_ ?_
  · simp only [decide_eq_true_eq]
    exact hmem
  · simp only [decide_eq_false_iff_not, not_not]
    exact hamem
  · intro x _ hp
    simp only [decide_eq_true_eq] at hp ⊢
    intro hmem2
    exact hp (hsub _ hmem2)

/-- Serializing an address that holds an ArrayBuffer always succeeds in one
step (fast path or shallow record). -/
theorem structuredSerializeInternal_arrayBuffer_ok (h : Heap) (fuel ba : Nat)
    (bytes : List Nat) (m : Memory) (hget : h.get? ba = some (.arrayBuffer bytes)) :
    ∃ r, structuredSerializeInternal h (fuel + 1) (.addr ba) m = .ok r := by
  by_cases hmem : JSValue.addr ba ∈ memKeys m
  · exact ⟨_, structuredSerializeInternal_mem h fuel _ m hmem⟩
  · refine ⟨((.reference (memIndexOf (m ++ [(JSValue.addr ba,
      ComplexSerialization.arrayBuffer bytes.length (joinBytes bytes))]) (.addr ba))),
      m ++ [(JSValue.addr ba,
        ComplexSerialization.arrayBuffer bytes.length (joinBytes bytes))]), ?_⟩
    rw [structuredSerializeInternal_succ, if_neg hmem]
    dsimp only
    rw [hget]
    rfl

theorem serializeChildList_total (h : Heap) (recurse : JSValue → Memory → SerResult)
    (B : Nat)
    (hrecm : ∀ v m r, recurse v m = .ok r → ∃ t, r.2 = m ++ t)
    (hrec : ∀ v m, valueWFb h v = true → missingCount h m + 2 ≤ B → SerOk (recurse v m)) :
    ∀ vs m, (∀ x ∈ vs, valueWFb h x = true) → missingCount h m + 2 ≤ B →
      SerOk (serializeChildList recurse vs m) := by
  intro vs
  induction vs with
  | nil =>
    intro m _ _
    exact Or.inl ⟨_, rfl⟩
  | cons v rest ih =>
    intro m hwf hc
    simp only [serializeChildList]
    rcases hrec v m (hwf v (by simp)) hc with ⟨x1, hx1⟩ | ⟨msg, hmsg⟩
    · obtain ⟨c, m1⟩ := x1
      rw [hx1, exBind_ok]
      obtain ⟨t1, ht1⟩ := hrecm v m (c, m1) hx1
      simp only at ht1
      have hc1 : missingCount h m1 + 2 ≤ B := by
        have := @missingCount_le_of_sub h m m1
          (by rw [ht1]; exact memKeys_sub_append m t1)
        omega
      rcases ih m1 (fun x hx => hwf x (by simp [hx])) hc1 with ⟨x2, hx2⟩ | ⟨msg, hmsg⟩
      · obtain ⟨cs, m2⟩ := x2
        rw [hx2, exBind_ok]
        exact Or.inl ⟨_, rfl⟩
      · rw [hmsg, exBind_err]
        exact Or.inr ⟨msg, rfl⟩
    · rw [hmsg, exBind_err]
      exact Or.inr ⟨msg, rfl⟩

theorem serializeMapData_total (h : Heap) (recurse : JSValue → Memory → SerResult)
    (B : Nat)
    (hrecm : ∀ v m r, recurse v m = .ok r → ∃ t, r.2 = m ++ t)
    (hrec : ∀ v m, valueWFb h v = true → missingCount h m + 2 ≤ B → SerOk (recurse v m)) :
    ∀ es m, (∀ e ∈ es, valueWFb h e.1 = true ∧ valueWFb h e.2 = true) →
      missingCount h m + 2 ≤ B → SerOk (serializeMapData recurse es m) := by
  intro es
  induction es with
  | nil =>
    intro m _ _
    exact Or.inl ⟨_, rfl⟩
  | cons q rest ih =>
    intro m hwf hc
    simp only [serializeMapData]
    rcases hrec q.1 m (hwf q (by simp)).1 hc with ⟨x1, hx1⟩ | ⟨msg, hmsg⟩
    · obtain ⟨ck, m1⟩ := x1
      rw [hx1, exBind_ok]
      obtain ⟨t1, ht1⟩ := hrecm q.1 m (ck, m1) hx1
      simp only at ht1
      have hc1 : missingCount h m1 + 2 ≤ B := by
        have := @missingCount_le_of_sub h m m1
          (by rw [ht1]; exact memKeys_sub_append m t1)
        omega
      rcases hrec q.2 m1 (hwf q (by simp)).2 hc1 with ⟨x2, hx2⟩ | ⟨msg, hmsg⟩
      · obtain ⟨cv, m2⟩ := x2
        rw [hx2, exBind_ok]
        obtain ⟨t2, ht2⟩ := hrecm q.2 m1 (cv, m2) hx2
        simp only at ht2
        have hc2 : missingCount h m2 + 2 ≤ B := by
          have := @missingCount_le_of_sub h m1 m2
            (by rw [ht2]; exact memKeys_sub_append m1 t2)
          omega
        rcases ih m2 (fun e he => hwf e (by simp [he])) hc2 with ⟨x3, hx3⟩ | ⟨msg, hmsg⟩
        · obtain ⟨pairs, m3⟩ := x3
          rw [hx3, exBind_ok]
          exact Or.inl ⟨_, rfl⟩
        · rw [hmsg, exBind_err]
          exact Or.inr ⟨msg, rfl⟩
      · rw [hmsg, exBind_err]
        exact Or.inr ⟨msg, rfl⟩
    · rw [hmsg, exBind_err]
      exact Or.inr ⟨msg, rfl⟩

theorem serializeProperties_total (h : Heap) (recurse : JSValue → Memory → SerResult)
    (B : Nat)
    (hrecm : ∀ v m r, recurse v m = .ok r → ∃ t, r.2 = m ++ t)
    (hrec : ∀ v m, valueWFb h v = true → missingCount h m + 2 ≤ B → SerOk (recurse v m)) :
    ∀ ps m, (∀ p ∈ ps, valueWFb h p.2 = true) → missingCount h m + 2 ≤ B →
      SerOk (serializeProperties recurse ps m) := by
  intro ps
  induction ps with
  | nil =>
    intro m _ _
    exact Or.inl ⟨_, rfl⟩
  | cons q rest ih =>
    intro m hwf hc
    simp only [serializeProperties]
    rcases hrec q.2 m (hwf q (by simp)) hc with ⟨x1, hx1⟩ | ⟨msg, hmsg⟩
    · obtain ⟨c, m1⟩ := x1
      rw [hx1, exBind_ok]
      obtain ⟨t1, ht1⟩ := hrecm q.2 m (c, m1) hx1
      simp only at ht1
      have hc1 : missingCount h m1 + 2 ≤ B := by
        have := @missingCount_le_of_sub h m m1
          (by rw [ht1]; exact memKeys_sub_append m t1)
        omega
      rcases ih m1 (fun p hp => hwf p (by simp [hp])) hc1 with ⟨x2, hx2⟩ | ⟨msg, hmsg⟩
      · obtain ⟨cs, m2⟩ := x2
        rw [hx2, exBind_ok]
        exact Or.inl ⟨_, rfl⟩
      · rw [hmsg, exBind_err]
        exact Or.inr ⟨msg, rfl⟩
    · rw [hmsg, exBind_err]
      exact Or.inr ⟨msg, rfl⟩

theorem objChildren_map_of_mem {entries : List (JSValue × JSValue)} :
    ∀ e ∈ entries, e.1 ∈ objChildren (JSObject.map entries) ∧
      e.2 ∈ objChildren (JSObject.map entries) := by
  induction entries with
  | nil => intro e he; exact absurd he (by simp)
  | cons q rest ih =>
    intro e he
    simp only [objChildren, List.foldr_cons]
    rcases List.mem_cons.mp he with he | he
    · subst he
      exact ⟨by simp, by simp⟩
    · have hmem := ih e he
      simp only [objChildren] at hmem
      exact ⟨List.mem_cons_of_mem _ (List.mem_cons_of_mem _ hmem.1),
        List.mem_cons_of_mem _ (List.mem_cons_of_mem _ hmem.2)⟩

theorem structuredSerializeInternal_total (h : Heap) (hwf : heapWFb h = true) :
    ∀ fuel v m, valueWFb h v = true → missingCount h m + 2 ≤ fuel →
      SerOk (structuredSerializeInternal h fuel v m) := by
  intro fuel
  induction fuel with
  | zero =>
    intro v m _ hc
    omega
  | succ fuel ih =>
    intro v m hv hc
    by_cases hmem : v ∈ memKeys m
    · rw [structuredSerializeInternal_mem h fuel v m hmem]
      exact Or.inl ⟨_, rfl⟩
    · rw [structuredSerializeInternal_succ, if_neg hmem]
      cases v with
      | undef => exact Or.inl ⟨_, rfl⟩
      | null => exact Or.inl ⟨_, rfl⟩
      | bool b => exact Or.inl ⟨_, rfl⟩
      | num s => exact Or.inl ⟨_, rfl⟩
      | bigintVal s => exact Or.inl ⟨_, rfl⟩
      | str s => exact Or.inl ⟨_, rfl⟩
      | sym i => exact Or.inr ⟨_, rfl⟩
      | addr a =>
        dsimp only
        have halt : a < h.length := by simpa [valueWFb] using hv
        cases hget : h.get? a with
        | none =>
          have := List.get?_eq_none.mp hget
          omega
        | some o =>
          dsimp only
          have hinsub : ∀ (rec : ComplexSerialization),
              ∀ k ∈ memKeys m, k ∈ memKeys (m ++ [(JSValue.addr a, rec)]) :=
            fun rec => memKeys_sub_append m _
          have hinmem : ∀ (rec : ComplexSerialization),
              JSValue.addr a ∈ memKeys (m ++ [(JSValue.addr a, rec)]) := by
            intro rec
            rw [memKeys_append]
            exact List.mem_append_right _ (by simp [memKeys])
          cases o with
          | boxedBoolean b => exact Or.inl ⟨_, rfl⟩
          | boxedNumber s => exact Or.inl ⟨_, rfl⟩
          | boxedString s => exact Or.inl ⟨_, rfl⟩
          | date iso => exact Or.inl ⟨_, rfl⟩
          | regexp src flags => exact Or.inl ⟨_, rfl⟩
          | arrayBuffer bytes => exact Or.inl ⟨_, rfl⟩
          | error name msg => exact Or.inl ⟨_, rfl⟩
          | weakmap => exact Or.inr ⟨_, rfl⟩
          | weakset => exact Or.inr ⟨_, rfl⟩
          | promise => exact Or.inr ⟨_, rfl⟩
          | weakref => exact Or.inr ⟨_, rfl⟩
          | finalizationRegistry => exact Or.inr ⟨_, rfl⟩
          | func => exact Or.inr ⟨_, rfl⟩
          | view name ba off len =>
            dsimp only
            obtain ⟨bytes, hba⟩ := heapWFb_viewBuffer hwf hget
            obtain ⟨k, hk⟩ : ∃ k, fuel = k + 1 := ⟨fuel - 1, by omega⟩
            rw [hk]
            obtain ⟨r1, hr1⟩ := structuredSerializeInternal_arrayBuffer_ok h k ba bytes m hba
            rw [hr1, exBind_ok]
            obtain ⟨bufSer, m1⟩ := r1
            exact Or.inl ⟨_, rfl⟩
          | map entries =>
            dsimp only
            have hchild : ∀ e ∈ entries, valueWFb h e.1 = true ∧ valueWFb h e.2 = true := by
              intro e he
              obtain ⟨h1, h2⟩ := objChildren_map_of_mem e he
              exact ⟨heapWFb_children hwf hget e.1 h1, heapWFb_children hwf hget e.2 h2⟩
            have hmiss1 : missingCount h
                (m ++ [(JSValue.addr a, ComplexSerialization.map [])]) + 2 ≤ fuel := by
              have hlt := missingCount_lt_insert h m
                (m ++ [(JSValue.addr a, ComplexSerialization.map [])]) a halt hmem
                (hinsub _) (hinmem _)
              omega
            rcases serializeMapData_total h _ fuel
              (fun v2 m2 r2 hh => structuredSerializeInternal_mono h fuel v2 m2 r2 hh)
              (fun v2 m2 hv2 hc2 => ih v2 m2 hv2 hc2) entries _ hchild hmiss1 with
              ⟨x2, hx2⟩ | ⟨msg, hmsg⟩
            · obtain ⟨mapData, m2⟩ := x2
              rw [hx2, exBind_ok]
              exact Or.inl ⟨_, rfl⟩
            · rw [hmsg, exBind_err]
              exact Or.inr ⟨msg, rfl⟩
          | set elems =>
            dsimp only
            have hchild : ∀ x ∈ elems, valueWFb h x = true := by
              intro x hx
              exact heapWFb_children hwf hget x (by simpa [objChildren] using hx)
            have hmiss1 : missingCount h
                (m ++ [(JSValue.addr a, ComplexSerialization.set [])]) + 2 ≤ fuel := by
              have hlt := missingCount_lt_insert h m
                (m ++ [(JSValue.addr a, ComplexSerialization.set [])]) a halt hmem
                (hinsub _) (hinmem _)
              omega
            rcases serializeChildList_total h _ fuel
              (fun v2 m2 r2 hh => structuredSerializeInternal_mono h fuel v2 m2 r2 hh)
              (fun v2 m2 hv2 hc2 => ih v2 m2 hv2 hc2) elems _ hchild hmiss1 with
              ⟨x2, hx2⟩ | ⟨msg, hmsg⟩
            · obtain ⟨setData, m2⟩ := x2
              rw [hx2, exBind_ok]
              exact Or.inl ⟨_, rfl⟩
            · rw [hmsg, exBind_err]
              exact Or.inr ⟨msg, rfl⟩
          | array len props =>
            dsimp only
            have hchild : ∀ p ∈ arrayOwnProperties len props, valueWFb h p.2 = true := by
              intro p hp
              refine heapWFb_children hwf hget p.2 ?_
              simp only [objChildren]
              exact List.mem_map_of_mem Prod.snd hp
            have hmiss1 : missingCount h
                (m ++ [(JSValue.addr a, ComplexSerialization.array len [])]) + 2 ≤ fuel := by
              have hlt := missingCount_lt_insert h m
                (m ++ [(JSValue.addr a, ComplexSerialization.array len [])]) a halt hmem
                (hinsub _) (hinmem _)
              omega
            rcases serializeProperties_total h _ fuel
              (fun v2 m2 r2 hh => structuredSerializeInternal_mono h fuel v2 m2 r2 hh)
              (fun v2 m2 hv2 hc2 => ih v2 m2 hv2 hc2) (arrayOwnProperties len props) _
              hchild hmiss1 with ⟨x2, hx2⟩ | ⟨msg, hmsg⟩
            · obtain ⟨properties, m2⟩ := x2
              rw [hx2, exBind_ok]
              exact Or.inl ⟨_, rfl⟩
            · rw [hmsg, exBind_err]
              exact Or.inr ⟨msg, rfl⟩
          | object props =>
            dsimp only
            have hchild : ∀ p ∈ props, valueWFb h p.2 = true := by
              intro p hp
              refine heapWFb_children hwf hget p.2 ?_
              simp only [objChildren]
              exact List.mem_map_of_mem Prod.snd hp
            have hmiss1 : missingCount h
                (m ++ [(JSValue.addr a, ComplexSerialization.object [])]) + 2 ≤ fuel := by
              have hlt := missingCount_lt_insert h m
                (m ++ [(JSValue.addr a, ComplexSerialization.object [])]) a halt hmem
                (hinsub _) (hinmem _)
              omega
            rcases serializeProperties_total h _ fuel
              (fun v2 m2 r2 hh => structuredSerializeInternal_mono h fuel v2 m2 r2 hh)
              (fun v2 m2 hv2 hc2 => ih v2 m2 hv2 hc2) props _ hchild hmiss1 with
              ⟨x2, hx2⟩ | ⟨msg, hmsg⟩
            · obtain ⟨properties, m2⟩ := x2
              rw [hx2, exBind_ok]
              exact Or.inl ⟨_, rfl⟩
            · rw [hmsg, exBind_err]
              exact Or.inr ⟨msg, rfl⟩

/-- C7.  If any value of an unsupported classification (a symbol, function,
WeakMap or WeakSet, WeakRef, FinalizationRegistry, or Promise) is reachable
anywhere in the graph of a well-formed heap, serialization fails with one of
the thrown TypeErrors (the unsupported-type errors are the only errors the
serializer throws) and returns no envelope at all. -/
theorem structuredSerialize_unsupported_fails :
    ∀ (h : Heap) (v : JSValue), heapWFb h = true → valueWFb h v = true →
      (∃ w, Reaches h v w ∧ IsUnsupportedValue h w) →
      (∀ t, structuredSerialize h v ≠ .ok t) ∧
        ∃ msg, structuredSerialize h v = .error (.typeError msg) := by
  intro h v hwf hv hex
  obtain ⟨w, hreach, hunsup⟩ := hex
  have hfuel : missingCount h [] + 2 ≤ serializeFuel h := by
    have hle : (List.range h.length).countP
        (fun x => decide (JSValue.addr x ∉ memKeys ([] : Memory))) ≤
        (List.range h.length).length := List.countP_le_length _
    rw [List.length_range] at hle
    unfold serializeFuel missingCount
    omega
  have htot := structuredSerializeInternal_total h hwf (serializeFuel h) v [] hv hfuel
  have hnok : ∀ r, structuredSerializeInternal h (serializeFuel h) v [] ≠ .ok r := by
    intro r hr
    exact (structuredSerializeInternal_reachable_supported h _ v r hr w hreach) hunsup
  rcases htot with ⟨x, hx⟩ | ⟨msg, hmsg⟩
  · exact absurd hx (hnok x)
  · constructor
    · intro t ht
      simp only [structuredSerialize] at ht
      rw [hmsg, exBind_err] at ht
      exact Except.noConfusion ht
    · refine ⟨msg, ?_⟩
      simp only [structuredSerialize]
      rw [hmsg, exBind_err]

/-- C7 witness: a record holding a function one level down fails to serialize
with a thrown TypeError. -/
theorem structuredSerialize_unsupported_fails_witness :
    ∃ msg, structuredSerialize [JSObject.object [("f", JSValue.addr 1)], JSObject.func]
      (.addr 0) = .error (.typeError msg) :=
  (structuredSerialize_unsupported_fails
    [JSObject.object [("f", JSValue.addr 1)], JSObject.func] (.addr 0)
    (by decide) (by decide)
    ⟨.addr 1, Reaches.tail (Reaches.refl (.addr 0)) rfl (by simp [objChildren]),
      Or.inr ⟨1, .func, rfl, rfl, rfl⟩⟩).2

/-! Lemmas for decode-order independence: decoding a relabelled envelope
simulates decoding the original, with the same heap and a memory keyed by the
renamed ids. -/

theorem exMap_ok {α β ε : Type} (f : α → β) (a : α) :
    Except.map f (Except.ok a : Except ε α) = .ok (f a) := rfl

theorem exMap_err {α β ε : Type} (f : α → β) (e : ε) :
    Except.map f (Except.error e : Except ε α) = .error e := rfl

theorem memLookup_relabel (p : Nat → Nat) (hinj : ∀ i j, p i = p j → i = j)
    (m : List (Nat × JSValue)) (id : Nat) :
    memLookup (m.map fun e => (p e.1, e.2)) (p id) = memLookup m id := by
  induction m with
  | nil => rfl
  | cons e rest ih =>
    simp only [List.map_cons, memLookup]
    by_cases h : e.1 = id
    · rw [if_pos (congrArg p h), if_pos h]
    · rw [if_neg (fun hc => h (hinj _ _ hc)), if_neg h, ih]

theorem memSet_relabel (p : Nat → Nat) (hinj : ∀ i j, p i = p j → i = j)
    (m : List (Nat × JSValue)) (id : Nat) (v : JSValue) :
    memSet (m.map fun e => (p e.1, e.2)) (p id) v =
      (memSet m id v).map fun e => (p e.1, e.2) := by
  induction m with
  | nil => rfl
  | cons e rest ih =>
    simp only [List.map_cons, memSet]
    by_cases h : e.1 = id
    · rw [if_pos (congrArg p h), if_pos h]
      simp [h]
    · rw [if_neg (fun hc => h (hinj _ _ hc)), if_neg h, ih]
      simp

theorem fillProperty_mem (h : Heap) (m m2 : List (Nat × JSValue)) (a : Nat)
    (key : String) (v : JSValue) :
    fillProperty ⟨h, m2⟩ a key v = ⟨(fillProperty ⟨h, m⟩ a key v).heap, m2⟩ := by
  simp only [fillProperty]
  cases hg : h.get? a with
  | none => rfl
  | some o =>
    cases o <;> first
      | rfl
      | (dsimp only; by_cases hk : key = "length" <;> simp [hk])

theorem fillMapEntry_mem (h : Heap) (m m2 : List (Nat × JSValue)) (a : Nat)
    (k v : JSValue) :
    fillMapEntry ⟨h, m2⟩ a k v = ⟨(fillMapEntry ⟨h, m⟩ a k v).heap, m2⟩ := by
  simp only [fillMapEntry]
  cases hg : h.get? a with
  | none => rfl
  | some o => cases o <;> rfl

theorem fillSetElem_mem (h : Heap) (m m2 : List (Nat × JSValue)) (a : Nat)
    (v : JSValue) :
    fillSetElem ⟨h, m2⟩ a v = ⟨(fillSetElem ⟨h, m⟩ a v).heap, m2⟩ := by
  simp only [fillSetElem]
  cases hg : h.get? a with
  | none => rfl
  | some o => cases o <;> rfl

theorem fillProperty_relabel (p : Nat → Nat) (st : DecodeState) (a : Nat)
    (key : String) (v : JSValue) :
    fillProperty (relabelState p st) a key v = relabelState p (fillProperty st a key v) := by
  cases st with
  | mk h m =>
    have h3 : (fillProperty ⟨h, m⟩ a key v).memory = m := by
      rw [fillProperty_mem h m m a key v]
    show fillProperty ⟨h, m.map fun e => (p e.1, e.2)⟩ a key v = _
    rw [fillProperty_mem h m (m.map fun e => (p e.1, e.2)) a key v]
    show _ = (⟨(fillProperty ⟨h, m⟩ a key v).heap,
      (fillProperty ⟨h, m⟩ a key v).memory.map fun e => (p e.1, e.2)⟩ : DecodeState)
    rw [h3]

theorem fillMapEntry_relabel (p : Nat → Nat) (st : DecodeState) (a : Nat)
    (k v : JSValue) :
    fillMapEntry (relabelState p st) a k v = relabelState p (fillMapEntry st a k v) := by
  cases st with
  | mk h m =>
    have h3 : (fillMapEntry ⟨h, m⟩ a k v).memory = m := by
      rw [fillMapEntry_mem h m m a k v]
    show fillMapEntry ⟨h, m.map fun e => (p e.1, e.2)⟩ a k v = _
    rw [fillMapEntry_mem h m (m.map fun e => (p e.1, e.2)) a k v]
    show _ = (⟨(fillMapEntry ⟨h, m⟩ a k v).heap,
      (fillMapEntry ⟨h, m⟩ a k v).memory.map fun e => (p e.1, e.2)⟩ : DecodeState)
    rw [h3]

theorem fillSetElem_relabel (p : Nat → Nat) (st : DecodeState) (a : Nat)
    (v : JSValue) :
    fillSetElem (relabelState p st) a v = relabelState p (fillSetElem st a v) := by
  cases st with
  | mk h m =>
    have h3 : (fillSetElem ⟨h, m⟩ a v).memory = m := by
      rw [fillSetElem_mem h m m a v]
    show fillSetElem ⟨h, m.map fun e => (p e.1, e.2)⟩ a v = _
    rw [fillSetElem_mem h m (m.map fun e => (p e.1, e.2)) a v]
    show _ = (⟨(fillSetElem ⟨h, m⟩ a v).heap,
      (fillSetElem ⟨h, m⟩ a v).memory.map fun e => (p e.1, e.2)⟩ : DecodeState)
    rw [h3]

theorem alloc_relabel (p : Nat → Nat) (st : DecodeState) (o : JSObject) :
    alloc (relabelState p st) o = ((alloc st o).1, relabelState p (alloc st o).2) := by
  cases st
  rfl

theorem memRegister_relabel (p : Nat → Nat) (hinj : ∀ i j, p i = p j → i = j)
    (st : DecodeState) (id : Nat) (v : JSValue) :
    memRegister (relabelState p st) (p id) v = relabelState p (memRegister st id v) := by
  cases st with
  | mk h m =>
    show (⟨h, memSet (m.map fun e => (p e.1, e.2)) (p id) v⟩ : DecodeState) = _
    rw [memSet_relabel p hinj]
    rfl

theorem deserializeMapData_relabel (p : Nat → Nat)
    (recurse recurse2 : ChildSerialization → DecodeState → DesResult)
    (hrec : ∀ c st, recurse2 (relabelChild p c) (relabelState p st) =
      Except.map (fun q => (q.1, relabelState p q.2)) (recurse c st)) (a : Nat) :
    ∀ (entries : List (ChildSerialization × ChildSerialization)) (st : DecodeState),
      deserializeMapData recurse2 a
          (entries.map fun e => (relabelChild p e.1, relabelChild p e.2))
          (relabelState p st) =
        Except.map (relabelState p) (deserializeMapData recurse a entries st) := by
  intro entries
  induction entries with
  | nil => intro st; rfl
  | cons e es ih =>
    intro st
    simp only [List.map_cons, deserializeMapData]
    rw [hrec e.1 st]
    cases h1 : recurse e.1 st with
    | error err => rw [exMap_err, exBind_err, exBind_err, exMap_err]
    | ok q =>
      obtain ⟨k, st1⟩ := q
      rw [exMap_ok, exBind_ok, exBind_ok]
      dsimp only
      rw [hrec e.2 st1]
      cases h2 : recurse e.2 st1 with
      | error err => rw [exMap_err, exBind_err, exBind_err, exMap_err]
      | ok q2 =>
        obtain ⟨v, st2⟩ := q2
        rw [exMap_ok, exBind_ok, exBind_ok]
        dsimp only
        rw [fillMapEntry_relabel, ih (fillMapEntry st2 a k v)]

theorem deserializeSetData_relabel (p : Nat → Nat)
    (recurse recurse2 : ChildSerialization → DecodeState → DesResult)
    (hrec : ∀ c st, recurse2 (relabelChild p c) (relabelState p st) =
      Except.map (fun q => (q.1, relabelState p q.2)) (recurse c st)) (a : Nat) :
    ∀ (elems : List ChildSerialization) (st : DecodeState),
      deserializeSetData recurse2 a (elems.map (relabelChild p)) (relabelState p st) =
        Except.map (relabelState p) (deserializeSetData recurse a elems st) := by
  intro elems
  induction elems with
  | nil => intro st; rfl
  | cons c cs ih =>
    intro st
    simp only [List.map_cons, deserializeSetData]
    rw [hrec c st]
    cases h1 : recurse c st with
    | error err => rw [exMap_err, exBind_err, exBind_err, exMap_err]
    | ok q =>
      obtain ⟨v, st1⟩ := q
      rw [exMap_ok, exBind_ok, exBind_ok]
      dsimp only
      rw [fillSetElem_relabel, ih (fillSetElem st1 a v)]

theorem deserializeProperties_relabel (p : Nat → Nat)
    (recurse recurse2 : ChildSerialization → DecodeState → DesResult)
    (hrec : ∀ c st, recurse2 (relabelChild p c) (relabelState p st) =
      Except.map (fun q => (q.1, relabelState p q.2)) (recurse c st)) (a : Nat) :
    ∀ (props : List (String × ChildSerialization)) (st : DecodeState),
      deserializeProperties recurse2 a (props.map fun q => (q.1, relabelChild p q.2))
          (relabelState p st) =
        Except.map (relabelState p) (deserializeProperties recurse a props st) := by
  intro props
  induction props with
  | nil => intro st; rfl
  | cons pr ps ih =>
    intro st
    simp only [List.map_cons, deserializeProperties]
    rw [hrec pr.2 st]
    cases h1 : recurse pr.2 st with
    | error err => rw [exMap_err, exBind_err, exBind_err, exMap_err]
    | ok q =>
      obtain ⟨v, st1⟩ := q
      rw [exMap_ok, exBind_ok, exBind_ok]
      dsimp only
      rw [fillProperty_relabel, ih (fillProperty st1 a pr.1 v)]

theorem structuredDeserializeInternal_relabel
    (objects objects2 : List ComplexSerialization) (p : Nat → Nat)
    (hident : ∀ i, objects.length ≤ i → p i = i)
    (hinj : ∀ i j, p i = p j → i = j)
    (hlen : objects2.length = objects.length)
    (hobj : ∀ i, i < objects.length →
      objects2.get? (p i) = (objects.get? i).map (relabelRec p)) :
    ∀ (fuel : Nat) (c : ChildSerialization) (st : DecodeState),
      structuredDeserializeInternal objects2 fuel (relabelChild p c) (relabelState p st) =
        Except.map (fun q => (q.1, relabelState p q.2))
          (structuredDeserializeInternal objects fuel c st) := by
  intro fuel
  induction fuel with
  | zero => intro c st; rfl
  | succ fuel ih =>
    intro c st
    cases c with
    | primitive pr => rfl
    | reference id =>
      dsimp only [relabelChild]
      simp only [structuredDeserializeInternal]
      rw [show (relabelState p st).memory = st.memory.map (fun e => (p e.1, e.2)) from rfl,
          memLookup_relabel p hinj]
      cases hmem : memLookup st.memory id with
      | some v => rfl
      | none =>
        cases hg : objects.get? id with
        | none =>
          have hid : objects.length ≤ id := List.get?_eq_none.mp hg
          have hg2 : objects2.get? (p id) = none := by
            rw [hident id hid]
            exact List.get?_eq_none.mpr (by rw [hlen]; exact hid)
          rw [hg2]
          rfl
        | some cRec =>
          have hidlt : id < objects.length := by
            by_contra hnot
            rw [List.get?_eq_none.mpr (Nat.le_of_not_lt hnot)] at hg
            exact Option.noConfusion hg
          have hg2 : objects2.get? (p id) = some (relabelRec p cRec) := by
            rw [hobj id hidlt, hg]
            rfl
          rw [hg2]
          cases cRec with
          | boolean d =>
            dsimp only [relabelRec, alloc, memRegister, relabelState, Except.map]
            rw [memSet_relabel p hinj]
          | number d =>
            dsimp only [relabelRec, alloc, memRegister, relabelState, Except.map]
            rw [memSet_relabel p hinj]
          | string d =>
            dsimp only [relabelRec, alloc, memRegister, relabelState, Except.map]
            rw [memSet_relabel p hinj]
          | date d =>
            dsimp only [relabelRec, alloc, memRegister, relabelState, Except.map]
            rw [memSet_relabel p hinj]
          | regexp src flags =>
            dsimp only [relabelRec, alloc, memRegister, relabelState, Except.map]
            rw [memSet_relabel p hinj]
          | arrayBuffer n d =>
            dsimp only [relabelRec, alloc, memRegister, relabelState, Except.map]
            rw [memSet_relabel p hinj]
          | error nm msg =>
            dsimp only [relabelRec, alloc, memRegister, relabelState, Except.map]
            rw [memSet_relabel p hinj]
          | unknownType t =>
            dsimp only [relabelRec, memRegister, relabelState, Except.map]
            rw [memSet_relabel p hinj]
          | arrayBufferView nm off len buf =>
            dsimp only [relabelRec]
            cases hbpe : typedArrayBytesPerElement? nm with
            | none => rfl
            | some bpe =>
              dsimp only
              rw [ih buf st]
              cases hb : structuredDeserializeInternal objects fuel buf st with
              | error e => rw [exMap_err, exBind_err, exBind_err, exMap_err]
              | ok q =>
                obtain ⟨bv, st1⟩ := q
                rw [exMap_ok, exBind_ok, exBind_ok]
                dsimp only
                cases bv <;> try rfl
                rename_i ba
                dsimp only
                rw [show (relabelState p st1).heap = st1.heap from rfl]
                cases hgb : st1.heap.get? ba with
                | none => rfl
                | some o =>
                  cases o <;> try rfl
                  rename_i bytes
                  dsimp only
                  by_cases hoff : off % bpe ≠ 0
                  · rw [if_pos hoff, if_pos hoff, exMap_err]
                  · rw [if_neg hoff, if_neg hoff]
                    by_cases hlen2 : bytes.length < off + len * bpe
                    · rw [if_pos hlen2, if_pos hlen2, exMap_err]
                    · rw [if_neg hlen2, if_neg hlen2]
                      dsimp only [alloc, memRegister, relabelState, Except.map]
                      rw [memSet_relabel p hinj]
          | map mapData =>
            dsimp only [relabelRec, alloc, memRegister, relabelState]
            rw [memSet_relabel p hinj]
            have hmd := deserializeMapData_relabel p
              (structuredDeserializeInternal objects fuel)
              (structuredDeserializeInternal objects2 fuel) ih st.heap.length mapData
              ⟨st.heap ++ [JSObject.map []], memSet st.memory id (.addr st.heap.length)⟩
            dsimp only [relabelState] at hmd
            rw [hmd]
            cases hd : deserializeMapData (structuredDeserializeInternal objects fuel)
                st.heap.length mapData
                ⟨st.heap ++ [JSObject.map []], memSet st.memory id (.addr st.heap.length)⟩ with
            | error e => rfl
            | ok st3 => rfl
          | set setData =>
            dsimp only [relabelRec, alloc, memRegister, relabelState]
            rw [memSet_relabel p hinj]
            have hsd := deserializeSetData_relabel p
              (structuredDeserializeInternal objects fuel)
              (structuredDeserializeInternal objects2 fuel) ih st.heap.length setData
              ⟨st.heap ++ [JSObject.set []], memSet st.memory id (.addr st.heap.length)⟩
            dsimp only [relabelState] at hsd
            rw [hsd]
            cases hd : deserializeSetData (structuredDeserializeInternal objects fuel)
                st.heap.length setData
                ⟨st.heap ++ [JSObject.set []], memSet st.memory id (.addr st.heap.length)⟩ with
            | error e => rfl
            | ok st3 => rfl
          | array len props =>
            dsimp only [relabelRec, alloc, memRegister, relabelState]
            rw [memSet_relabel p hinj]
            have hpd := deserializeProperties_relabel p
              (structuredDeserializeInternal objects fuel)
              (structuredDeserializeInternal objects2 fuel) ih st.heap.length props
              ⟨st.heap ++ [JSObject.array len []], memSet st.memory id (.addr st.heap.length)⟩
            dsimp only [relabelState] at hpd
            rw [hpd]
            cases hd : deserializeProperties (structuredDeserializeInternal objects fuel)
                st.heap.length props
                ⟨st.heap ++ [JSObject.array len []], memSet st.memory id (.addr st.heap.length)⟩ with
            | error e => rfl
            | ok st3 => rfl
          | object props =>
            dsimp only [relabelRec, alloc, memRegister, relabelState]
            rw [memSet_relabel p hinj]
            have hpd := deserializeProperties_relabel p
              (structuredDeserializeInternal objects fuel)
              (structuredDeserializeInternal objects2 fuel) ih st.heap.length props
              ⟨st.heap ++ [JSObject.object []], memSet st.memory id (.addr st.heap.length)⟩
            dsimp only [relabelState] at hpd
            rw [hpd]
            cases hd : deserializeProperties (structuredDeserializeInternal objects fuel)
                st.heap.length props
                ⟨st.heap ++ [JSObject.object []], memSet st.memory id (.addr st.heap.length)⟩ with
            | error e => rfl
            | ok st3 => rfl

/-- C6.  Decoding is independent of record-array order.  A record id is its
position in the objects array, so a reordering in which every record keeps its
assigned id is a renaming p of positions (a permutation of the occupied range
that fixes everything past it) applied both to the array positions and to
every Reference id in the envelope.  Decoding the reordered envelope returns
exactly the same result - the same value over the same heap - as decoding the
original. -/
theorem structuredDeserialize_order_independent :
    ∀ (objects objects2 : List ComplexSerialization) (p : Nat → Nat)
      (root : ChildSerialization),
      (∀ i, objects.length ≤ i → p i = i) →
      (∀ i j, p i = p j → i = j) →
      objects2.length = objects.length →
      (∀ i, i < objects.length →
        objects2.get? (p i) = (objects.get? i).map (relabelRec p)) →
      structuredDeserialize (.topLevel objects2 (relabelChild p root)) =
        structuredDeserialize (.topLevel objects root) := by
  intro objects objects2 p root hident hinj hlen hobj
  have hsim := structuredDeserializeInternal_relabel objects objects2 p hident hinj hlen hobj
    (deserializeFuel objects) root DecodeState.initial
  have hfuel : deserializeFuel objects2 = deserializeFuel objects := by
    simp [deserializeFuel, hlen]
  have hinit : relabelState p DecodeState.initial = DecodeState.initial := rfl
  rw [hinit] at hsim
  simp only [structuredDeserialize]
  rw [hfuel, hsim]
  cases hres : structuredDeserializeInternal objects (deserializeFuel objects) root
      DecodeState.initial with
  | error e => rfl
  | ok q => rfl

/-- C6 witness: swapping the two records of a concrete envelope (a record
object referencing a string record) while renaming the ids accordingly decodes
to the identical result. -/
theorem structuredDeserialize_order_independent_witness :
    structuredDeserialize (.topLevel
        [ComplexSerialization.string "x",
         .object [("a", ChildSerialization.reference 0)]]
        (relabelChild (fun i => if i = 0 then 1 else if i = 1 then 0 else i)
          (.reference 0))) =
      structuredDeserialize (.topLevel
        [ComplexSerialization.object [("a", ChildSerialization.reference 1)],
         .string "x"] (.reference 0)) :=
  structuredDeserialize_order_independent
    [ComplexSerialization.object [("a", ChildSerialization.reference 1)], .string "x"]
    [ComplexSerialization.string "x", .object [("a", ChildSerialization.reference 0)]]
    (fun i => if i = 0 then 1 else if i = 1 then 0 else i) (.reference 0)
    (by
      intro i hi
      simp only [List.length_cons, List.length_nil] at hi
      have h0 : i ≠ 0 := by omega
      have h1 : i ≠ 1 := by omega
      simp [h0, h1])
    (by
      intro i j hpe
      have hinv : ∀ k : Nat, (if (if k = 0 then 1 else if k = 1 then 0 else k) = 0 then 1
          else if (if k = 0 then 1 else if k = 1 then 0 else k) = 1 then 0
          else (if k = 0 then 1 else if k = 1 then 0 else k)) = k := by
        intro k
        by_cases h0 : k = 0
        · simp [h0]
        · by_cases h1 : k = 1
          · simp [h1]
          · simp [h0, h1]
      have h2 : (if (if i = 0 then 1 else if i = 1 then 0 else i) = 0 then 1
          else if (if i = 0 then 1 else if i = 1 then 0 else i) = 1 then 0
          else (if i = 0 then 1 else if i = 1 then 0 else i)) =
          (if (if j = 0 then 1 else if j = 1 then 0 else j) = 0 then 1
          else if (if j = 0 then 1 else if j = 1 then 0 else j) = 1 then 0
          else (if j = 0 then 1 else if j = 1 then 0 else j)) :=
        congrArg (fun k => if k = 0 then 1 else if k = 1 then 0 else k) hpe
      rw [hinv i, hinv j] at h2
      exact h2)
    rfl
    (by
      intro i hi
      simp only [List.length_cons, List.length_nil] at hi
      interval_cases i <;> rfl)

end WeegSerializer
